import Mathlib

/-!
# Words in grid: a trie of letter nodes and an availability-constrained search

Embedding of `src/words_in_grid.cpp`.

* The C++ heap of `LetterNode` objects is a list of records; a `LetterNode*` is an
  index into that list (`new` appends, so the address of the k-th allocated node is k);
  the null pointer is `none`.
* The 26-entry arrays (`wordTree`, `letters`) are lists read and written at an `Int`
  index; an index outside the array is an `outOfRange` fault (undefined behaviour in C++).
* The `int` counters are integers kept within the 32-bit range: the increment of the
  counting loop of `findAllWords` reports a signed overflow (undefined behaviour in C++)
  as the fault `overflow`; the decrements and restoring increments of the search act on
  a positive count and on the count just decremented, so they cannot leave the range.
  The `unsigned int` index of the counting loop wraps on a query of `2^32` characters
  or more, which is reported as `overflow` too.
* Recursion over the pointer structure (`findWord`, `operator<<`) takes a fuel argument.
-/

namespace WordsInGrid

/-- Ways in which the embedded program can go wrong. -/
inductive Fault where
  | outOfRange
  | badPointer
  | outOfFuel
  | overflow
deriving DecidableEq, Repr

/-- The class `LetterNode` (lines 49-67): a letter, the word-end flag, the parent
pointer and the list of child pointers. -/
structure LetterNode where
  letter : Char
  endOfWord : Bool
  parent : Option Nat
  children : List Nat
deriving DecidableEq, Repr

namespace LetterNode

/-- Constructor `LetterNode(char l, bool word)`: parent is NULL, no children. -/
def new (l : Char) (word : Bool) : LetterNode :=
  { letter := l, endOfWord := word, parent := none, children := [] }

/-- Method `addChild`: `children.push_back(child)`. -/
def addChild (n : LetterNode) (child : Nat) : LetterNode :=
  { n with children := n.children ++ [child] }

/-- Method `setParent`. -/
def setParent (n : LetterNode) (p : Nat) : LetterNode :=
  { n with parent := some p }

/-- Method `setEndOfWord`. -/
def setEndOfWord (n : LetterNode) (set : Bool) : LetterNode :=
  { n with endOfWord := set }

end LetterNode

/-- The heap of allocated nodes; a pointer is a position in it. -/
abbrev Heap := List LetterNode

/-- The value returned by `makeWordTree`: the 26-entry array `wordTree` of root
pointers, together with the heap the pointers refer to. -/
structure WordTree where
  heap : Heap
  roots : List Nat
deriving DecidableEq, Repr

/-- Dereference of a node pointer. -/
def deref (h : Heap) (p : Nat) : Except Fault LetterNode :=
  match h[p]? with
  | some n => .ok n
  | none => .error .badPointer

/-- Array read `a[i]` with an `int` index. -/
def readAt {α : Type} (a : List α) (i : Int) : Except Fault α :=
  if 0 ≤ i then
    match a[i.toNat]? with
    | some v => .ok v
    | none => .error .outOfRange
  else .error .outOfRange

/-- Array write `a[i] = v` with an `int` index. -/
def writeAt {α : Type} (a : List α) (i : Int) (v : α) : Except Fault (List α) :=
  if 0 ≤ i ∧ i.toNat < a.length then .ok (a.set i.toNat v) else .error .outOfRange

/-- The index expression `int(c) - 97`. -/
def letterIndex (c : Char) : Int := (c.toNat : Int) - 97

/-- The function `operator<<` (lines 70-77): print the parent chain, then the letter of
the node; nothing for the null pointer. The result is the text written to `out`. -/
def printNode (h : Heap) : Nat → Option Nat → Except Fault (List Char)
  | 0, _ => .error .outOfFuel
  | _ + 1, none => .ok []
  | fuel + 1, some ln => do
    let node ← deref h ln
    let out ← printNode h fuel node.parent
    .ok (out ++ [node.letter])

/-- The loop over the children in `findWord` (lines 85-93); `recurse` is the recursive
call of `findWord`. -/
def visitChildren (recurse : List Int → Nat → List Nat → Except Fault (List Int × List Nat))
    (h : Heap) : List Nat → List Int → List Nat → Except Fault (List Int × List Nat)
  | [], lettersAvailable, knownWords => .ok (lettersAvailable, knownWords)
  | child :: rest, lettersAvailable, knownWords => do
    let cn ← deref h child
    let v ← readAt lettersAvailable (letterIndex cn.letter)
    if v > 0 then
      let l1 ← writeAt lettersAvailable (letterIndex cn.letter) (v - 1)
      let (l2, known2) ← recurse l1 child knownWords
      let v2 ← readAt l2 (letterIndex cn.letter)
      let l3 ← writeAt l2 (letterIndex cn.letter) (v2 + 1)
      visitChildren recurse h rest l3 known2
    else
      visitChildren recurse h rest lettersAvailable knownWords

/-- The function `findWord` (lines 79-95). Returns the count array and the list
`knownWords` as they are when the call returns. -/
def findWord (h : Heap) : Nat → List Int → Nat → List Nat → Except Fault (List Int × List Nat)
  | 0, _, _, _ => .error .outOfFuel
  | fuel + 1, lettersAvailable, currentNode, knownWords => do
    let node ← deref h currentNode
    let knownWords := if node.endOfWord then knownWords ++ [currentNode] else knownWords
    visitChildren (findWord h fuel) h node.children lettersAvailable knownWords

/-- The counting loop of `findAllWords` (lines 103-106). The counts are `int`: the
statement `letters[...] += 1` on a count of `2^31 - 1` is a signed overflow. -/
def countLetters : List Char → List Int → Except Fault (List Int)
  | [], letters => .ok letters
  | c :: rest, letters => do
    let v ← readAt letters (letterIndex c)
    if v + 1 > 2147483647 then .error .overflow
    else
      let letters ← writeAt letters (letterIndex c) (v + 1)
      countLetters rest letters

/-- The loop over the 26 starting points in `findAllWords` (lines 109-118), run over
the list of the indices still to visit. -/
def scanRoots (fuel : Nat) (t : WordTree) :
    List Nat → List Int → List Nat → Except Fault (List Int × List Nat)
  | [], letters, words => .ok (letters, words)
  | i :: rest, letters, words => do
    let v ← readAt letters (i : Int)
    if v > 0 then
      let l1 ← writeAt letters (i : Int) (v - 1)
      let root ← readAt t.roots (i : Int)
      let (l2, words2) ← findWord t.heap fuel l1 root words
      let v2 ← readAt l2 (i : Int)
      let l3 ← writeAt l2 (i : Int) (v2 + 1)
      scanRoots fuel t rest l3 words2
    else
      scanRoots fuel t rest letters words

/-- The function `findAllWords` (lines 98-118) up to the printing: the count array
after the root loop and the list `words` of collected node pointers. The index of the
counting loop is an `unsigned int` compared with `grid.size()`: on a grid of `2^32`
characters or more it wraps to 0 after the first pass and the loop goes on incrementing
the counts until one of them overflows. -/
def findAllWordsState (fuel : Nat) (grid : List Char) (t : WordTree) :
    Except Fault (List Int × List Nat) := do
  let letters ← countLetters grid (List.replicate 26 0)
  if 4294967296 ≤ grid.length then .error .overflow
  else scanRoots fuel t (List.range 26) letters []

/-- The list `words` collected by `findAllWords`. -/
def findAllWords (fuel : Nat) (grid : List Char) (t : WordTree) : Except Fault (List Nat) := do
  let r ← findAllWordsState fuel grid t
  .ok r.2

/-- The search for a child with the letter `c` (lines 155-164): the first child in list
order whose letter is `c`, if any. -/
def findChild (h : Heap) (c : Char) : List Nat → Except Fault (Option Nat)
  | [] => .ok none
  | p :: rest => do
    let cn ← deref h p
    if cn.letter = c then .ok (some p) else findChild h c rest

/-- The loop over `word[1..]` in `makeWordTree` (lines 151-174): returns the heap and
the final `currentNode`. -/
def insertLoop : Heap → Nat → List Char → Except Fault (Heap × Nat)
  | h, currentNode, [] => .ok (h, currentNode)
  | h, currentNode, c :: rest => do
    let node ← deref h currentNode
    let found ← findChild h c node.children
    match found with
    | some p => insertLoop h p rest
    | none =>
      let newNode := h.length
      let h1 := h ++ [(LetterNode.new c false).setParent currentNode]
      let h2 := h1.set currentNode (node.addChild newNode)
      insertLoop h2 newNode rest

/-- The body of the `while (infile >> word)` loop of `makeWordTree` (lines 148-176);
`word[0]` of an empty `std::string` is the null character. -/
def insertWord (t : WordTree) (word : List Char) : Except Fault WordTree := do
  let start ← readAt t.roots (letterIndex (word.headD (Char.ofNat 0)))
  let (h, last) ← insertLoop t.heap start word.tail
  let node ← deref h last
  .ok { t with heap := h.set last (node.setEndOfWord true) }

/-- The 26 roots allocated at lines 139-143. -/
def initialTree : WordTree :=
  { heap := (List.range 26).map (fun i => LetterNode.new (Char.ofNat (i + 97)) false)
    roots := List.range 26 }

/-- The function `makeWordTree` (lines 136-181) on the sequence of words read from
the file. -/
def makeWordTree (words : List (List Char)) : Except Fault WordTree :=
  words.foldlM insertWord initialTree

/-! ## Specification-level definitions -/

/-- Lowercase letters: the characters with codes 97..122. -/
def isLower (c : Char) : Prop := 97 ≤ c.toNat ∧ c.toNat ≤ 122

instance : DecidablePred isLower := fun c => by unfold isLower; infer_instance

/-- A 26-entry array given by its entries. -/
def arr (g : Nat → Int) : List Int := (List.range 26).map g

/-- Number of occurrences in `s` of the character with code `k`. -/
def codeCount (s : List Char) (k : Nat) : Nat := (s.map Char.toNat).count k

/-- Number of occurrences in `s` of the letter with index `i` (code `i + 97`). -/
def letterCount (s : List Char) (i : Nat) : Int := (codeCount s (i + 97) : Nat)

/-- Entry `i` of the count array when the letters of `s` have been taken out of `q`. -/
def avail (q s : List Char) (i : Nat) : Int := letterCount q i - letterCount s i

/-- The letter stored at the pointer `p` (the null character when `p` is dangling). -/
def letterAt (h : Heap) (p : Nat) : Char :=
  match h[p]? with
  | some nd => nd.letter
  | none => Char.ofNat 0

/-- The string that `operator<<` prints for the node `n`. -/
def wordOf (h : Heap) (n : Nat) : List Char :=
  match printNode h (n + 2) (some n) with
  | .ok s => s
  | .error _ => []

/-- Shape of the heap: child and parent pointers agree, a child is allocated after its
parent, the children of a node carry distinct letters, and the nodes without a parent
are the 26 roots, root `i` carrying the letter with code `i + 97`. -/
structure WF (h : Heap) : Prop where
  child : ∀ (n : Nat) (nd : LetterNode), h[n]? = some nd → ∀ c ∈ nd.children,
    n < c ∧ ∃ cd : LetterNode, h[c]? = some cd ∧ cd.parent = some n
  parent : ∀ (n : Nat) (nd : LetterNode) (p : Nat), h[n]? = some nd → nd.parent = some p →
    ∃ pd : LetterNode, h[p]? = some pd ∧ n ∈ pd.children
  distinct : ∀ (n : Nat) (nd : LetterNode), h[n]? = some nd →
    nd.children.Pairwise (fun a b => letterAt h a ≠ letterAt h b)
  rootIff : ∀ (n : Nat) (nd : LetterNode), h[n]? = some nd → (nd.parent = none ↔ n < 26)
  rootLetter : ∀ i : Nat, i < 26 →
    ∃ nd : LetterNode, h[i]? = some nd ∧ nd.letter.toNat = i + 97

/-- The child pointers of the node at `n`. -/
def childrenOf (h : Heap) (n : Nat) : List Nat :=
  match h[n]? with
  | some nd => nd.children
  | none => []

/-- The word-end flag of the node at `n`. -/
def isEnd (h : Heap) (n : Nat) : Bool :=
  match h[n]? with
  | some nd => nd.endOfWord
  | none => false

/-- Pre-order traversal of the tree below `n`: the node, then the traversals of its
children in list order. -/
def preorder (h : Heap) : Nat → Nat → List Nat
  | 0, _ => []
  | fuel + 1, n => n :: (childrenOf h n).flatMap (preorder h fuel)

/-- Pre-order traversal of the 26 trees, roots in array order. -/
def preorderAll (t : WordTree) : List Nat :=
  t.roots.flatMap (preorder t.heap t.heap.length)

/-- The node at `n` is a word end and its word is a sub-multiset of `q`. -/
def collectible (h : Heap) (q : List Char) (n : Nat) : Bool :=
  isEnd h n && decide ((wordOf h n).Subperm q)

/-- The heap `h2` extends the heap `h`: every node of `h` is still there with the same
letter and parent, a word-end flag that was set is still set, and its child list is
the old one followed by pointers to nodes allocated later. -/
structure Ext (h h2 : Heap) : Prop where
  len : h.length ≤ h2.length
  old : ∀ (n : Nat) (nd : LetterNode), h[n]? = some nd →
    ∃ nd2 : LetterNode, h2[n]? = some nd2 ∧ nd2.letter = nd.letter ∧ nd2.parent = nd.parent ∧
      (nd.endOfWord = true → nd2.endOfWord = true) ∧
      ∃ extra : List Nat, nd2.children = nd.children ++ extra ∧ ∀ e ∈ extra, h.length ≤ e

/-- Walking from `cur` along the letters of `rest` through existing children (each found
by the child search of `makeWordTree`) ends at `last`. -/
def Walk (h : Heap) : Nat → List Char → Nat → Prop
  | cur, [], last => cur = last
  | cur, c :: rest, last =>
    ∃ (nd : LetterNode) (p : Nat),
      h[cur]? = some nd ∧ findChild h c nd.children = .ok (some p) ∧ Walk h p rest last

/-- The heap after lines 168-170: a new node with letter `c` and parent `cur` is
allocated and appended to the children of the node `nd` stored at `cur`. -/
def allocChild (h : Heap) (cur : Nat) (nd : LetterNode) (c : Char) : Heap :=
  (h ++ [(LetterNode.new c false).setParent cur]).set cur (nd.addChild h.length)

/-- The word `w` has a complete path in the trie: starting from the root selected by
its first letter, the child search succeeds for each further letter and the node
reached is flagged as a word end. -/
def Present (t : WordTree) (w : List Char) : Prop :=
  ∃ (start last : Nat), readAt t.roots (letterIndex (w.headD (Char.ofNat 0))) = .ok start ∧
    Walk t.heap start w.tail last ∧ isEnd t.heap last = true

/-- The invariant relating a trie to the list of words inserted so far. -/
structure Inv (dict : List (List Char)) (t : WordTree) : Prop where
  roots : t.roots = List.range 26
  wf : WF t.heap
  lower : ∀ nd ∈ t.heap, isLower nd.letter
  flag : ∀ n : Nat, isEnd t.heap n = true → wordOf t.heap n ∈ dict
  found : ∀ w ∈ dict, ∃ n : Nat, isEnd t.heap n = true ∧ wordOf t.heap n = w
  present : ∀ w ∈ dict, Present t w
  stem : ∀ (n : Nat) (x : LetterNode), t.heap[n]? = some x → 26 ≤ n →
    ∃ w ∈ dict, ∃ s : List Char, w = wordOf t.heap n ++ s

/-- The words the dictionary file may contain: non-empty, all letters lowercase. -/
def ValidWord (w : List Char) : Prop := w ≠ [] ∧ ∀ c ∈ w, isLower c

instance : DecidablePred ValidWord := fun w => by unfold ValidWord; infer_instance

deriving instance DecidableEq for Except

/-- The dictionary of the first concrete scenario of the specification. -/
def dictLad : List (List Char) :=
  [['l', 'a', 'd'], ['l', 'a', 'n'], ['l', 'a', 'd'], ['l', 'i', 'n'], ['i', 'o']]

/-- The query of the first concrete scenario of the specification. -/
def queryAdiln : List Char := ['a', 'd', 'i', 'l', 'n']

/-- The words printed for a query: the collected nodes, each printed by `operator<<`
(lines 123-124 of `findAllWords`). -/
def printedWords (fuel : Nat) (grid : List Char) (t : WordTree) :
    Except Fault (List (List Char)) := do
  let words ← findAllWords fuel grid t
  words.mapM (fun n => printNode t.heap (n + 2) (some n))

/-- No node of the heap has two children carrying the same letter. -/
def DistinctChildren (h : Heap) : Prop :=
  ∀ (n : Nat) (x : LetterNode), h[n]? = some x → (x.children.map (letterAt h)).Nodup

/-- The list `path` leads from the node `a` down to the node `n`: each node of `path` is
a child of the node before it (`a` first), and `n` is the last node reached. -/
def Descends (h : Heap) : Nat → List Nat → Nat → Prop
  | a, [], n => a = n
  | a, b :: rest, n => b ∈ childrenOf h a ∧ Descends h b rest n

/-- Length of the longest word of the dictionary (0 for the empty dictionary). -/
def maxWordLength (dict : List (List Char)) : Nat := (dict.map List.length).foldr max 0

/-- The trie with every word-end flag set. -/
def allFlagged (t : WordTree) : WordTree :=
  { t with heap := t.heap.map (fun nd => nd.setEndOfWord true) }

/-- The nodes on which `findWord` is called during `findAllWords`, in call order.
`findWord` reads the flag of `currentNode` only at line 83, to decide whether to append
it to `knownWords`, and the descent into the children does not depend on any flag; so
the sequence collected on the trie with all flags set lists every node on which
`findWord` is called on the trie itself. -/
def visitedNodes (fuel : Nat) (grid : List Char) (t : WordTree) : Except Fault (List Nat) :=
  findAllWords fuel grid (allFlagged t)

/-- The queries that the counting loop of `findAllWords` handles within the machine
integers: fewer than `2^32` characters (the loop index is an `unsigned int`) and at most
`2^31 - 1` occurrences of each character (the counts are `int`). -/
def FitsInt (q : List Char) : Prop :=
  q.length < 4294967296 ∧ ∀ c : Char, q.count c ≤ 2147483647

/-- The loop over the children in `findWord` (lines 85-93) with the memory of the nodes
made explicit: the heap is handed to every statement and handed back, and after the
recursive call the letter of the child is read again from the heap the call left, as
line 91 does. `recurse` is the recursive call. -/
def visitChildrenMem
    (recurse : Heap → List Int → Nat → List Nat → Except Fault (Heap × List Int × List Nat)) :
    Heap → List Nat → List Int → List Nat → Except Fault (Heap × List Int × List Nat)
  | h, [], lettersAvailable, knownWords => .ok (h, lettersAvailable, knownWords)
  | h, child :: rest, lettersAvailable, knownWords => do
    let cn ← deref h child
    let v ← readAt lettersAvailable (letterIndex cn.letter)
    if v > 0 then
      let l1 ← writeAt lettersAvailable (letterIndex cn.letter) (v - 1)
      let (h2, l2, known2) ← recurse h l1 child knownWords
      let cn2 ← deref h2 child
      let v2 ← readAt l2 (letterIndex cn2.letter)
      let l3 ← writeAt l2 (letterIndex cn2.letter) (v2 + 1)
      visitChildrenMem recurse h2 rest l3 known2
    else
      visitChildrenMem recurse h rest lettersAvailable knownWords

/-- The function `findWord` (lines 79-95) as a transformer of the memory it reaches
through its pointer arguments: the heap of nodes, the count array and the list
`knownWords`. -/
def findWordMem :
    Nat → Heap → List Int → Nat → List Nat → Except Fault (Heap × List Int × List Nat)
  | 0, _, _, _, _ => .error .outOfFuel
  | fuel + 1, h, lettersAvailable, currentNode, knownWords => do
    let node ← deref h currentNode
    let knownWords := if node.endOfWord then knownWords ++ [currentNode] else knownWords
    visitChildrenMem (findWordMem fuel) h node.children lettersAvailable knownWords

/-- The loop over the 26 starting points (lines 109-118) as a transformer of the trie,
the count array and the list `words`. -/
def scanRootsMem (fuel : Nat) :
    WordTree → List Nat → List Int → List Nat → Except Fault (WordTree × List Int × List Nat)
  | t, [], letters, words => .ok (t, letters, words)
  | t, i :: rest, letters, words => do
    let v ← readAt letters (i : Int)
    if v > 0 then
      let l1 ← writeAt letters (i : Int) (v - 1)
      let root ← readAt t.roots (i : Int)
      let (h2, l2, words2) ← findWordMem fuel t.heap l1 root words
      let v2 ← readAt l2 (i : Int)
      let l3 ← writeAt l2 (i : Int) (v2 + 1)
      scanRootsMem fuel { t with heap := h2 } rest l3 words2
    else
      scanRootsMem fuel t rest letters words

/-- The function `findAllWords` (lines 98-132) as a transformer of the program memory.
The count array is allocated at line 100 and deleted at line 131 and the list `words` is
a local variable, so what the call leaves behind is the trie; the result also carries the
collected nodes, which the call prints. -/
def findAllWordsMem (fuel : Nat) (grid : List Char) (t : WordTree) :
    Except Fault (WordTree × List Nat) := do
  let letters ← countLetters grid (List.replicate 26 0)
  if 4294967296 ≤ grid.length then .error .overflow
  else
    let (t2, _, words) ← scanRootsMem fuel t (List.range 26) letters []
    .ok (t2, words)

/-- Two successive calls of `findAllWords` with the same query, as the loop of `main`
(lines 211-215) makes them: the second call runs on the memory the first one left. The
result is the trie after both calls and the two collected sequences. -/
def twoCalls (fuel1 fuel2 : Nat) (grid : List Char) (t : WordTree) :
    Except Fault (WordTree × List Nat × List Nat) := do
  let (t1, r1) ← findAllWordsMem fuel1 grid t
  let (t2, r2) ← findAllWordsMem fuel2 grid t1
  .ok (t2, r1, r2)

/-! ## Arrays and letter indices -/

theorem readAt_arr (g : Nat → Int) (i : Nat) (hi : i < 26) :
    readAt (arr g) (i : Int) = .ok (g i) := by
  simp [readAt, arr, List.getElem?_range hi]

theorem writeAt_arr (g : Nat → Int) (i : Nat) (hi : i < 26) (v : Int) :
    writeAt (arr g) (i : Int) v = .ok (arr (Function.update g i v)) := by
  have hlen : (arr g).length = 26 := by simp [arr]
  simp only [writeAt, Int.toNat_ofNat, hlen, hi, Int.ofNat_nonneg, and_self, if_true]
  congr 1
  apply List.ext_getElem?
  intro n
  simp only [arr, List.getElem?_set, List.getElem?_map, List.length_map, List.length_range]
  by_cases hn : i = n
  · subst hn
    simp [hi, List.getElem?_range hi]
  · simp only [hn, if_false]
    by_cases hn2 : n < 26
    · simp [List.getElem?_range hn2, Function.update, Ne.symm hn]
    · have hn3 : (List.range 26).length ≤ n := by simp; omega
      simp [List.getElem?_eq_none hn3]

theorem arr_congr {g g2 : Nat → Int} (hg : ∀ i, i < 26 → g i = g2 i) : arr g = arr g2 := by
  unfold arr
  apply List.map_congr_left
  intro i hi
  exact hg i (List.mem_range.mp hi)

theorem arr_inj {g g2 : Nat → Int} (hg : arr g = arr g2) : ∀ i, i < 26 → g i = g2 i := by
  intro i hi
  have h1 := readAt_arr g i hi
  rw [hg, readAt_arr g2 i hi] at h1
  injection h1 with h1
  exact h1.symm

theorem replicate_eq_arr : List.replicate 26 (0 : Int) = arr (fun _ => 0) := by
  decide

theorem letterIndex_of_isLower {c : Char} (hc : isLower c) :
    letterIndex c = ((c.toNat - 97 : Nat) : Int) ∧ c.toNat - 97 < 26 ∧ (c.toNat - 97) + 97 = c.toNat := by
  unfold isLower at hc
  unfold letterIndex
  omega

theorem letterIndex_range_iff (c : Char) :
    (0 ≤ letterIndex c ∧ letterIndex c < 26) ↔ isLower c := by
  unfold isLower letterIndex
  omega

theorem readAt_arr_out (g : Nat → Int) (i : Int) (hi : ¬ (0 ≤ i ∧ i < 26)) :
    readAt (arr g) i = .error .outOfRange := by
  unfold readAt
  split
  · rename_i h0
    have h26 : 26 ≤ i.toNat := by omega
    simp [arr, List.getElem?_eq_none, h26]
  · rfl

theorem toNat_injective {c d : Char} (h : c.toNat = d.toNat) : c = d := by
  rw [← Char.ofNat_toNat c, ← Char.ofNat_toNat d, h]

theorem toNat_ofNat_letter (i : Nat) (hi : i < 26) : (Char.ofNat (i + 97)).toNat = i + 97 := by
  interval_cases i <;> decide

/-! ## The word of a node -/

theorem mem_of_get {h : Heap} {p : Nat} {nd : LetterNode} (hp : h[p]? = some nd) : nd ∈ h :=
  List.mem_iff_getElem?.mpr ⟨p, hp⟩

theorem lt_of_get {h : Heap} {p : Nat} {nd : LetterNode} (hp : h[p]? = some nd) :
    p < h.length := by
  obtain ⟨hlt, _⟩ := List.getElem?_eq_some.mp hp
  exact hlt

theorem deref_eq_ok {h : Heap} {p : Nat} {nd : LetterNode} (hp : h[p]? = some nd) :
    deref h p = .ok nd := by
  simp [deref, hp]

theorem WF.parent_lt {h : Heap} (wf : WF h) {n p : Nat} {nd : LetterNode}
    (hn : h[n]? = some nd) (hp : nd.parent = some p) : p < n := by
  obtain ⟨pd, hpd, hmem⟩ := wf.parent n nd p hn hp
  exact (wf.child p pd hpd n hmem).1

theorem printNode_exists {h : Heap} (wf : WF h) :
    ∀ n nd, h[n]? = some nd →
      ∃ s, ∀ fuel, n + 2 ≤ fuel → printNode h fuel (some n) = .ok s := by
  intro n
  induction n using Nat.strong_induction_on with
  | _ n ih =>
    intro nd hn
    cases hp : nd.parent with
    | none =>
      refine ⟨[nd.letter], ?_⟩
      intro fuel hfuel
      obtain ⟨f, rfl⟩ : ∃ f, fuel = f + 2 := ⟨fuel - 2, by omega⟩
      simp [printNode, deref_eq_ok hn, hp, bind, Except.bind]
    | some p =>
      obtain ⟨pd, hpd, _⟩ := wf.parent n nd p hn hp
      have hlt := wf.parent_lt hn hp
      obtain ⟨s, hs⟩ := ih p hlt pd hpd
      refine ⟨s ++ [nd.letter], ?_⟩
      intro fuel hfuel
      obtain ⟨f, rfl⟩ : ∃ f, fuel = f + 1 := ⟨fuel - 1, by omega⟩
      simp [printNode, deref_eq_ok hn, hp, hs f (by omega), bind, Except.bind]

theorem printNode_enough {h : Heap} (wf : WF h) {n : Nat} {nd : LetterNode}
    (hn : h[n]? = some nd) (fuel : Nat) (hfuel : n + 2 ≤ fuel) :
    printNode h fuel (some n) = .ok (wordOf h n) := by
  obtain ⟨s, hs⟩ := printNode_exists wf n nd hn
  have h2 := hs (n + 2) (le_refl _)
  simp [wordOf, h2, hs fuel hfuel]

theorem wordOf_root {h : Heap} (_wf : WF h) {n : Nat} {nd : LetterNode}
    (hn : h[n]? = some nd) (hp : nd.parent = none) : wordOf h n = [nd.letter] := by
  simp [wordOf, printNode, deref_eq_ok hn, hp, bind, Except.bind]

theorem wordOf_child {h : Heap} (wf : WF h) {n p : Nat} {nd : LetterNode}
    (hn : h[n]? = some nd) (hp : nd.parent = some p) :
    wordOf h n = wordOf h p ++ [nd.letter] := by
  obtain ⟨pd, hpd, _⟩ := wf.parent n nd p hn hp
  have hlt := wf.parent_lt hn hp
  have h1 := printNode_enough wf hpd (n + 1) (by omega)
  have h2 : printNode h (n + 2) (some n) = .ok (wordOf h p ++ [nd.letter]) := by
    simp [printNode, deref_eq_ok hn, hp, h1, bind, Except.bind]
  simp [wordOf, h2]

theorem wordOf_ne_nil {h : Heap} (wf : WF h) {n : Nat} {nd : LetterNode}
    (hn : h[n]? = some nd) : wordOf h n ≠ [] := by
  cases hp : nd.parent with
  | none => simp [wordOf_root wf hn hp]
  | some p => simp [wordOf_child wf hn hp]

/-! ## Letter counts -/

theorem codeCount_append (s t : List Char) (k : Nat) :
    codeCount (s ++ t) k = codeCount s k + codeCount t k := by
  simp [codeCount, List.count_append]

theorem codeCount_singleton (c : Char) (k : Nat) :
    codeCount [c] k = if c.toNat = k then 1 else 0 := by
  unfold codeCount
  by_cases h : c.toNat = k
  · simp [h]
  · have h2 : ¬ k = c.toNat := fun e => h e.symm
    simp [h, List.count_singleton, h2]

theorem codeCount_le_length (s : List Char) (k : Nat) : codeCount s k ≤ s.length := by
  unfold codeCount
  have := List.count_le_length k (s.map Char.toNat)
  simpa using this

theorem codeCount_toNat (s : List Char) (c : Char) : codeCount s c.toNat = s.count c := by
  unfold codeCount
  exact List.count_map_of_injective s Char.toNat (fun _ _ hab => toNat_injective hab) c

theorem subperm_iff_codeCount (s q : List Char) :
    s.Subperm q ↔ ∀ k, codeCount s k ≤ codeCount q k := by
  rw [List.subperm_ext_iff]
  constructor
  · intro hs k
    by_cases hk : k ∈ s.map Char.toNat
    · obtain ⟨c, hc, rfl⟩ := List.mem_map.mp hk
      rw [codeCount_toNat, codeCount_toNat]
      exact hs c hc
    · have h0 : codeCount s k = 0 := List.count_eq_zero.mpr hk
      omega
  · intro hs c _
    have := hs c.toNat
    rwa [codeCount_toNat, codeCount_toNat] at this

theorem subperm_of_append {s t q : List Char} (hs : (s ++ t).Subperm q) : s.Subperm q := by
  rw [subperm_iff_codeCount] at hs ⊢
  intro k
  have := hs k
  rw [codeCount_append] at this
  omega

theorem subperm_length_le {s q : List Char} (hs : s.Subperm q) : s.length ≤ q.length :=
  hs.length_le

theorem avail_snoc (q w : List Char) (l : Char) (hl : isLower l) (i : Nat) :
    avail q (w ++ [l]) i
      = Function.update (avail q w) (l.toNat - 97) (avail q w (l.toNat - 97) - 1) i := by
  obtain ⟨_, _, h3⟩ := letterIndex_of_isLower hl
  unfold Function.update avail letterCount
  simp only [codeCount_append, codeCount_singleton]
  by_cases hi : i = l.toNat - 97
  · subst hi
    simp [h3]
    omega
  · have : ¬ l.toNat = i + 97 := by omega
    simp [hi, this]

theorem avail_unsnoc (q w : List Char) (l : Char) (hl : isLower l) (i : Nat) :
    avail q w i
      = Function.update (avail q (w ++ [l])) (l.toNat - 97)
          (avail q (w ++ [l]) (l.toNat - 97) + 1) i := by
  obtain ⟨_, _, h3⟩ := letterIndex_of_isLower hl
  unfold Function.update avail letterCount
  simp only [codeCount_append, codeCount_singleton]
  by_cases hi : i = l.toNat - 97
  · subst hi
    simp [h3]
    omega
  · have : ¬ l.toNat = i + 97 := by omega
    simp [hi, this]

theorem subperm_snoc_iff (q w : List Char) (l : Char) (hl : isLower l) (hw : w.Subperm q) :
    (w ++ [l]).Subperm q ↔ avail q w (l.toNat - 97) > 0 := by
  obtain ⟨_, _, h3⟩ := letterIndex_of_isLower hl
  rw [subperm_iff_codeCount] at hw ⊢
  unfold avail letterCount
  rw [h3]
  constructor
  · intro h
    have := h l.toNat
    rw [codeCount_append, codeCount_singleton] at this
    simp at this
    omega
  · intro h k
    rw [codeCount_append, codeCount_singleton]
    have := hw k
    by_cases hk : l.toNat = k
    · subst hk
      simp
      omega
    · simp [hk]
      exact this

/-! ## The search -/

theorem childrenOf_eq {h : Heap} {n : Nat} {nd : LetterNode} (hn : h[n]? = some nd) :
    childrenOf h n = nd.children := by
  simp [childrenOf, hn]

theorem preorder_word {h : Heap} (wf : WF h) :
    ∀ (F c : Nat) (cd : LetterNode), h[c]? = some cd → ∀ m ∈ preorder h F c,
      ∃ (md : LetterNode) (s : List Char), h[m]? = some md ∧ wordOf h m = wordOf h c ++ s := by
  intro F
  induction F with
  | zero => intro c cd _ m hm; simp [preorder] at hm
  | succ F ih =>
    intro c cd hc m hm
    simp only [preorder, List.mem_cons, List.mem_flatMap, childrenOf_eq hc] at hm
    rcases hm with rfl | ⟨c2, hc2, hm⟩
    · exact ⟨cd, [], hc, by simp⟩
    · obtain ⟨_, cd2, hcd2, hpar⟩ := wf.child c cd hc c2 hc2
      obtain ⟨md, s, hmd, hw⟩ := ih c2 cd2 hcd2 m hm
      refine ⟨md, [cd2.letter] ++ s, hmd, ?_⟩
      rw [hw, wordOf_child wf hcd2 hpar]
      simp

theorem filter_collectible_nil {h : Heap} (wf : WF h) (q : List Char) (F c : Nat)
    (cd : LetterNode) (hc : h[c]? = some cd) (hno : ¬ (wordOf h c).Subperm q) :
    (preorder h F c).filter (collectible h q) = [] := by
  rw [List.filter_eq_nil_iff]
  intro m hm
  obtain ⟨md, s, _, hw⟩ := preorder_word wf F c cd hc m hm
  have : ¬ (wordOf h m).Subperm q := by
    rw [hw]
    exact fun hs => hno (subperm_of_append hs)
  simp [collectible, this]

theorem visitChildren_spec {h : Heap} (wf : WF h) (low : ∀ nd ∈ h, isLower nd.letter)
    (q : List Char) (F fuel n : Nat) (nd : LetterNode) (hn : h[n]? = some nd)
    (hsub : (wordOf h n).Subperm q)
    (ih : ∀ (c : Nat) (cd : LetterNode), h[c]? = some cd → cd.parent = some n →
      (wordOf h c).Subperm q → ∀ known,
        findWord h fuel (arr (avail q (wordOf h c))) c known
          = .ok (arr (avail q (wordOf h c)),
              known ++ (preorder h F c).filter (collectible h q))) :
    ∀ cs : List Nat, (∀ c ∈ cs, c ∈ nd.children) → ∀ known,
      visitChildren (findWord h fuel) h cs (arr (avail q (wordOf h n))) known
        = .ok (arr (avail q (wordOf h n)),
            known ++ (cs.flatMap (preorder h F)).filter (collectible h q)) := by
  intro cs
  induction cs with
  | nil => intro _ known; simp [visitChildren]
  | cons c rest ihcs =>
    intro hcs known
    have hmem : c ∈ nd.children := hcs c (List.mem_cons_self _ _)
    obtain ⟨_, cd, hcd, hpar⟩ := wf.child n nd hn c hmem
    have hlow : isLower cd.letter := low cd (mem_of_get hcd)
    obtain ⟨hidx, hlt, _⟩ := letterIndex_of_isLower hlow
    have hword : wordOf h c = wordOf h n ++ [cd.letter] := wordOf_child wf hcd hpar
    have hrest := ihcs (fun x hx => hcs x (List.mem_cons_of_mem _ hx))
    have hiff := subperm_snoc_iff q (wordOf h n) cd.letter hlow hsub
    rw [visitChildren]
    simp only [deref_eq_ok hcd, hidx, readAt_arr _ _ hlt, bind, Except.bind]
    by_cases hv : avail q (wordOf h n) (cd.letter.toNat - 97) > 0
    · have hsubc : (wordOf h c).Subperm q := by rw [hword]; exact hiff.mpr hv
      have e1 : arr (Function.update (avail q (wordOf h n)) (cd.letter.toNat - 97)
          (avail q (wordOf h n) (cd.letter.toNat - 97) - 1)) = arr (avail q (wordOf h c)) := by
        apply arr_congr
        intro i _
        rw [hword, avail_snoc q _ _ hlow]
      have e2 : arr (Function.update (avail q (wordOf h c)) (cd.letter.toNat - 97)
          (avail q (wordOf h c) (cd.letter.toNat - 97) + 1)) = arr (avail q (wordOf h n)) := by
        apply arr_congr
        intro i _
        rw [hword, ← avail_unsnoc q _ _ hlow]
      simp only [hv, if_true, writeAt_arr _ _ hlt, e1, ih c cd hcd hpar hsubc known,
        readAt_arr _ _ hlt, e2, hrest]
      simp [List.filter_append, List.append_assoc]
    · have hno : ¬ (wordOf h c).Subperm q := by rw [hword]; exact fun hs => hv (hiff.mp hs)
      simp only [hv, if_false, hrest]
      simp [List.filter_append, filter_collectible_nil wf q F c cd hcd hno]

theorem findWord_spec {h : Heap} (wf : WF h) (low : ∀ nd ∈ h, isLower nd.letter)
    (q : List Char) :
    ∀ (F n : Nat) (nd : LetterNode), h[n]? = some nd → h.length ≤ F + n →
      (wordOf h n).Subperm q → ∀ (fuel : Nat) (known : List Nat),
        q.length < fuel + (wordOf h n).length →
        findWord h fuel (arr (avail q (wordOf h n))) n known
          = .ok (arr (avail q (wordOf h n)),
              known ++ (preorder h F n).filter (collectible h q)) := by
  intro F
  induction F with
  | zero =>
    intro n nd hn hF
    have := lt_of_get hn
    omega
  | succ F ih =>
    intro n nd hn _ hsub fuel known hfuel
    have hlen := subperm_length_le hsub
    obtain ⟨f, rfl⟩ : ∃ f, fuel = f + 1 := ⟨fuel - 1, by omega⟩
    have ih2 : ∀ (c : Nat) (cd : LetterNode), h[c]? = some cd → cd.parent = some n →
        (wordOf h c).Subperm q → ∀ known,
          findWord h f (arr (avail q (wordOf h c))) c known
            = .ok (arr (avail q (wordOf h c)),
                known ++ (preorder h F c).filter (collectible h q)) := by
      intro c cd hcd hpar hsubc known2
      have hlt := wf.parent_lt hcd hpar
      have hc := lt_of_get hcd
      refine ih c cd hcd (by omega) hsubc f known2 ?_
      rw [wordOf_child wf hcd hpar]
      simp
      omega
    have hvis := visitChildren_spec wf low q F f n nd hn hsub ih2 nd.children
      (fun _ hc => hc)
    rw [findWord]
    simp only [deref_eq_ok hn, bind, Except.bind, hvis]
    have hcol : collectible h q n = nd.endOfWord := by
      simp [collectible, isEnd, hn, hsub]
    cases he : nd.endOfWord <;>
      simp [preorder, childrenOf_eq hn, List.filter_cons, hcol, he]

theorem readAt_range (i : Nat) (hi : i < 26) : readAt (List.range 26) (i : Int) = .ok i := by
  simp [readAt, List.getElem?_range hi]

theorem avail_nil (q : List Char) (i : Nat) : avail q [] i = letterCount q i := by
  simp [avail, letterCount, codeCount]

theorem scanRoots_spec {t : WordTree} (hroots : t.roots = List.range 26) (wf : WF t.heap)
    (low : ∀ nd ∈ t.heap, isLower nd.letter) (q : List Char) (fuel : Nat)
    (hfuel : q.length < fuel) :
    ∀ (is : List Nat), (∀ i ∈ is, i < 26) → ∀ words,
      scanRoots fuel t is (arr (avail q [])) words
        = .ok (arr (avail q []),
            words ++ (is.flatMap (preorder t.heap t.heap.length)).filter
              (collectible t.heap q)) := by
  intro is
  induction is with
  | nil => intro _ words; simp [scanRoots]
  | cons i rest ihr =>
    intro his words
    have hi : i < 26 := his i (List.mem_cons_self _ _)
    have hrest := ihr (fun x hx => his x (List.mem_cons_of_mem _ hx))
    obtain ⟨rd, hrd, hcode⟩ := wf.rootLetter i hi
    have hpar : rd.parent = none := (wf.rootIff i rd hrd).mpr hi
    have hword : wordOf t.heap i = [] ++ [rd.letter] := by simp [wordOf_root wf hrd hpar]
    have hlow : isLower rd.letter := low rd (mem_of_get hrd)
    have hidx : rd.letter.toNat - 97 = i := by omega
    have hiff := subperm_snoc_iff q [] rd.letter hlow (List.nil_subperm)
    rw [hidx] at hiff
    rw [scanRoots]
    simp only [readAt_arr _ _ hi, bind, Except.bind, hroots, readAt_range i hi]
    by_cases hv : avail q [] i > 0
    · have hsubc : (wordOf t.heap i).Subperm q := by rw [hword]; exact hiff.mpr hv
      have e1 : arr (Function.update (avail q []) i (avail q [] i - 1))
          = arr (avail q (wordOf t.heap i)) := by
        apply arr_congr
        intro j _
        rw [hword, avail_snoc q _ _ hlow, hidx]
      have e2 : arr (Function.update (avail q (wordOf t.heap i)) i
          (avail q (wordOf t.heap i) i + 1)) = arr (avail q []) := by
        apply arr_congr
        intro j _
        have := avail_unsnoc q [] rd.letter hlow j
        rw [hidx] at this
        rw [hword, ← this]
      have hfw := findWord_spec wf low q t.heap.length i rd hrd (by omega) hsubc fuel words
        (by omega)
      simp only [hv, if_true, writeAt_arr _ _ hi, e1, hfw, readAt_arr _ _ hi, e2, hrest]
      simp [List.filter_append, List.append_assoc]
    · have hno : ¬ (wordOf t.heap i).Subperm q := by
        rw [hword]; exact fun hs => hv (hiff.mp hs)
      simp only [hv, if_false, hrest]
      simp [List.filter_append, filter_collectible_nil wf q _ i rd hrd hno]

theorem letterCount_cons (c : Char) (rest : List Char) (i : Nat) :
    letterCount (c :: rest) i = (if c.toNat = i + 97 then 1 else 0) + letterCount rest i := by
  have := codeCount_append [c] rest (i + 97)
  rw [codeCount_singleton] at this
  simp only [List.singleton_append] at this
  unfold letterCount
  rw [this]
  split <;> simp

theorem letterCount_nonneg (q : List Char) (i : Nat) : 0 ≤ letterCount q i := by
  unfold letterCount
  exact Int.ofNat_nonneg _

theorem count_step (g : Nat → Int) {c : Char} (hc : isLower c) (rest : List Char) (i : Nat) :
    Function.update g (c.toNat - 97) (g (c.toNat - 97) + 1) i + letterCount rest i
      = g i + letterCount (c :: rest) i := by
  obtain ⟨_, _, h3⟩ := letterIndex_of_isLower hc
  rw [letterCount_cons]
  unfold Function.update
  by_cases hi : i = c.toNat - 97
  · subst hi
    simp [h3]
    ring
  · have : ¬ c.toNat = i + 97 := by omega
    simp [hi, this]

theorem countLetters_spec :
    ∀ (q : List Char) (g : Nat → Int), (∀ c ∈ q, isLower c) →
      (∀ i, i < 26 → g i + letterCount q i ≤ 2147483647) →
      countLetters q (arr g) = .ok (arr (fun i => g i + letterCount q i)) := by
  intro q
  induction q with
  | nil => intro g _ _; simp [countLetters, letterCount, codeCount]
  | cons c rest ih =>
    intro g hq hb
    have hc : isLower c := hq c (List.mem_cons_self _ _)
    obtain ⟨hidx, hlt, h3⟩ := letterIndex_of_isLower hc
    have hstep := count_step g hc rest
    have hno : ¬ g (c.toNat - 97) + 1 > 2147483647 := by
      have h1 := hb _ hlt
      have h2 := hstep (c.toNat - 97)
      have h4 := letterCount_nonneg rest (c.toNat - 97)
      simp only [Function.update_same] at h2
      omega
    rw [countLetters]
    simp only [hidx, readAt_arr _ _ hlt, writeAt_arr _ _ hlt, bind, Except.bind, hno, if_false]
    rw [ih _ (fun x hx => hq x (List.mem_cons_of_mem _ hx))
      (fun i hi => by rw [hstep i]; exact hb i hi)]
    congr 1
    exact arr_congr (fun i _ => hstep i)

theorem countLetters_ok :
    ∀ (q : List Char) (g : Nat → Int) (l : List Int), countLetters q (arr g) = .ok l →
      (∀ c ∈ q, isLower c) ∧ l = arr (fun i => g i + letterCount q i) := by
  intro q
  induction q with
  | nil =>
    intro g l hl
    simp only [countLetters, Except.ok.injEq] at hl
    subst hl
    exact ⟨by simp, arr_congr (fun i _ => by simp [letterCount, codeCount])⟩
  | cons c rest ih =>
    intro g l hl
    rw [countLetters] at hl
    by_cases hc : isLower c
    · obtain ⟨hidx, hlt, h3⟩ := letterIndex_of_isLower hc
      simp only [hidx, readAt_arr _ _ hlt, bind, Except.bind] at hl
      by_cases hov : g (c.toNat - 97) + 1 > 2147483647
      · simp [hov] at hl
      · simp only [hov, if_false, writeAt_arr _ _ hlt] at hl
        obtain ⟨hlow, hl2⟩ := ih _ l hl
        refine ⟨?_, ?_⟩
        · intro x hx
          rcases List.mem_cons.mp hx with rfl | hx
          · exact hc
          · exact hlow x hx
        · rw [hl2]
          exact arr_congr (fun i _ => count_step g hc rest i)
    · rw [readAt_arr_out g _ (fun hi => hc ((letterIndex_range_iff c).mp hi))] at hl
      simp [bind, Except.bind] at hl

theorem letterCount_le_of_FitsInt {q : List Char} (hfit : FitsInt q) (i : Nat) (hi : i < 26) :
    letterCount q i ≤ 2147483647 := by
  have h1 := hfit.2 (Char.ofNat (i + 97))
  rw [← codeCount_toNat, toNat_ofNat_letter i hi] at h1
  unfold letterCount
  exact_mod_cast h1

theorem FitsInt_of_length {q : List Char} (hlen : q.length < 2147483648) : FitsInt q := by
  refine ⟨by omega, ?_⟩
  intro c
  have := List.count_le_length c q
  omega

theorem countLetters_zero (q : List Char) (hq : ∀ c ∈ q, isLower c) (hfit : FitsInt q) :
    countLetters q (List.replicate 26 0) = .ok (arr (avail q [])) := by
  rw [replicate_eq_arr, countLetters_spec q _ hq
    (fun i hi => by simpa using letterCount_le_of_FitsInt hfit i hi)]
  congr 1
  apply arr_congr
  intro i _
  simp [avail_nil]

theorem findAllWordsState_eq (t : WordTree) (q : List Char) (hq : ∀ c ∈ q, isLower c)
    (hfit : FitsInt q) (fuel : Nat) :
    findAllWordsState fuel q t = scanRoots fuel t (List.range 26) (arr (avail q [])) [] := by
  have hlen : ¬ 4294967296 ≤ q.length := by have := hfit.1; omega
  unfold findAllWordsState
  rw [countLetters_zero q hq hfit]
  simp only [bind, Except.bind, hlen, if_false]

theorem findAllWords_spec {t : WordTree} (hroots : t.roots = List.range 26) (wf : WF t.heap)
    (low : ∀ nd ∈ t.heap, isLower nd.letter) (q : List Char) (hq : ∀ c ∈ q, isLower c)
    (hfit : FitsInt q) (fuel : Nat) (hfuel : q.length < fuel) :
    findAllWordsState fuel q t
      = .ok (arr (fun i => letterCount q i), (preorderAll t).filter (collectible t.heap q)) := by
  have hscan := scanRoots_spec hroots wf low q fuel hfuel (List.range 26)
    (fun i hi => List.mem_range.mp hi) []
  rw [findAllWordsState_eq t q hq hfit fuel, hscan]
  have : arr (avail q []) = arr (fun i => letterCount q i) :=
    arr_congr (fun i _ => avail_nil q i)
  simp [preorderAll, hroots, this]

/-! ## Heap extension -/

theorem Ext.refl (h : Heap) : Ext h h where
  len := le_refl _
  old := by
    intro n nd hn
    exact ⟨nd, hn, rfl, rfl, fun e => e, [], by simp, by simp⟩

theorem Ext.trans {h1 h2 h3 : Heap} (e1 : Ext h1 h2) (e2 : Ext h2 h3) : Ext h1 h3 where
  len := le_trans e1.len e2.len
  old := by
    intro n nd hn
    obtain ⟨nd2, hn2, hl2, hp2, hf2, x2, hc2, hx2⟩ := e1.old n nd hn
    obtain ⟨nd3, hn3, hl3, hp3, hf3, x3, hc3, hx3⟩ := e2.old n nd2 hn2
    refine ⟨nd3, hn3, hl3.trans hl2, hp3.trans hp2, fun e => hf3 (hf2 e), x2 ++ x3, ?_, ?_⟩
    · rw [hc3, hc2, List.append_assoc]
    · intro e he
      rcases List.mem_append.mp he with he | he
      · exact hx2 e he
      · exact le_trans e1.len (hx3 e he)

theorem letterAt_eq {h : Heap} {n : Nat} {nd : LetterNode} (hn : h[n]? = some nd) :
    letterAt h n = nd.letter := by
  simp [letterAt, hn]

theorem Ext.letterAt {h h2 : Heap} (e : Ext h h2) {n : Nat} {nd : LetterNode}
    (hn : h[n]? = some nd) : letterAt h2 n = letterAt h n := by
  obtain ⟨nd2, hn2, hl2, _⟩ := e.old n nd hn
  rw [letterAt_eq hn, letterAt_eq hn2, hl2]

theorem wordOf_ext {h h2 : Heap} (wf : WF h) (wf2 : WF h2) (e : Ext h h2) :
    ∀ (n : Nat) (nd : LetterNode), h[n]? = some nd → wordOf h2 n = wordOf h n := by
  intro n
  induction n using Nat.strong_induction_on with
  | _ n ih =>
    intro nd hn
    obtain ⟨nd2, hn2, hl2, hp2, _⟩ := e.old n nd hn
    cases hp : nd.parent with
    | none =>
      rw [wordOf_root wf hn hp, wordOf_root wf2 hn2 (hp2.trans hp), hl2]
    | some p =>
      obtain ⟨pd, hpd, _⟩ := wf.parent n nd p hn hp
      rw [wordOf_child wf hn hp, wordOf_child wf2 hn2 (hp2.trans hp), hl2,
        ih p (wf.parent_lt hn hp) pd hpd]

/-! ## The child search -/

theorem findChild_none {h : Heap} {c : Char} :
    ∀ cs : List Nat, (∀ p ∈ cs, ∃ pd : LetterNode, h[p]? = some pd) →
      (∀ p ∈ cs, letterAt h p ≠ c) → findChild h c cs = .ok none := by
  intro cs
  induction cs with
  | nil => intro _ _; rfl
  | cons p rest ih =>
    intro hval hne
    obtain ⟨pd, hpd⟩ := hval p (List.mem_cons_self _ _)
    have hl : ¬ pd.letter = c := by
      have := hne p (List.mem_cons_self _ _)
      rwa [letterAt_eq hpd] at this
    rw [findChild]
    simp only [deref_eq_ok hpd, bind, Except.bind, hl, if_false]
    exact ih (fun x hx => hval x (List.mem_cons_of_mem _ hx))
      (fun x hx => hne x (List.mem_cons_of_mem _ hx))

theorem findChild_cases {h : Heap} {c : Char} :
    ∀ cs : List Nat, (∀ p ∈ cs, ∃ pd : LetterNode, h[p]? = some pd) →
      (findChild h c cs = .ok none ∧ ∀ p ∈ cs, letterAt h p ≠ c) ∨
      (∃ p, findChild h c cs = .ok (some p) ∧ p ∈ cs ∧ letterAt h p = c) := by
  intro cs
  induction cs with
  | nil => intro _; left; exact ⟨rfl, by simp⟩
  | cons p rest ih =>
    intro hval
    obtain ⟨pd, hpd⟩ := hval p (List.mem_cons_self _ _)
    rw [findChild]
    simp only [deref_eq_ok hpd, bind, Except.bind]
    by_cases hl : pd.letter = c
    · right
      exact ⟨p, by simp [hl], List.mem_cons_self _ _, by rw [letterAt_eq hpd, hl]⟩
    · simp only [hl, if_false]
      rcases ih (fun x hx => hval x (List.mem_cons_of_mem _ hx)) with ⟨h1, h2⟩ | ⟨p2, h1, h2, h3⟩
      · left
        refine ⟨h1, ?_⟩
        intro x hx
        rcases List.mem_cons.mp hx with rfl | hx
        · rw [letterAt_eq hpd]; exact hl
        · exact h2 x hx
      · right
        exact ⟨p2, h1, List.mem_cons_of_mem _ h2, h3⟩

theorem findChild_stable {h h2 : Heap} {c : Char}
    (hlet : ∀ (n : Nat) (nd : LetterNode), h[n]? = some nd →
      ∃ nd2 : LetterNode, h2[n]? = some nd2 ∧ nd2.letter = nd.letter) :
    ∀ (cs extra : List Nat) (p : Nat), findChild h c cs = .ok (some p) →
      findChild h2 c (cs ++ extra) = .ok (some p) := by
  intro cs
  induction cs with
  | nil => intro extra p hf; simp [findChild] at hf
  | cons x rest ih =>
    intro extra p hf
    rw [findChild] at hf
    cases hx : h[x]? with
    | none => simp [deref, hx, bind, Except.bind] at hf
    | some xd =>
      obtain ⟨xd2, hx2, hl2⟩ := hlet x xd hx
      simp only [deref_eq_ok hx, bind, Except.bind] at hf
      rw [List.cons_append, findChild]
      simp only [deref_eq_ok hx2, bind, Except.bind, hl2]
      by_cases hl : xd.letter = c
      · simp only [hl, if_true] at hf ⊢
        exact hf
      · simp only [hl, if_false] at hf ⊢
        exact ih extra p hf

theorem Walk_stable {h h2 : Heap} (e : Ext h h2) :
    ∀ (rest : List Char) (cur last : Nat), Walk h cur rest last → Walk h2 cur rest last := by
  intro rest
  induction rest with
  | nil => intro cur last hw; exact hw
  | cons c rest ih =>
    intro cur last hw
    obtain ⟨nd, p, hn, hf, hw2⟩ := hw
    obtain ⟨nd2, hn2, _, _, _, extra, hc, _⟩ := e.old cur nd hn
    refine ⟨nd2, p, hn2, ?_, ih p last hw2⟩
    rw [hc]
    refine findChild_stable ?_ nd.children extra p hf
    intro n x hx
    obtain ⟨x2, hx2, hl, _⟩ := e.old n x hx
    exact ⟨x2, hx2, hl⟩

theorem insertLoop_of_Walk {h : Heap} :
    ∀ (rest : List Char) (cur last : Nat), Walk h cur rest last →
      insertLoop h cur rest = .ok (h, last) := by
  intro rest
  induction rest with
  | nil => intro cur last hw; simp [Walk] at hw; simp [insertLoop, hw]
  | cons c rest ih =>
    intro cur last hw
    obtain ⟨nd, p, hn, hf, hw2⟩ := hw
    rw [insertLoop]
    simp only [deref_eq_ok hn, bind, Except.bind, hf]
    exact ih p last hw2

/-! ## Allocation of a child -/

theorem get_alloc {h : Heap} {cur : Nat} {nd : LetterNode} (hn : h[cur]? = some nd)
    (c : Char) (n : Nat) :
    (allocChild h cur nd c)[n]? =
      if n = cur then some (nd.addChild h.length)
      else if n = h.length then some ((LetterNode.new c false).setParent cur)
      else h[n]? := by
  have hlt := lt_of_get hn
  unfold allocChild
  rw [List.getElem?_set]
  by_cases h1 : n = cur
  · subst h1
    simp [List.length_append]
    omega
  · have h1s : ¬ cur = n := fun e => h1 e.symm
    simp only [h1, h1s, if_false]
    rw [List.getElem?_append]
    by_cases h2 : n = h.length
    · subst h2
      simp
    · simp only [h2, if_false]
      by_cases h3 : n < h.length
      · simp [h3]
      · simp only [h3, if_false]
        rw [List.getElem?_eq_none (by simp; omega), List.getElem?_eq_none (by omega)]

theorem length_alloc (h : Heap) (cur : Nat) (nd : LetterNode) (c : Char) :
    (allocChild h cur nd c).length = h.length + 1 := by
  simp [allocChild]

theorem alloc_new {h : Heap} {cur : Nat} {nd : LetterNode} (hn : h[cur]? = some nd)
    (c : Char) :
    (allocChild h cur nd c)[h.length]? = some ((LetterNode.new c false).setParent cur) := by
  have hlt := lt_of_get hn
  rw [get_alloc hn]
  have : ¬ h.length = cur := by omega
  simp [this]

theorem alloc_cur {h : Heap} {cur : Nat} {nd : LetterNode} (hn : h[cur]? = some nd)
    (c : Char) : (allocChild h cur nd c)[cur]? = some (nd.addChild h.length) := by
  rw [get_alloc hn]
  simp

theorem alloc_other {h : Heap} {cur : Nat} {nd : LetterNode} (hn : h[cur]? = some nd)
    (c : Char) {n : Nat} {x : LetterNode} (hx : h[n]? = some x) (hne : n ≠ cur) :
    (allocChild h cur nd c)[n]? = some x := by
  have hlt := lt_of_get hx
  rw [get_alloc hn]
  have : ¬ n = h.length := by omega
  simp [hne, this, hx]

theorem alloc_inv {h : Heap} {cur : Nat} {nd : LetterNode} (hn : h[cur]? = some nd)
    (c : Char) {n : Nat} {x : LetterNode} (hx : (allocChild h cur nd c)[n]? = some x) :
    (n = cur ∧ x = nd.addChild h.length) ∨
    (n = h.length ∧ x = (LetterNode.new c false).setParent cur) ∨
    (n ≠ cur ∧ h[n]? = some x) := by
  rw [get_alloc hn] at hx
  by_cases h1 : n = cur
  · left
    simp only [h1, if_true, Option.some.injEq] at hx
    exact ⟨h1, hx.symm⟩
  · simp only [h1, if_false] at hx
    by_cases h2 : n = h.length
    · right; left
      simp only [h2, if_true, Option.some.injEq] at hx
      exact ⟨h2, hx.symm⟩
    · right; right
      simp only [h2, if_false] at hx
      exact ⟨h1, hx⟩

theorem alloc_old {h : Heap} {cur : Nat} {nd : LetterNode} (hn : h[cur]? = some nd)
    (c : Char) {n : Nat} {x : LetterNode} (hx : h[n]? = some x) :
    ∃ x2 : LetterNode, (allocChild h cur nd c)[n]? = some x2 ∧ x2.letter = x.letter ∧
      x2.parent = x.parent ∧ x2.endOfWord = x.endOfWord ∧
      ((n ≠ cur ∧ x2.children = x.children) ∨
        (n = cur ∧ x2.children = x.children ++ [h.length])) := by
  by_cases h1 : n = cur
  · subst h1
    have : x = nd := by rw [hn] at hx; injection hx with hx; exact hx.symm
    subst this
    exact ⟨x.addChild h.length, alloc_cur hn c, rfl, rfl, rfl, Or.inr ⟨rfl, rfl⟩⟩
  · exact ⟨x, alloc_other hn c hx h1, rfl, rfl, rfl, Or.inl ⟨h1, rfl⟩⟩

theorem alloc_letterAt {h : Heap} {cur : Nat} {nd : LetterNode} (hn : h[cur]? = some nd)
    (c : Char) {n : Nat} {x : LetterNode} (hx : h[n]? = some x) :
    letterAt (allocChild h cur nd c) n = letterAt h n := by
  obtain ⟨x2, hx2, hl, _⟩ := alloc_old hn c hx
  rw [letterAt_eq hx2, letterAt_eq hx, hl]

theorem Ext_alloc {h : Heap} {cur : Nat} {nd : LetterNode} (hn : h[cur]? = some nd)
    (c : Char) : Ext h (allocChild h cur nd c) where
  len := by rw [length_alloc]; omega
  old := by
    intro n x hx
    obtain ⟨x2, hx2, hl, hp, he, hc⟩ := alloc_old hn c hx
    refine ⟨x2, hx2, hl, hp, fun e => by rw [he]; exact e, ?_⟩
    rcases hc with ⟨_, hc⟩ | ⟨_, hc⟩
    · exact ⟨[], by simp [hc], by simp⟩
    · exact ⟨[h.length], hc, by simp⟩

theorem isEnd_alloc {h : Heap} {cur : Nat} {nd : LetterNode} (hn : h[cur]? = some nd)
    (c : Char) (n : Nat) : isEnd (allocChild h cur nd c) n = isEnd h n := by
  cases hx : h[n]? with
  | some x =>
    obtain ⟨x2, hx2, _, _, he, _⟩ := alloc_old hn c hx
    simp [isEnd, hx, hx2, he]
  | none =>
    have hge : h.length ≤ n := by
      by_contra hlt
      have := List.getElem?_eq_getElem (l := h) (n := n) (by omega)
      rw [hx] at this
      cases this
    cases hy : (allocChild h cur nd c)[n]? with
    | none => simp [isEnd, hx, hy]
    | some y =>
      rcases alloc_inv hn c hy with ⟨h1, _⟩ | ⟨_, h2⟩ | ⟨_, h3⟩
      · have := lt_of_get hn
        omega
      · simp [isEnd, hx, hy, h2, LetterNode.new, LetterNode.setParent]
      · rw [hx] at h3
        cases h3

theorem WF.len {h : Heap} (wf : WF h) : 26 ≤ h.length := by
  obtain ⟨rd, hrd, _⟩ := wf.rootLetter 25 (by omega)
  have := lt_of_get hrd
  omega

theorem WF_alloc {h : Heap} (wf : WF h) {cur : Nat} {nd : LetterNode}
    (hn : h[cur]? = some nd) (c : Char) (hnone : ∀ p ∈ nd.children, letterAt h p ≠ c) :
    WF (allocChild h cur nd c) where
  child := by
    intro n x hx ch hch
    have hcur := lt_of_get hn
    rcases alloc_inv hn c hx with ⟨h1, h2⟩ | ⟨_, h2⟩ | ⟨h1, h2⟩
    · subst h1
      subst h2
      simp only [LetterNode.addChild, List.mem_append, List.mem_singleton] at hch
      rcases hch with hch | rfl
      · obtain ⟨hlt, cd, hcd, hp⟩ := wf.child n nd hn ch hch
        exact ⟨hlt, cd, alloc_other hn c hcd (by omega), hp⟩
      · exact ⟨hcur, _, alloc_new hn c, rfl⟩
    · subst h2
      simp [LetterNode.new, LetterNode.setParent] at hch
    · obtain ⟨hlt, cd, hcd, hp⟩ := wf.child n x h2 ch hch
      obtain ⟨cd2, hcd2, _, hp2, _⟩ := alloc_old hn c hcd
      exact ⟨hlt, cd2, hcd2, hp2.trans hp⟩
  parent := by
    intro n x p hx hp
    rcases alloc_inv hn c hx with ⟨h1, h2⟩ | ⟨h1, h2⟩ | ⟨h1, h2⟩
    · subst h1
      subst h2
      obtain ⟨pd, hpd, hmem⟩ := wf.parent n nd p hn hp
      obtain ⟨pd2, hpd2, _, _, _, hc⟩ := alloc_old hn c hpd
      refine ⟨pd2, hpd2, ?_⟩
      rcases hc with ⟨_, hc⟩ | ⟨_, hc⟩ <;> simp [hc, hmem]
    · subst h1
      subst h2
      simp only [LetterNode.new, LetterNode.setParent, Option.some.injEq] at hp
      subst hp
      exact ⟨_, alloc_cur hn c, by simp [LetterNode.addChild]⟩
    · obtain ⟨pd, hpd, hmem⟩ := wf.parent n x p h2 hp
      obtain ⟨pd2, hpd2, _, _, _, hc⟩ := alloc_old hn c hpd
      refine ⟨pd2, hpd2, ?_⟩
      rcases hc with ⟨_, hc⟩ | ⟨_, hc⟩ <;> simp [hc, hmem]
  distinct := by
    intro n x hx
    have hold : ∀ (m : Nat) (md : LetterNode), h[m]? = some md →
        md.children.Pairwise
          (fun a b => letterAt (allocChild h cur nd c) a ≠ letterAt (allocChild h cur nd c) b) := by
      intro m md hm
      refine (wf.distinct m md hm).imp_of_mem ?_
      intro a b ha hb hab
      obtain ⟨_, ad, had, _⟩ := wf.child m md hm a ha
      obtain ⟨_, bd, hbd, _⟩ := wf.child m md hm b hb
      rw [alloc_letterAt hn c had, alloc_letterAt hn c hbd]
      exact hab
    rcases alloc_inv hn c hx with ⟨h1, h2⟩ | ⟨_, h2⟩ | ⟨_, h2⟩
    · subst h1
      subst h2
      simp only [LetterNode.addChild]
      rw [List.pairwise_append]
      refine ⟨hold n nd hn, List.pairwise_singleton _ _, ?_⟩
      intro a ha b hb
      rw [List.mem_singleton] at hb
      subst hb
      obtain ⟨_, ad, had, _⟩ := wf.child n nd hn a ha
      rw [alloc_letterAt hn c had, letterAt_eq (alloc_new hn c)]
      exact hnone a ha
    · subst h2
      simp [LetterNode.new, LetterNode.setParent]
    · exact hold n x h2
  rootIff := by
    intro n x hx
    rcases alloc_inv hn c hx with ⟨h1, h2⟩ | ⟨h1, h2⟩ | ⟨_, h2⟩
    · subst h1
      subst h2
      exact wf.rootIff n nd hn
    · subst h1
      subst h2
      have := wf.len
      simp [LetterNode.new, LetterNode.setParent]
      omega
    · exact wf.rootIff n x h2
  rootLetter := by
    intro i hi
    obtain ⟨rd, hrd, hl⟩ := wf.rootLetter i hi
    obtain ⟨rd2, hrd2, hl2, _⟩ := alloc_old hn c hrd
    exact ⟨rd2, hrd2, by rw [hl2]; exact hl⟩

theorem findChild_snoc {h : Heap} {c : Char} {x : Nat} {xd : LetterNode}
    (hx : h[x]? = some xd) (hxl : xd.letter = c) :
    ∀ cs : List Nat, (∀ p ∈ cs, ∃ pd : LetterNode, h[p]? = some pd ∧ pd.letter ≠ c) →
      findChild h c (cs ++ [x]) = .ok (some x) := by
  intro cs
  induction cs with
  | nil =>
    intro _
    simp [findChild, deref_eq_ok hx, hxl, bind, Except.bind]
  | cons p rest ih =>
    intro hcs
    obtain ⟨pd, hpd, hne⟩ := hcs p (List.mem_cons_self _ _)
    rw [List.cons_append, findChild]
    simp only [deref_eq_ok hpd, bind, Except.bind, hne, if_false]
    exact ih (fun y hy => hcs y (List.mem_cons_of_mem _ hy))

/-! ## The insertion loop -/

theorem insertLoop_spec :
    ∀ (rest : List Char) (h : Heap) (cur : Nat) (nd : LetterNode), WF h → h[cur]? = some nd →
      ∃ (h2 : Heap) (last : Nat) (ld : LetterNode),
        insertLoop h cur rest = .ok (h2, last) ∧ WF h2 ∧ Ext h h2 ∧
        (∀ n, isEnd h2 n = isEnd h n) ∧
        h2[last]? = some ld ∧ wordOf h2 last = wordOf h cur ++ rest ∧
        Walk h2 cur rest last ∧
        (∀ (n : Nat) (x : LetterNode), h.length ≤ n → h2[n]? = some x →
          x.letter ∈ rest ∧
          ∃ k, 0 < k ∧ k ≤ rest.length ∧ wordOf h2 n = wordOf h cur ++ rest.take k) := by
  intro rest
  induction rest with
  | nil =>
    intro h cur nd wf hn
    refine ⟨h, cur, nd, rfl, wf, Ext.refl h, fun _ => rfl, hn, by simp, rfl, ?_⟩
    intro n x hge hx
    have := lt_of_get hx
    omega
  | cons c rest ih =>
    intro h cur nd wf hn
    have hval : ∀ p ∈ nd.children, ∃ pd : LetterNode, h[p]? = some pd := by
      intro p hp
      obtain ⟨_, pd, hpd, _⟩ := wf.child cur nd hn p hp
      exact ⟨pd, hpd⟩
    rcases findChild_cases (c := c) nd.children hval with ⟨hf, hne⟩ | ⟨p, hf, hmem, hlet⟩
    · -- no child carries the letter: allocate one
      have wfH := WF_alloc wf hn c hne
      have eH := Ext_alloc hn c
      have hnew := alloc_new hn c
      obtain ⟨h2, last, ld, hins, wf2, e2, hend2, hlast, hword, hwalk, hnews⟩ :=
        ih (allocChild h cur nd c) h.length _ wfH hnew
      have hwnew : wordOf (allocChild h cur nd c) h.length = wordOf h cur ++ [c] := by
        rw [wordOf_child wfH hnew (p := cur) rfl, wordOf_ext wf wfH eH cur nd hn]
        rfl
      refine ⟨h2, last, ld, ?_, wf2, eH.trans e2, ?_, hlast, ?_, ?_, ?_⟩
      · rw [insertLoop]
        simp only [deref_eq_ok hn, bind, Except.bind, hf]
        exact hins
      · intro n
        rw [hend2 n, isEnd_alloc hn c n]
      · rw [hword, hwnew]
        simp
      · obtain ⟨cd2, hcd2, _, _, _, extra, hc2, _⟩ := e2.old cur _ (alloc_cur hn c)
        refine ⟨cd2, h.length, hcd2, ?_, hwalk⟩
        rw [hc2]
        refine @findChild_stable (allocChild h cur nd c) h2 c ?_ _ extra h.length ?_
        · intro n x hx
          obtain ⟨x2, hx2, hl, _⟩ := e2.old n x hx
          exact ⟨x2, hx2, hl⟩
        · refine findChild_snoc hnew rfl nd.children ?_
          intro q hq
          obtain ⟨_, qd, hqd, _⟩ := wf.child cur nd hn q hq
          obtain ⟨qd2, hqd2, hl, _⟩ := alloc_old hn c hqd
          refine ⟨qd2, hqd2, ?_⟩
          rw [hl, ← letterAt_eq hqd]
          exact hne q hq
      · intro n x hge hx
        by_cases hnl : n = h.length
        · subst hnl
          obtain ⟨x2, hx2, hl, _⟩ := e2.old _ _ hnew
          rw [hx] at hx2
          injection hx2 with hx2
          subst hx2
          refine ⟨by rw [hl]; simp [LetterNode.new, LetterNode.setParent], 1, by omega,
            by simp, ?_⟩
          rw [wordOf_ext wfH wf2 e2 _ _ hnew, hwnew]
          simp
        · have hge2 : (allocChild h cur nd c).length ≤ n := by
            rw [length_alloc]; omega
          obtain ⟨hmemx, k, hk0, hk1, hwk⟩ := hnews n x hge2 hx
          refine ⟨List.mem_cons_of_mem _ hmemx, k + 1, by omega, by simp; omega, ?_⟩
          rw [hwk, hwnew]
          simp
    · -- the child exists: move to it
      obtain ⟨_, pd, hpd, hpar⟩ := wf.child cur nd hn p hmem
      have hpl : pd.letter = c := by rw [← letterAt_eq hpd]; exact hlet
      obtain ⟨h2, last, ld, hins, wf2, e2, hend2, hlast, hword, hwalk, hnews⟩ :=
        ih h p pd wf hpd
      have hwp : wordOf h p = wordOf h cur ++ [c] := by
        rw [wordOf_child wf hpd hpar, hpl]
      refine ⟨h2, last, ld, ?_, wf2, e2, hend2, hlast, ?_, ?_, ?_⟩
      · rw [insertLoop]
        simp only [deref_eq_ok hn, bind, Except.bind, hf]
        exact hins
      · rw [hword, hwp]
        simp
      · obtain ⟨cd2, hcd2, _, _, _, extra, hc2, _⟩ := e2.old cur nd hn
        refine ⟨cd2, p, hcd2, ?_, hwalk⟩
        rw [hc2]
        refine findChild_stable ?_ _ extra p hf
        intro n x hx
        obtain ⟨x2, hx2, hl, _⟩ := e2.old n x hx
        exact ⟨x2, hx2, hl⟩
      · intro n x hge hx
        obtain ⟨hmemx, k, hk0, hk1, hwk⟩ := hnews n x hge hx
        refine ⟨List.mem_cons_of_mem _ hmemx, k + 1, by omega, by simp; omega, ?_⟩
        rw [hwk, hwp]
        simp

/-! ## Setting the word-end flag -/

theorem WF_of_shape {h h2 : Heap}
    (hfwd : ∀ (n : Nat) (x : LetterNode), h[n]? = some x → ∃ x2 : LetterNode,
      h2[n]? = some x2 ∧ x2.letter = x.letter ∧ x2.parent = x.parent ∧
        x2.children = x.children)
    (hbwd : ∀ (n : Nat) (x2 : LetterNode), h2[n]? = some x2 → ∃ x : LetterNode,
      h[n]? = some x ∧ x2.letter = x.letter ∧ x2.parent = x.parent ∧
        x2.children = x.children)
    (wf : WF h) : WF h2 where
  child := by
    intro n x2 hx2 ch hch
    obtain ⟨x, hx, _, _, hc⟩ := hbwd n x2 hx2
    rw [hc] at hch
    obtain ⟨hlt, cd, hcd, hp⟩ := wf.child n x hx ch hch
    obtain ⟨cd2, hcd2, _, hp2, _⟩ := hfwd ch cd hcd
    exact ⟨hlt, cd2, hcd2, hp2.trans hp⟩
  parent := by
    intro n x2 p hx2 hp2
    obtain ⟨x, hx, _, hp, _⟩ := hbwd n x2 hx2
    obtain ⟨pd, hpd, hmem⟩ := wf.parent n x p hx (hp.symm.trans hp2)
    obtain ⟨pd2, hpd2, _, _, hc⟩ := hfwd p pd hpd
    exact ⟨pd2, hpd2, by rw [hc]; exact hmem⟩
  distinct := by
    intro n x2 hx2
    obtain ⟨x, hx, _, _, hc⟩ := hbwd n x2 hx2
    rw [hc]
    refine (wf.distinct n x hx).imp_of_mem ?_
    intro a b ha hb hab
    obtain ⟨_, ad, had, _⟩ := wf.child n x hx a ha
    obtain ⟨_, bd, hbd, _⟩ := wf.child n x hx b hb
    obtain ⟨ad2, had2, hla, _⟩ := hfwd a ad had
    obtain ⟨bd2, hbd2, hlb, _⟩ := hfwd b bd hbd
    rw [letterAt_eq had2, letterAt_eq hbd2, hla, hlb, ← letterAt_eq had, ← letterAt_eq hbd]
    exact hab
  rootIff := by
    intro n x2 hx2
    obtain ⟨x, hx, _, hp, _⟩ := hbwd n x2 hx2
    rw [hp]
    exact wf.rootIff n x hx
  rootLetter := by
    intro i hi
    obtain ⟨rd, hrd, hl⟩ := wf.rootLetter i hi
    obtain ⟨rd2, hrd2, hl2, _⟩ := hfwd i rd hrd
    exact ⟨rd2, hrd2, by rw [hl2]; exact hl⟩

theorem get_set {h : Heap} {last : Nat} {ld : LetterNode} (hl : h[last]? = some ld)
    (y : LetterNode) (n : Nat) :
    (h.set last y)[n]? = if n = last then some y else h[n]? := by
  have hlt := lt_of_get hl
  rw [List.getElem?_set]
  by_cases h1 : n = last
  · subst h1
    simp [hlt]
  · have h1s : ¬ last = n := fun e => h1 e.symm
    simp [h1, h1s]

theorem WF_setEnd {h : Heap} (wf : WF h) {last : Nat} {ld : LetterNode}
    (hl : h[last]? = some ld) (b : Bool) : WF (h.set last (ld.setEndOfWord b)) := by
  refine WF_of_shape ?_ ?_ wf
  · intro n x hx
    by_cases h1 : n = last
    · subst h1
      rw [hl] at hx
      injection hx with hx
      subst hx
      exact ⟨ld.setEndOfWord b, by rw [get_set hl]; simp, rfl, rfl, rfl⟩
    · exact ⟨x, by rw [get_set hl]; simp [h1, hx], rfl, rfl, rfl⟩
  · intro n x2 hx2
    rw [get_set hl] at hx2
    by_cases h1 : n = last
    · subst h1
      simp only [if_true, Option.some.injEq] at hx2
      subst hx2
      exact ⟨ld, hl, rfl, rfl, rfl⟩
    · simp only [h1, if_false] at hx2
      exact ⟨x2, hx2, rfl, rfl, rfl⟩

theorem Ext_setEnd {h : Heap} {last : Nat} {ld : LetterNode} (hl : h[last]? = some ld) :
    Ext h (h.set last (ld.setEndOfWord true)) where
  len := by simp
  old := by
    intro n x hx
    by_cases h1 : n = last
    · subst h1
      rw [hl] at hx
      injection hx with hx
      subst hx
      exact ⟨ld.setEndOfWord true, by rw [get_set hl]; simp, rfl, rfl, fun _ => rfl, [], by
        simp [LetterNode.setEndOfWord], by simp⟩
    · exact ⟨x, by rw [get_set hl]; simp [h1, hx], rfl, rfl, fun e => e, [], by simp,
        by simp⟩

theorem isEnd_setEnd {h : Heap} {last : Nat} {ld : LetterNode} (hl : h[last]? = some ld)
    (n : Nat) :
    isEnd (h.set last (ld.setEndOfWord true)) n = if n = last then true else isEnd h n := by
  unfold isEnd
  rw [get_set hl]
  by_cases h1 : n = last
  · simp [h1, LetterNode.setEndOfWord]
  · simp [h1]

theorem set_same {h : Heap} {last : Nat} {ld : LetterNode} (hl : h[last]? = some ld)
    (he : ld.endOfWord = true) : h.set last (ld.setEndOfWord true) = h := by
  apply List.ext_getElem?
  intro n
  rw [get_set hl]
  by_cases h1 : n = last
  · subst h1
    simp only [if_true, hl, Option.some.injEq]
    cases ld
    simp only [LetterNode.setEndOfWord] at he ⊢
    simp [he]
  · simp [h1]

/-! ## Insertion of one word -/

theorem isEnd_valid {h : Heap} {n : Nat} (he : isEnd h n = true) :
    ∃ x : LetterNode, h[n]? = some x ∧ x.endOfWord = true := by
  unfold isEnd at he
  cases hx : h[n]? with
  | none => simp [hx] at he
  | some x => simp [hx] at he; exact ⟨x, rfl, he⟩

theorem insertWord_spec {t : WordTree} (hroots : t.roots = List.range 26) (wf : WF t.heap)
    (c : Char) (rest : List Char) (hc : isLower c) :
    ∃ (t2 : WordTree) (last : Nat),
      insertWord t (c :: rest) = .ok t2 ∧ t2.roots = t.roots ∧ WF t2.heap ∧
      Ext t.heap t2.heap ∧ wordOf t2.heap last = c :: rest ∧
      (∀ n, isEnd t2.heap n = if n = last then true else isEnd t.heap n) ∧
      Present t2 (c :: rest) ∧
      (∀ (n : Nat) (x : LetterNode), t.heap.length ≤ n → t2.heap[n]? = some x →
        x.letter ∈ rest ∧
        ∃ k, 0 < k ∧ k ≤ rest.length ∧ wordOf t2.heap n = c :: rest.take k) := by
  obtain ⟨hidx, hlt, h3⟩ := letterIndex_of_isLower hc
  obtain ⟨rd, hrd, hcode⟩ := wf.rootLetter _ hlt
  have hrl : rd.letter = c := toNat_injective (by omega)
  have hpar : rd.parent = none := (wf.rootIff _ rd hrd).mpr hlt
  have hw0 : wordOf t.heap (c.toNat - 97) = [c] := by rw [wordOf_root wf hrd hpar, hrl]
  obtain ⟨h2, last, ld, hins, wf2, e2, hend2, hlast, hword, hwalk, hnews⟩ :=
    insertLoop_spec rest t.heap (c.toNat - 97) rd wf hrd
  have wf3 := WF_setEnd wf2 hlast true
  have e3 := Ext_setEnd hlast
  have hstart : readAt t.roots (letterIndex ((c :: rest).headD (Char.ofNat 0)))
      = .ok (c.toNat - 97) := by
    simp only [List.headD_cons, hroots, hidx, readAt_range _ hlt]
  refine ⟨{ t with heap := h2.set last (ld.setEndOfWord true) }, last, ?_, rfl, wf3,
    e2.trans e3, ?_, ?_, ?_, ?_⟩
  · unfold insertWord
    simp only [hstart, bind, Except.bind, List.tail_cons, hins, deref_eq_ok hlast]
  · show wordOf (h2.set last (ld.setEndOfWord true)) last = c :: rest
    rw [wordOf_ext wf2 wf3 e3 last ld hlast, hword, hw0]
    rfl
  · intro n
    show isEnd (h2.set last (ld.setEndOfWord true)) n = _
    rw [isEnd_setEnd hlast, hend2]
  · refine ⟨c.toNat - 97, last, hstart, Walk_stable e3 _ _ _ hwalk, ?_⟩
    show isEnd (h2.set last (ld.setEndOfWord true)) last = true
    rw [isEnd_setEnd hlast]
    simp
  · intro n x hge hx
    have hx' : (h2.set last (ld.setEndOfWord true))[n]? = some x := hx
    have hx0 : ∃ x0 : LetterNode, h2[n]? = some x0 ∧ x.letter = x0.letter := by
      rw [get_set hlast] at hx'
      by_cases h1 : n = last
      · subst h1
        simp only [if_true, Option.some.injEq] at hx'
        subst hx'
        exact ⟨ld, hlast, rfl⟩
      · simp only [h1, if_false] at hx'
        exact ⟨x, hx', rfl⟩
    obtain ⟨x0, hx0, hl0⟩ := hx0
    obtain ⟨hmem, k, hk0, hk1, hwk⟩ := hnews n x0 hge hx0
    refine ⟨by rw [hl0]; exact hmem, k, hk0, hk1, ?_⟩
    show wordOf (h2.set last (ld.setEndOfWord true)) n = _
    rw [wordOf_ext wf2 wf3 e3 n x0 hx0, hwk, hw0]
    rfl

theorem insertWord_of_Present {t : WordTree} {w : List Char} (hp : Present t w) :
    insertWord t w = .ok t := by
  obtain ⟨start, last, hstart, hwalk, hend⟩ := hp
  obtain ⟨ld, hld, he⟩ := isEnd_valid hend
  unfold insertWord
  simp only [hstart, bind, Except.bind, insertLoop_of_Walk _ _ _ hwalk, deref_eq_ok hld,
    set_same hld he]

/-! ## The initial trie -/

theorem get_initial (n : Nat) :
    initialTree.heap[n]? =
      if n < 26 then some (LetterNode.new (Char.ofNat (n + 97)) false) else none := by
  unfold initialTree
  simp only [List.getElem?_map]
  by_cases hn : n < 26
  · simp [hn, List.getElem?_range hn]
  · simp only [hn, if_false]
    rw [List.getElem?_eq_none (by simp; omega)]
    rfl

theorem WF_initial : WF initialTree.heap where
  child := by
    intro n x hx ch hch
    rw [get_initial] at hx
    split at hx
    · injection hx with hx
      subst hx
      simp [LetterNode.new] at hch
    · cases hx
  parent := by
    intro n x p hx hp
    rw [get_initial] at hx
    split at hx
    · injection hx with hx
      subst hx
      simp [LetterNode.new] at hp
    · cases hx
  distinct := by
    intro n x hx
    rw [get_initial] at hx
    split at hx
    · injection hx with hx
      subst hx
      simp [LetterNode.new]
    · cases hx
  rootIff := by
    intro n x hx
    rw [get_initial] at hx
    split at hx
    · rename_i hn
      injection hx with hx
      subst hx
      simp [LetterNode.new, hn]
    · cases hx
  rootLetter := by
    intro i hi
    refine ⟨LetterNode.new (Char.ofNat (i + 97)) false, by rw [get_initial]; simp [hi], ?_⟩
    exact toNat_ofNat_letter i hi

/-! ## The invariant of `makeWordTree` -/

theorem isEnd_initial (n : Nat) : isEnd initialTree.heap n = false := by
  unfold isEnd
  rw [get_initial]
  by_cases hn : n < 26 <;> simp [hn, LetterNode.new]

theorem Inv_initial : Inv [] initialTree where
  roots := rfl
  wf := WF_initial
  lower := by
    intro nd hnd
    obtain ⟨n, hn⟩ := List.mem_iff_getElem?.mp hnd
    rw [get_initial] at hn
    split at hn
    · rename_i hlt
      injection hn with hn
      subst hn
      have := toNat_ofNat_letter n hlt
      simp only [LetterNode.new, isLower]
      omega
    · cases hn
  flag := by
    intro n hn
    rw [isEnd_initial] at hn
    cases hn
  found := by intro w hw; cases hw
  present := by intro w hw; cases hw
  stem := by
    intro n x hx hge
    rw [get_initial] at hx
    split at hx
    · omega
    · cases hx

theorem Inv_step {d : List (List Char)} {t : WordTree} (inv : Inv d t) {w : List Char}
    (hw : ValidWord w) :
    ∃ t2 : WordTree, insertWord t w = .ok t2 ∧ Inv (d ++ [w]) t2 ∧ Ext t.heap t2.heap := by
  obtain ⟨hne, hlow⟩ := hw
  obtain ⟨c, rest, rfl⟩ : ∃ c rest, w = c :: rest := by
    cases w with
    | nil => exact absurd rfl hne
    | cons c rest => exact ⟨c, rest, rfl⟩
  have hc : isLower c := hlow c (List.mem_cons_self _ _)
  obtain ⟨t2, last, hins, hroots, wf2, e, hword, hend, hpres, hnews⟩ :=
    insertWord_spec inv.roots inv.wf c rest hc
  have hold : ∀ (n : Nat) (x : LetterNode), t.heap[n]? = some x →
      wordOf t2.heap n = wordOf t.heap n := wordOf_ext inv.wf wf2 e
  have hsplit : ∀ (n : Nat) (x2 : LetterNode), t2.heap[n]? = some x2 →
      (∃ x : LetterNode, t.heap[n]? = some x ∧ x2.letter = x.letter) ∨ t.heap.length ≤ n := by
    intro n x2 hx2
    by_cases hn : n < t.heap.length
    · left
      have hx := List.getElem?_eq_getElem hn
      obtain ⟨x3, hx3, hl, _⟩ := e.old n _ hx
      rw [hx2] at hx3
      injection hx3 with hx3
      subst hx3
      exact ⟨_, hx, hl⟩
    · right; omega
  refine ⟨t2, hins, ?_, e⟩
  refine ⟨hroots.trans inv.roots, wf2, ?_, ?_, ?_, ?_, ?_⟩
  · intro nd hnd
    obtain ⟨n, hn⟩ := List.mem_iff_getElem?.mp hnd
    rcases hsplit n nd hn with ⟨x, hx, hl⟩ | hge
    · have := inv.lower x (mem_of_get hx)
      unfold isLower at this ⊢
      rw [hl]
      exact this
    · obtain ⟨hmem, _⟩ := hnews n nd hge hn
      exact hlow _ (List.mem_cons_of_mem _ hmem)
  · intro n hn
    rw [hend] at hn
    by_cases h1 : n = last
    · subst h1
      rw [hword]
      simp
    · simp only [h1, if_false] at hn
      obtain ⟨x, hx, _⟩ := isEnd_valid hn
      rw [hold n x hx]
      exact List.mem_append_left _ (inv.flag n hn)
  · intro w2 hw2
    rcases List.mem_append.mp hw2 with hw2 | hw2
    · obtain ⟨n, hn, hwn⟩ := inv.found w2 hw2
      obtain ⟨x, hx, _⟩ := isEnd_valid hn
      refine ⟨n, ?_, by rw [hold n x hx, hwn]⟩
      rw [hend]
      split
      · rfl
      · exact hn
    · rw [List.mem_singleton] at hw2
      subst hw2
      exact ⟨last, by rw [hend]; simp, hword⟩
  · intro w2 hw2
    rcases List.mem_append.mp hw2 with hw2 | hw2
    · obtain ⟨start, l2, hstart, hwalk, hl2⟩ := inv.present w2 hw2
      refine ⟨start, l2, by rw [hroots]; exact hstart, Walk_stable e _ _ _ hwalk, ?_⟩
      rw [hend]
      split
      · rfl
      · exact hl2
    · rw [List.mem_singleton] at hw2
      subst hw2
      exact hpres
  · intro n x2 hx2 hge26
    rcases hsplit n x2 hx2 with ⟨x, hx, _⟩ | hge
    · obtain ⟨w2, hw2, s, hs⟩ := inv.stem n x hx hge26
      exact ⟨w2, List.mem_append_left _ hw2, s, by rw [hold n x hx]; exact hs⟩
    · obtain ⟨_, k, _, _, hwk⟩ := hnews n x2 hge hx2
      refine ⟨c :: rest, by simp, rest.drop k, ?_⟩
      rw [hwk]
      simp

theorem foldlM_Inv :
    ∀ (ws : List (List Char)) (d : List (List Char)) (t : WordTree), Inv d t →
      (∀ w ∈ ws, ValidWord w) →
      ∃ t2 : WordTree, ws.foldlM insertWord t = .ok t2 ∧ Inv (d ++ ws) t2 ∧
        Ext t.heap t2.heap := by
  intro ws
  induction ws with
  | nil =>
    intro d t inv _
    exact ⟨t, rfl, by simpa using inv, Ext.refl _⟩
  | cons w ws ih =>
    intro d t inv hws
    obtain ⟨t1, h1, inv1, e1⟩ := Inv_step inv (hws w (List.mem_cons_self _ _))
    obtain ⟨t2, h2, inv2, e2⟩ := ih (d ++ [w]) t1 inv1
      (fun x hx => hws x (List.mem_cons_of_mem _ hx))
    refine ⟨t2, ?_, by simpa using inv2, e1.trans e2⟩
    rw [List.foldlM_cons]
    simp only [h1, bind, Except.bind]
    exact h2

theorem makeWordTree_Inv (dict : List (List Char)) (hd : ∀ w ∈ dict, ValidWord w) :
    ∃ t : WordTree, makeWordTree dict = .ok t ∧ Inv dict t := by
  obtain ⟨t, ht, inv, _⟩ := foldlM_Inv dict [] initialTree Inv_initial hd
  exact ⟨t, ht, by simpa using inv⟩

theorem Inv_of_makeWordTree {dict : List (List Char)} (hd : ∀ w ∈ dict, ValidWord w)
    {t : WordTree} (ht : makeWordTree dict = .ok t) : Inv dict t := by
  obtain ⟨t2, ht2, inv⟩ := makeWordTree_Inv dict hd
  rw [ht] at ht2
  injection ht2 with ht2
  subst ht2
  exact inv

/-! ## Distinct nodes spell distinct words -/

theorem get_unique {h : Heap} {n : Nat} {x y : LetterNode} (hx : h[n]? = some x)
    (hy : h[n]? = some y) : x = y := by
  rw [hx] at hy
  injection hy

theorem wordOf_inj {h : Heap} (wf : WF h) :
    ∀ (n m : Nat) (nd md : LetterNode), h[n]? = some nd → h[m]? = some md →
      wordOf h n = wordOf h m → n = m := by
  intro n
  induction n using Nat.strong_induction_on with
  | _ n ih =>
    intro m nd md hn hm hw
    cases hp : nd.parent with
    | none =>
      rw [wordOf_root wf hn hp] at hw
      cases hq : md.parent with
      | none =>
        rw [wordOf_root wf hm hq] at hw
        have hl : nd.letter = md.letter := by simpa using hw
        have h1 := (wf.rootIff n nd hn).mp hp
        have h2 := (wf.rootIff m md hm).mp hq
        obtain ⟨r1, hr1, hc1⟩ := wf.rootLetter n h1
        obtain ⟨r2, hr2, hc2⟩ := wf.rootLetter m h2
        rw [get_unique hr1 hn] at hc1
        rw [get_unique hr2 hm] at hc2
        rw [hl] at hc1
        omega
      | some q =>
        obtain ⟨qd, hqd, _⟩ := wf.parent m md q hm hq
        rw [wordOf_child wf hm hq] at hw
        have hlen := congrArg List.length hw
        have hne := wordOf_ne_nil wf hqd
        have : 0 < (wordOf h q).length := List.length_pos.mpr hne
        simp only [List.length_append, List.length_singleton] at hlen
        omega
    | some p =>
      obtain ⟨pd, hpd, hmemn⟩ := wf.parent n nd p hn hp
      rw [wordOf_child wf hn hp] at hw
      cases hq : md.parent with
      | none =>
        rw [wordOf_root wf hm hq] at hw
        have hlen := congrArg List.length hw
        have hne := wordOf_ne_nil wf hpd
        have : 0 < (wordOf h p).length := List.length_pos.mpr hne
        simp only [List.length_append, List.length_singleton] at hlen
        omega
      | some q =>
        obtain ⟨qd, hqd, hmemm⟩ := wf.parent m md q hm hq
        rw [wordOf_child wf hm hq] at hw
        obtain ⟨hw1, hw2⟩ := List.append_inj' hw rfl
        have hpq : p = q := ih p (wf.parent_lt hn hp) q pd qd hpd hqd hw1
        subst hpq
        rw [get_unique hqd hpd] at hmemm
        by_contra hne
        have hsym : Symmetric (fun a b => letterAt h a ≠ letterAt h b) :=
          fun _ _ hab e => hab e.symm
        have := (wf.distinct p pd hpd).forall hsym hmemn hmemm hne
        rw [letterAt_eq hn, letterAt_eq hm] at this
        exact this (by simpa using hw2)

/-! ## The pre-order traversal visits every node once -/

theorem preorder_self (h : Heap) (F n : Nat) : n ∈ preorder h (F + 1) n := by
  simp [preorder]

theorem preorder_closed {h : Heap} (wf : WF h) :
    ∀ (F n : Nat) (nd : LetterNode), h[n]? = some nd → h.length ≤ F + n →
      ∀ p ∈ preorder h F n, ∀ pd : LetterNode, h[p]? = some pd →
        ∀ m ∈ pd.children, m ∈ preorder h F n := by
  intro F
  induction F with
  | zero => intro n nd _ _ p hp; simp [preorder] at hp
  | succ F ih =>
    intro n nd hn hF p hp pd hpd m hm
    simp only [preorder, List.mem_cons, List.mem_flatMap, childrenOf_eq hn] at hp ⊢
    right
    rcases hp with rfl | ⟨c, hc, hpc⟩
    · rw [get_unique hpd hn] at hm
      obtain ⟨hlt, md, hmd, _⟩ := wf.child p nd hn m hm
      have := lt_of_get hmd
      obtain ⟨F2, rfl⟩ : ∃ F2, F = F2 + 1 := ⟨F - 1, by omega⟩
      exact ⟨m, hm, preorder_self h F2 m⟩
    · obtain ⟨hlt, cd, hcd, _⟩ := wf.child n nd hn c hc
      exact ⟨c, hc, ih c cd hcd (by omega) p hpc pd hpd m hm⟩

theorem mem_preorder_root {h : Heap} (wf : WF h) :
    ∀ (m : Nat) (md : LetterNode), h[m]? = some md →
      ∃ i, i < 26 ∧ m ∈ preorder h h.length i := by
  intro m
  induction m using Nat.strong_induction_on with
  | _ m ih =>
    intro md hm
    have hlen := wf.len
    cases hp : md.parent with
    | none =>
      have h1 := (wf.rootIff m md hm).mp hp
      obtain ⟨F2, hF2⟩ : ∃ F2, h.length = F2 + 1 := ⟨h.length - 1, by omega⟩
      rw [hF2]
      exact ⟨m, h1, preorder_self h F2 m⟩
    | some p =>
      obtain ⟨pd, hpd, hmem⟩ := wf.parent m md p hm hp
      obtain ⟨i, hi, hpi⟩ := ih p (wf.parent_lt hm hp) pd hpd
      obtain ⟨rd, hrd, _⟩ := wf.rootLetter i hi
      exact ⟨i, hi, preorder_closed wf h.length i rd hrd (by omega) p hpi pd hpd m hmem⟩

theorem mem_preorderAll {t : WordTree} (hroots : t.roots = List.range 26) (wf : WF t.heap)
    {m : Nat} {md : LetterNode} (hm : t.heap[m]? = some md) : m ∈ preorderAll t := by
  obtain ⟨i, hi, hmi⟩ := mem_preorder_root wf m md hm
  unfold preorderAll
  rw [hroots, List.mem_flatMap]
  exact ⟨i, List.mem_range.mpr hi, hmi⟩

theorem preorder_nodup {h : Heap} (wf : WF h) :
    ∀ (F n : Nat) (nd : LetterNode), h[n]? = some nd → (preorder h F n).Nodup := by
  intro F
  induction F with
  | zero => intro n nd _; simp [preorder]
  | succ F ih =>
    intro n nd hn
    simp only [preorder, childrenOf_eq hn]
    rw [List.nodup_cons, List.nodup_flatMap]
    refine ⟨?_, ?_, ?_⟩
    · intro hmem
      obtain ⟨c, hc, hnc⟩ := List.mem_flatMap.mp hmem
      obtain ⟨_, cd, hcd, hpar⟩ := wf.child n nd hn c hc
      obtain ⟨_, s, _, hw⟩ := preorder_word wf F c cd hcd n hnc
      rw [wordOf_child wf hcd hpar] at hw
      have hlen := congrArg List.length hw
      simp only [List.length_append, List.length_singleton] at hlen
      omega
    · intro c hc
      obtain ⟨_, cd, hcd, _⟩ := wf.child n nd hn c hc
      exact ih c cd hcd
    · refine (wf.distinct n nd hn).imp_of_mem ?_
      intro a b ha hb hab
      obtain ⟨_, ad, had, hpa⟩ := wf.child n nd hn a ha
      obtain ⟨_, bd, hbd, hpb⟩ := wf.child n nd hn b hb
      show List.Disjoint (preorder h F a) (preorder h F b)
      intro m hma hmb
      obtain ⟨_, s1, _, hw1⟩ := preorder_word wf F a ad had m hma
      obtain ⟨_, s2, _, hw2⟩ := preorder_word wf F b bd hbd m hmb
      rw [wordOf_child wf had hpa, List.append_assoc] at hw1
      rw [wordOf_child wf hbd hpb, List.append_assoc] at hw2
      rw [hw1] at hw2
      have := List.append_cancel_left hw2
      simp only [List.singleton_append, List.cons.injEq] at this
      rw [letterAt_eq had, letterAt_eq hbd] at hab
      exact hab this.1

theorem preorderAll_nodup {t : WordTree} (hroots : t.roots = List.range 26)
    (wf : WF t.heap) : (preorderAll t).Nodup := by
  unfold preorderAll
  rw [hroots, List.nodup_flatMap]
  refine ⟨?_, ?_⟩
  · intro i hi
    obtain ⟨rd, hrd, _⟩ := wf.rootLetter i (List.mem_range.mp hi)
    exact preorder_nodup wf _ i rd hrd
  · have hnd : (List.range 26).Pairwise (fun a b => a ≠ b) := List.nodup_range 26
    refine hnd.imp_of_mem ?_
    intro a b ha hb hab
    obtain ⟨ad, had, hca⟩ := wf.rootLetter a (List.mem_range.mp ha)
    obtain ⟨bd, hbd, hcb⟩ := wf.rootLetter b (List.mem_range.mp hb)
    have hpa := (wf.rootIff a ad had).mpr (List.mem_range.mp ha)
    have hpb := (wf.rootIff b bd hbd).mpr (List.mem_range.mp hb)
    show List.Disjoint (preorder t.heap t.heap.length a) (preorder t.heap t.heap.length b)
    intro m hma hmb
    obtain ⟨_, s1, _, hw1⟩ := preorder_word wf _ a ad had m hma
    obtain ⟨_, s2, _, hw2⟩ := preorder_word wf _ b bd hbd m hmb
    rw [wordOf_root wf had hpa] at hw1
    rw [wordOf_root wf hbd hpb] at hw2
    rw [hw1] at hw2
    simp only [List.singleton_append, List.cons.injEq] at hw2
    apply hab
    have := congrArg Char.toNat hw2.1
    omega

/-! ## The search on a built trie -/

theorem findAllWords_built {dict : List (List Char)} {t : WordTree} (inv : Inv dict t)
    (q : List Char) (hq : ∀ c ∈ q, isLower c) (hfit : FitsInt q) (fuel : Nat)
    (hfuel : q.length < fuel) :
    findAllWords fuel q t = .ok ((preorderAll t).filter (collectible t.heap q)) := by
  unfold findAllWords
  rw [findAllWords_spec inv.roots inv.wf inv.lower q hq hfit fuel hfuel]
  rfl

theorem mem_preorderAll_valid {t : WordTree} (hroots : t.roots = List.range 26)
    (wf : WF t.heap) {m : Nat} (hm : m ∈ preorderAll t) :
    ∃ md : LetterNode, t.heap[m]? = some md := by
  unfold preorderAll at hm
  rw [hroots] at hm
  obtain ⟨i, hi, hmi⟩ := List.mem_flatMap.mp hm
  obtain ⟨rd, hrd, _⟩ := wf.rootLetter i (List.mem_range.mp hi)
  obtain ⟨md, _, hmd, _⟩ := preorder_word wf _ i rd hrd m hmi
  exact ⟨md, hmd⟩

theorem mem_collected {dict : List (List Char)} {t : WordTree} (inv : Inv dict t)
    (q : List Char) (n : Nat) :
    n ∈ (preorderAll t).filter (collectible t.heap q) ↔
      isEnd t.heap n = true ∧ (wordOf t.heap n).Subperm q := by
  rw [List.mem_filter]
  constructor
  · rintro ⟨_, hc⟩
    simpa [collectible] using hc
  · rintro ⟨he, hs⟩
    obtain ⟨x, hx, _⟩ := isEnd_valid he
    exact ⟨mem_preorderAll inv.roots inv.wf hx, by simp [collectible, he, hs]⟩

theorem Inv.flag_iff {dict : List (List Char)} {t : WordTree} (inv : Inv dict t)
    {n : Nat} {x : LetterNode} (hx : t.heap[n]? = some x) :
    x.endOfWord = true ↔ wordOf t.heap n ∈ dict := by
  constructor
  · intro he
    exact inv.flag n (by simp [isEnd, hx, he])
  · intro hw
    obtain ⟨m, hm, hwm⟩ := inv.found _ hw
    obtain ⟨y, hy, hye⟩ := isEnd_valid hm
    have := wordOf_inj inv.wf m n y x hy hx hwm
    subst this
    rw [get_unique hx hy]
    exact hye

theorem printNode_iff {h : Heap} (wf : WF h) {n : Nat} {x : LetterNode}
    (hx : h[n]? = some x) (w : List Char) :
    (∀ pf, n + 2 ≤ pf → printNode h pf (some n) = .ok w) ↔ wordOf h n = w := by
  constructor
  · intro hp
    have h1 := hp (n + 2) (le_refl _)
    rw [printNode_enough wf hx (n + 2) (le_refl _)] at h1
    injection h1
  · intro hw pf hpf
    rw [printNode_enough wf hx pf hpf, hw]

theorem count_le_of_subperm {s q : List Char} (hs : s.Subperm q) (l : Char) :
    s.count l ≤ q.count l := by
  have := (subperm_iff_codeCount s q).mp hs l.toNat
  rwa [codeCount_toNat, codeCount_toNat] at this

theorem subperm_of_count_le {s q : List Char} (hs : ∀ l : Char, s.count l ≤ q.count l) :
    s.Subperm q :=
  List.subperm_ext_iff.mpr (fun l _ => hs l)

/-! ## The claims -/

/-- C5 (empty-input safety) fails on the code: for the query A the counting loop of
`findAllWords` writes `letters[int(A) - 97]`, that is `letters[-32]`, outside the
26-entry array, whatever the trie; in particular for the dictionary a. The empty query
does give the empty sequence. -/
theorem C5_uppercase_query_out_of_range :
    (∀ (fuel : Nat) (t : WordTree), findAllWords fuel ['A'] t = .error .outOfRange) ∧
    (makeWordTree [['a']]).bind (findAllWords 1 ['A']) = .error .outOfRange ∧
    (makeWordTree [['a']]).bind (findAllWords 1 []) = .ok [] := by
  refine ⟨?_, by decide, by decide⟩
  intro fuel t
  have h1 : countLetters ['A'] (List.replicate 26 0) = .error .outOfRange := by decide
  unfold findAllWords findAllWordsState
  rw [h1]
  rfl

/-- C6 (only lowercase letters count) fails on the code: for the query aB over the
dictionary a the counting loop indexes the count array at `int(B) - 97 = -31`, outside the
array, while the query a (the same string with the uppercase letter removed) collects
the node of the word a. -/
theorem C6_mixed_case_query_out_of_range :
    (makeWordTree [['a']]).bind (findAllWords 3 ['a', 'B']) = .error .outOfRange ∧
    (makeWordTree [['a']]).bind (findAllWords 3 ['a']) = .ok [0] ∧
    countLetters ['a', 'B'] (List.replicate 26 0) = .error .outOfRange ∧
    letterIndex 'B' = -31 := by
  decide

/-! ### Words that are not lowercase -/

theorem readAt_range_out (i : Int) (hi : ¬ (0 ≤ i ∧ i < 26)) :
    readAt (List.range 26) i = .error .outOfRange := by
  unfold readAt
  split
  · have h26 : (List.range 26).length ≤ i.toNat := by simp; omega
    simp [List.getElem?_eq_none h26]
  · rfl

theorem insertWord_out_of_range {t : WordTree} (hroots : t.roots = List.range 26)
    {w : List Char} (hw : ¬ isLower (w.headD (Char.ofNat 0))) :
    insertWord t w = .error .outOfRange := by
  unfold insertWord
  rw [hroots, readAt_range_out _ (fun hi => hw ((letterIndex_range_iff _).mp hi))]
  rfl

theorem foldlM_WF :
    ∀ (ws : List (List Char)) (t0 t : WordTree), t0.roots = List.range 26 → WF t0.heap →
      ws.foldlM insertWord t0 = .ok t → t.roots = List.range 26 ∧ WF t.heap := by
  intro ws
  induction ws with
  | nil =>
    intro t0 t hr wf ht
    have : t0 = t := by simpa [List.foldlM, pure, Except.pure] using ht
    subst this
    exact ⟨hr, wf⟩
  | cons w ws ih =>
    intro t0 t hr wf ht
    rw [List.foldlM_cons] at ht
    by_cases hw : isLower (w.headD (Char.ofNat 0))
    · cases w with
      | nil => exact absurd hw (by decide)
      | cons c rest =>
        obtain ⟨t1, _, h1, hr1, wf1, _⟩ := insertWord_spec hr wf c rest hw
        simp only [h1, bind, Except.bind] at ht
        exact ih t1 t (hr1.trans hr) wf1 ht
    · rw [insertWord_out_of_range hr hw] at ht
      simp [bind, Except.bind] at ht

/-- C7, as the code has it. `makeWordTree` validates nothing: on a trie it has built,
the insertion of a word fails exactly when the word is empty or its first character is
outside a..z, the failure being the out-of-range index into the root array at line 150,
before any node is touched; a word whose first character is a lowercase letter is
inserted whatever its other characters are. -/
theorem C7_insert_fails_iff (ws : List (List Char)) (t : WordTree) (w : List Char)
    (ht : makeWordTree ws = .ok t) :
    (insertWord t w = .error .outOfRange ↔
      (w = [] ∨ ∃ c rest, w = c :: rest ∧ ¬ isLower c)) ∧
    ((∃ t2 : WordTree, insertWord t w = .ok t2) ↔ ∃ c rest, w = c :: rest ∧ isLower c) := by
  obtain ⟨hr, wf⟩ := foldlM_WF ws initialTree t rfl WF_initial ht
  cases w with
  | nil =>
    have := insertWord_out_of_range (t := t) (w := []) hr (by decide)
    simp [this]
  | cons c rest =>
    by_cases hc : isLower c
    · obtain ⟨t2, _, h2, _⟩ := insertWord_spec hr wf c rest hc
      simp [h2, hc]
    · have := insertWord_out_of_range (t := t) (w := c :: rest) hr hc
      simp [this, hc]

/-- Witness for the amended C7: on the initial trie the word aB is inserted. -/
theorem C7_insert_fails_iff_witness :
    makeWordTree [] = .ok initialTree ∧
    ((insertWord initialTree ['a', 'B'] = .error .outOfRange ↔
      (['a', 'B'] = [] ∨ ∃ c rest, ['a', 'B'] = c :: rest ∧ ¬ isLower c)) ∧
    ((∃ t2 : WordTree, insertWord initialTree ['a', 'B'] = .ok t2) ↔
      ∃ c rest, ['a', 'B'] = c :: rest ∧ isLower c)) :=
  ⟨rfl, C7_insert_fails_iff [] initialTree ['a', 'B'] rfl⟩

/-- Counterexample to C7 as stated: the word aB contains the character B, outside a..z,
yet its insertion into the initial trie does not fail; it allocates a 27th node, with
letter B, flagged as a word end, below the root of a. -/
theorem C7_counterexample :
    (∃ c ∈ ['a', 'B'], ¬ isLower c) ∧
    (insertWord initialTree ['a', 'B']).toOption.map (fun t => (t.heap.length, t.heap[26]?))
      = some (27, some ⟨'B', true, some 0, []⟩) ∧
    initialTree.heap.length = 26 := by
  decide

/-- C9 (insert is idempotent). For every trie built from non-empty lowercase words and
every non-empty lowercase word `w`, inserting `w` succeeds, inserting it once more gives
back the very same trie (same heap, hence same nodes, child order and flags), and when
`w` was already in the dictionary the first insertion already changes nothing. -/
theorem C9_insert_idempotent (dict : List (List Char)) (w : List Char)
    (hd : ∀ x ∈ dict, ValidWord x) (hw : ValidWord w) :
    ∃ (t t1 : WordTree),
      makeWordTree dict = .ok t ∧ insertWord t w = .ok t1 ∧ insertWord t1 w = .ok t1 ∧
      (w ∈ dict → t1 = t) := by
  obtain ⟨t, ht, inv⟩ := makeWordTree_Inv dict hd
  obtain ⟨t1, h1, inv1, _⟩ := Inv_step inv hw
  refine ⟨t, t1, ht, h1, insertWord_of_Present (inv1.present w (by simp)), ?_⟩
  intro hmem
  have h2 := insertWord_of_Present (inv.present w hmem)
  rw [h1] at h2
  injection h2

/-- Witness for C9: the word lad, already in the dictionary lad, lan, lad, lin, io, and
the word li, not in it. -/
theorem C9_insert_idempotent_witness :
    ((∀ x ∈ dictLad, ValidWord x) ∧ ValidWord ['l', 'i']) ∧
    (∃ (t t1 : WordTree),
      makeWordTree dictLad = .ok t ∧ insertWord t ['l', 'i'] = .ok t1 ∧
      insertWord t1 ['l', 'i'] = .ok t1 ∧ (['l', 'i'] ∈ dictLad → t1 = t)) ∧
    ((makeWordTree dictLad).bind (fun t => insertWord t ['l', 'a', 'd']) = makeWordTree dictLad) :=
  ⟨⟨by decide, by decide⟩, C9_insert_idempotent dictLad ['l', 'i'] (by decide) (by decide),
    by decide⟩

/-- C10 (word-end flag correctness). For every trie built from a dictionary of
non-empty lowercase words and every node of it, roots included, the node prints (through
`operator<<`, which walks the parent chain up to the root) as a string `s`, and its
`endOfWord` flag is set if and only if `s` is a word of the dictionary. -/
theorem C10_flag_correct (dict : List (List Char)) (hd : ∀ w ∈ dict, ValidWord w) :
    ∃ t : WordTree,
      makeWordTree dict = .ok t ∧
      ∀ (n : Nat) (x : LetterNode), t.heap[n]? = some x →
        ∃ s : List Char,
          (∀ pf, n + 2 ≤ pf → printNode t.heap pf (some n) = .ok s) ∧
          (x.endOfWord = true ↔ s ∈ dict) := by
  obtain ⟨t, ht, inv⟩ := makeWordTree_Inv dict hd
  refine ⟨t, ht, ?_⟩
  intro n x hx
  exact ⟨wordOf t.heap n, (printNode_iff inv.wf hx _).mpr rfl, inv.flag_iff hx⟩

/-- Witness for C10: the dictionary lad, lan, lad, lin, io; the flagged nodes are those
of io, lad, lan and lin. -/
theorem C10_flag_correct_witness :
    (∀ w ∈ dictLad, ValidWord w) ∧
    (∃ t : WordTree,
      makeWordTree dictLad = .ok t ∧
      ∀ (n : Nat) (x : LetterNode), t.heap[n]? = some x →
        ∃ s : List Char,
          (∀ pf, n + 2 ≤ pf → printNode t.heap pf (some n) = .ok s) ∧
          (x.endOfWord = true ↔ s ∈ dictLad)) ∧
    (makeWordTree dictLad).bind (fun t =>
        ((List.range t.heap.length).filter (isEnd t.heap)).mapM
          (fun n => printNode t.heap (n + 2) (some n)))
      = .ok [['l', 'a', 'd'], ['l', 'a', 'n'], ['l', 'i', 'n'], ['i', 'o']] :=
  ⟨by decide, C10_flag_correct dictLad (by decide), by decide⟩

/-! ## Invariants of the built trie -/

theorem WF.distinctChildren {h : Heap} (wf : WF h) : DistinctChildren h := by
  intro n x hx
  exact List.pairwise_map.mpr (wf.distinct n x hx)

/-- C11 (path invariant), as the code has it. In every trie built from non-empty
lowercase words, every node prints (parent chain, then its letter) as a string `s`
such that: a flagged node spells a dictionary word, and an unflagged node spells a
strict beginning of a dictionary word, except that an unflagged root (one of the first
26 nodes, allocated whatever the dictionary) may spell a letter that begins no
dictionary word at all. -/
theorem C11_path_invariant (dict : List (List Char)) (hd : ∀ w ∈ dict, ValidWord w) :
    ∃ t : WordTree,
      makeWordTree dict = .ok t ∧
      ∀ (n : Nat) (x : LetterNode), t.heap[n]? = some x →
        ∃ s : List Char,
          (∀ pf, n + 2 ≤ pf → printNode t.heap pf (some n) = .ok s) ∧
          (x.endOfWord = true → s ∈ dict) ∧
          (x.endOfWord = false →
            (∃ w ∈ dict, ∃ s2 : List Char, s2 ≠ [] ∧ w = s ++ s2) ∨
            (n < 26 ∧ ∀ w ∈ dict, ∀ s2 : List Char, w ≠ s ++ s2)) := by
  obtain ⟨t, ht, inv⟩ := makeWordTree_Inv dict hd
  refine ⟨t, ht, ?_⟩
  intro n x hx
  refine ⟨wordOf t.heap n, (printNode_iff inv.wf hx _).mpr rfl, (inv.flag_iff hx).mp, ?_⟩
  intro hflag
  by_cases hex : ∃ w ∈ dict, ∃ s2 : List Char, w = wordOf t.heap n ++ s2
  · obtain ⟨w, hw, s2, hs2⟩ := hex
    left
    refine ⟨w, hw, s2, ?_, hs2⟩
    intro hnil
    subst hnil
    rw [List.append_nil] at hs2
    have := (inv.flag_iff hx).mpr (hs2 ▸ hw)
    rw [hflag] at this
    cases this
  · right
    constructor
    · by_contra hge
      obtain ⟨w, hw, s2, hs2⟩ := inv.stem n x hx (by omega)
      exact hex ⟨w, hw, s2, hs2⟩
    · intro w hw s2 hs2
      exact hex ⟨w, hw, s2, hs2⟩

/-- Witness for the amended C11: the dictionary lad, lan, lad, lin, io. -/
theorem C11_path_invariant_witness :
    (∀ w ∈ dictLad, ValidWord w) ∧
    ∃ t : WordTree,
      makeWordTree dictLad = .ok t ∧
      ∀ (n : Nat) (x : LetterNode), t.heap[n]? = some x →
        ∃ s : List Char,
          (∀ pf, n + 2 ≤ pf → printNode t.heap pf (some n) = .ok s) ∧
          (x.endOfWord = true → s ∈ dictLad) ∧
          (x.endOfWord = false →
            (∃ w ∈ dictLad, ∃ s2 : List Char, s2 ≠ [] ∧ w = s ++ s2) ∨
            (n < 26 ∧ ∀ w ∈ dictLad, ∀ s2 : List Char, w ≠ s ++ s2)) :=
  ⟨by decide, C11_path_invariant dictLad (by decide)⟩

/-- Counterexample to C11 as stated: in the trie of the dictionary lad, lan, lad, lin, io
the root of z (node 25) exists, is not a word end, and the string z it spells is not the
beginning of any dictionary word. -/
theorem C11_counterexample :
    (∀ w ∈ dictLad, ValidWord w) ∧
    (makeWordTree dictLad).bind (fun t => printNode t.heap 27 (some 25)) = .ok ['z'] ∧
    (makeWordTree dictLad).toOption.map (fun t => isEnd t.heap 25) = some false ∧
    (∀ w ∈ dictLad, w.take 1 ≠ ['z']) := by
  decide

/-- C12 (distinct child letters). The initial 26-root trie has no node with two children
of the same letter; every trie built from non-empty lowercase words has none either, and
the insertion of one more such word into it preserves this. -/
theorem C12_distinct_child_letters (dict : List (List Char)) (w : List Char)
    (hd : ∀ x ∈ dict, ValidWord x) (hw : ValidWord w) :
    DistinctChildren initialTree.heap ∧
    ∃ (t t1 : WordTree),
      makeWordTree dict = .ok t ∧ DistinctChildren t.heap ∧
      insertWord t w = .ok t1 ∧ DistinctChildren t1.heap := by
  obtain ⟨t, ht, inv⟩ := makeWordTree_Inv dict hd
  obtain ⟨t1, h1, inv1, _⟩ := Inv_step inv hw
  exact ⟨WF_initial.distinctChildren, t, t1, ht, inv.wf.distinctChildren, h1,
    inv1.wf.distinctChildren⟩

/-- Witness for C12: the dictionary lad, lan, lad, lin, io and the word lid; the node of
li then has the children n and d. -/
theorem C12_distinct_child_letters_witness :
    ((∀ x ∈ dictLad, ValidWord x) ∧ ValidWord ['l', 'i', 'd']) ∧
    (DistinctChildren initialTree.heap ∧
      ∃ (t t1 : WordTree),
        makeWordTree dictLad = .ok t ∧ DistinctChildren t.heap ∧
        insertWord t ['l', 'i', 'd'] = .ok t1 ∧ DistinctChildren t1.heap) ∧
    (makeWordTree (dictLad ++ [['l', 'i', 'd']])).toOption.map
        (fun t => (childrenOf t.heap 29).map (letterAt t.heap)) = some ['n', 'd'] :=
  ⟨⟨by decide, by decide⟩,
    C12_distinct_child_letters dictLad ['l', 'i', 'd'] (by decide) (by decide), by decide⟩

/-! ## Downward paths -/

theorem Descends_word {h : Heap} (wf : WF h) {n : Nat} :
    ∀ (path : List Nat) (a : Nat) (ad : LetterNode), h[a]? = some ad → Descends h a path n →
      wordOf h n = wordOf h a ++ path.map (letterAt h) := by
  intro path
  induction path with
  | nil =>
    intro a ad _ hdesc
    simp only [Descends] at hdesc
    subst hdesc
    simp
  | cons b rest ih =>
    intro a ad ha hdesc
    obtain ⟨hb, hrest⟩ := hdesc
    rw [childrenOf_eq ha] at hb
    obtain ⟨_, bd, hbd, hpar⟩ := wf.child a ad ha b hb
    rw [ih b bd hbd hrest, wordOf_child wf hbd hpar]
    simp [letterAt_eq hbd]

theorem Descends_snoc {h : Heap} {n : Nat} :
    ∀ (path : List Nat) (a p : Nat), Descends h a path p → n ∈ childrenOf h p →
      Descends h a (path ++ [n]) n := by
  intro path
  induction path with
  | nil =>
    intro a p hdesc hn
    simp only [Descends] at hdesc
    subst hdesc
    exact ⟨hn, rfl⟩
  | cons b rest ih =>
    intro a p hdesc hn
    exact ⟨hdesc.1, ih b p hdesc.2 hn⟩

theorem exists_path {h : Heap} (wf : WF h) :
    ∀ (n : Nat) (nd : LetterNode), h[n]? = some nd →
      ∃ (r : Nat) (path : List Nat), r < 26 ∧ Descends h r path n := by
  intro n
  induction n using Nat.strong_induction_on with
  | _ n ih =>
    intro nd hn
    cases hp : nd.parent with
    | none => exact ⟨n, [], (wf.rootIff n nd hn).mp hp, rfl⟩
    | some p =>
      obtain ⟨pd, hpd, hmem⟩ := wf.parent n nd p hn hp
      obtain ⟨r, path, hr, hdesc⟩ := ih p (wf.parent_lt hn hp) pd hpd
      exact ⟨r, path ++ [n], hr, Descends_snoc path r p hdesc (by rw [childrenOf_eq hpd]; exact hmem)⟩

theorem findChild_some {h : Heap} {c : Char} {p : Nat} :
    ∀ cs : List Nat, findChild h c cs = .ok (some p) →
      p ∈ cs ∧ ∃ pd : LetterNode, h[p]? = some pd ∧ pd.letter = c := by
  intro cs
  induction cs with
  | nil => intro hf; simp [findChild] at hf
  | cons x rest ih =>
    intro hf
    rw [findChild] at hf
    cases hx : h[x]? with
    | none => simp [deref, hx, bind, Except.bind] at hf
    | some xd =>
      simp only [deref_eq_ok hx, bind, Except.bind] at hf
      by_cases hl : xd.letter = c
      · simp only [hl, if_true, Except.ok.injEq, Option.some.injEq] at hf
        subst hf
        exact ⟨List.mem_cons_self _ _, xd, hx, hl⟩
      · simp only [hl, if_false] at hf
        obtain ⟨hmem, hpd⟩ := ih hf
        exact ⟨List.mem_cons_of_mem _ hmem, hpd⟩

theorem Walk_word {h : Heap} (wf : WF h) {last : Nat} :
    ∀ (rest : List Char) (cur : Nat) (cd : LetterNode), h[cur]? = some cd →
      Walk h cur rest last →
      wordOf h last = wordOf h cur ++ rest ∧ ∃ ld : LetterNode, h[last]? = some ld := by
  intro rest
  induction rest with
  | nil =>
    intro cur cd hc hw
    simp only [Walk] at hw
    subst hw
    exact ⟨by simp, cd, hc⟩
  | cons c rest ih =>
    intro cur cd hc hw
    obtain ⟨nd, p, hn, hf, hw2⟩ := hw
    obtain ⟨hmem, pd, hpd, hl⟩ := findChild_some nd.children hf
    obtain ⟨_, pd2, hpd2, hpar⟩ := wf.child cur nd hn p hmem
    rw [get_unique hpd2 hpd] at hpar
    obtain ⟨hword, hlast⟩ := ih p pd hpd hw2
    refine ⟨?_, hlast⟩
    rw [hword, wordOf_child wf hpd hpar, hl]
    simp

/-- C13 (word reconstruction). In every trie built from non-empty lowercase words, every
node `n` is reached from a root of the array `wordTree` by a downward path of child
links, and for every such path `operator<<` prints for `n` exactly the letters of the
nodes of the path, the root first and its own letter included. In particular, for every
dictionary word `w` the node at which the insertion walk of `w` ends prints as `w`. -/
theorem C13_word_reconstruction (dict : List (List Char)) (hd : ∀ w ∈ dict, ValidWord w) :
    ∃ t : WordTree,
      makeWordTree dict = .ok t ∧
      (∀ (n : Nat) (x : LetterNode), t.heap[n]? = some x →
        (∃ (r : Nat) (path : List Nat), r ∈ t.roots ∧ Descends t.heap r path n) ∧
        ∀ (r : Nat) (path : List Nat), r ∈ t.roots → Descends t.heap r path n →
          ∀ pf, n + 2 ≤ pf →
            printNode t.heap pf (some n) = .ok ((r :: path).map (letterAt t.heap))) ∧
      (∀ w ∈ dict, ∃ (start last : Nat),
        readAt t.roots (letterIndex (w.headD (Char.ofNat 0))) = .ok start ∧
        insertLoop t.heap start w.tail = .ok (t.heap, last) ∧
        ∀ pf, last + 2 ≤ pf → printNode t.heap pf (some last) = .ok w) := by
  obtain ⟨t, ht, inv⟩ := makeWordTree_Inv dict hd
  refine ⟨t, ht, ?_, ?_⟩
  · intro n x hx
    constructor
    · obtain ⟨r, path, hr, hdesc⟩ := exists_path inv.wf n x hx
      exact ⟨r, path, by rw [inv.roots]; exact List.mem_range.mpr hr, hdesc⟩
    · intro r path hr hdesc pf hpf
      rw [inv.roots] at hr
      have hr26 := List.mem_range.mp hr
      obtain ⟨rd, hrd, _⟩ := inv.wf.rootLetter r hr26
      have hpar := (inv.wf.rootIff r rd hrd).mpr hr26
      rw [printNode_enough inv.wf hx pf hpf, Descends_word inv.wf path r rd hrd hdesc,
        wordOf_root inv.wf hrd hpar]
      simp [letterAt_eq hrd]
  · intro w hw
    obtain ⟨hne, hlow⟩ := hd w hw
    obtain ⟨start, last, hstart, hwalk, _⟩ := inv.present w hw
    cases w with
    | nil => exact absurd rfl hne
    | cons c rest =>
      have hc : isLower c := hlow c (List.mem_cons_self _ _)
      obtain ⟨hidx, hlt, h3⟩ := letterIndex_of_isLower hc
      have hs : start = c.toNat - 97 := by
        have h2 := hstart
        simp only [List.headD_cons, inv.roots, hidx, readAt_range _ hlt] at h2
        injection h2 with h2
        exact h2.symm
      subst hs
      obtain ⟨rd, hrd, hcode⟩ := inv.wf.rootLetter _ hlt
      have hrl : rd.letter = c := toNat_injective (by omega)
      have hpar := (inv.wf.rootIff _ rd hrd).mpr hlt
      obtain ⟨hword, ld, hld⟩ := Walk_word inv.wf rest _ rd hrd hwalk
      refine ⟨_, last, hstart, insertLoop_of_Walk _ _ _ hwalk, ?_⟩
      intro pf hpf
      rw [printNode_enough inv.wf hld pf hpf, hword, wordOf_root inv.wf hrd hpar, hrl]
      rfl

/-- Witness for C13: the dictionary lad, lan, lad, lin, io; node 27, below node 26, below
the root of l (node 11), prints as lad. -/
theorem C13_word_reconstruction_witness :
    (∀ w ∈ dictLad, ValidWord w) ∧
    (∃ t : WordTree,
      makeWordTree dictLad = .ok t ∧
      (∀ (n : Nat) (x : LetterNode), t.heap[n]? = some x →
        (∃ (r : Nat) (path : List Nat), r ∈ t.roots ∧ Descends t.heap r path n) ∧
        ∀ (r : Nat) (path : List Nat), r ∈ t.roots → Descends t.heap r path n →
          ∀ pf, n + 2 ≤ pf →
            printNode t.heap pf (some n) = .ok ((r :: path).map (letterAt t.heap))) ∧
      (∀ w ∈ dictLad, ∃ (start last : Nat),
        readAt t.roots (letterIndex (w.headD (Char.ofNat 0))) = .ok start ∧
        insertLoop t.heap start w.tail = .ok (t.heap, last) ∧
        ∀ pf, last + 2 ≤ pf → printNode t.heap pf (some last) = .ok w)) ∧
    (makeWordTree dictLad).bind (fun t => printNode t.heap 29 (some 27)) = .ok ['l', 'a', 'd'] ∧
    (makeWordTree dictLad).toOption.map
        (fun t => (childrenOf t.heap 11, childrenOf t.heap 26,
          [11, 26, 27].map (letterAt t.heap))) = some ([26, 29], [27, 28], ['l', 'a', 'd']) :=
  ⟨by decide, C13_word_reconstruction dictLad (by decide), by decide, by decide⟩

/-! ## Properties of the search as a function of the query -/

theorem findAllWordsState_built {dict : List (List Char)} {t : WordTree} (inv : Inv dict t)
    (q : List Char) (hq : ∀ c ∈ q, isLower c) (hfit : FitsInt q) (fuel : Nat)
    (hfuel : q.length < fuel) :
    ∃ counts : List Int,
      countLetters q (List.replicate 26 0) = .ok counts ∧
      findAllWordsState fuel q t
        = .ok (counts, (preorderAll t).filter (collectible t.heap q)) := by
  refine ⟨arr (fun i => letterCount q i), ?_,
    findAllWords_spec inv.roots inv.wf inv.lower q hq hfit fuel hfuel⟩
  rw [countLetters_zero q hq hfit, arr_congr (fun i _ => avail_nil q i)]

/-- C18 (roots always exist). For every list of non-empty lowercase words, the empty
list included, the array `wordTree` of the built trie has 26 distinct entries; entry `i`
points to a node with the letter of code `97 + i` and no parent, and these are the only
nodes without a parent; a root whose letter begins no dictionary word has no children
and is not a word end. -/
theorem C18_roots_exist (dict : List (List Char)) (hd : ∀ w ∈ dict, ValidWord w) :
    ∃ t : WordTree,
      makeWordTree dict = .ok t ∧ t.roots.length = 26 ∧ t.roots.Nodup ∧
      (∀ (n : Nat) (x : LetterNode), t.heap[n]? = some x → (x.parent = none ↔ n ∈ t.roots)) ∧
      ∀ i : Nat, i < 26 →
        ∃ (p : Nat) (x : LetterNode),
          readAt t.roots (i : Int) = .ok p ∧ t.heap[p]? = some x ∧
          x.letter.toNat = 97 + i ∧ x.parent = none ∧
          ((∀ w ∈ dict, w.head? ≠ some x.letter) → x.children = [] ∧ x.endOfWord = false) := by
  obtain ⟨t, ht, inv⟩ := makeWordTree_Inv dict hd
  refine ⟨t, ht, by simp [inv.roots], by rw [inv.roots]; exact List.nodup_range 26, ?_, ?_⟩
  · intro n x hx
    rw [inv.roots, List.mem_range]
    exact inv.wf.rootIff n x hx
  · intro i hi
    obtain ⟨x, hx, hcode⟩ := inv.wf.rootLetter i hi
    have hpar := (inv.wf.rootIff i x hx).mpr hi
    have hword := wordOf_root inv.wf hx hpar
    refine ⟨i, x, by rw [inv.roots]; exact readAt_range i hi, hx, by omega, hpar, ?_⟩
    intro hno
    constructor
    · cases hc : x.children with
      | nil => rfl
      | cons c rest =>
        exfalso
        have hmem : c ∈ x.children := by rw [hc]; exact List.mem_cons_self _ _
        obtain ⟨_, cd, hcd, hcp⟩ := inv.wf.child i x hx c hmem
        have hge : 26 ≤ c := by
          by_contra hlt
          have := (inv.wf.rootIff c cd hcd).mpr (by omega)
          rw [hcp] at this
          cases this
        obtain ⟨w, hw, s2, hs2⟩ := inv.stem c cd hcd hge
        rw [wordOf_child inv.wf hcd hcp, hword] at hs2
        exact hno w hw (by rw [hs2]; rfl)
    · cases he : x.endOfWord with
      | false => rfl
      | true =>
        exfalso
        have hw := (inv.flag_iff hx).mp he
        rw [hword] at hw
        exact hno _ hw rfl

/-- Witness for C18: the dictionary lad, lan, lad, lin, io, whose root of z has no
children and is not a word end, and the empty dictionary, whose trie is the 26 roots. -/
theorem C18_roots_exist_witness :
    (∀ w ∈ dictLad, ValidWord w) ∧
    (∃ t : WordTree,
      makeWordTree dictLad = .ok t ∧ t.roots.length = 26 ∧ t.roots.Nodup ∧
      (∀ (n : Nat) (x : LetterNode), t.heap[n]? = some x → (x.parent = none ↔ n ∈ t.roots)) ∧
      ∀ i : Nat, i < 26 →
        ∃ (p : Nat) (x : LetterNode),
          readAt t.roots (i : Int) = .ok p ∧ t.heap[p]? = some x ∧
          x.letter.toNat = 97 + i ∧ x.parent = none ∧
          ((∀ w ∈ dictLad, w.head? ≠ some x.letter) →
            x.children = [] ∧ x.endOfWord = false)) ∧
    (makeWordTree dictLad).toOption.map (fun t => t.heap[25]?)
      = some (some ⟨'z', false, none, []⟩) ∧
    makeWordTree [] = .ok initialTree ∧ initialTree.heap.length = 26 :=
  ⟨by decide, C18_roots_exist dictLad (by decide), by decide, by decide, by decide⟩

/-! ## Backtracking -/

theorem readAt_ok {a : List Int} {i : Int} {v : Int} (hr : readAt a i = .ok v) :
    0 ≤ i ∧ a[i.toNat]? = some v := by
  unfold readAt at hr
  by_cases h0 : 0 ≤ i
  · simp only [h0, if_true] at hr
    cases hg : a[i.toNat]? with
    | none => simp [hg] at hr
    | some x =>
      simp only [hg, Except.ok.injEq] at hr
      exact ⟨h0, by rw [hr]⟩
  · simp [h0] at hr

theorem writeAt_ok {a l : List Int} {i : Int} {v : Int} (hw : writeAt a i v = .ok l) :
    l = a.set i.toNat v := by
  unfold writeAt at hw
  by_cases h0 : 0 ≤ i ∧ i.toNat < a.length
  · simp only [h0, and_self, if_true, Except.ok.injEq] at hw
    exact hw.symm
  · simp [h0] at hw

theorem set_restore {a : List Int} {k : Nat} {v : Int} (hk : a[k]? = some v) (w : Int) :
    (a.set k w).set k v = a := by
  rw [List.set_set]
  apply List.ext_getElem?
  intro n
  rw [List.getElem?_set]
  by_cases hn : k = n
  · subst hn
    have hlt : k < a.length := (List.getElem?_eq_some.mp hk).1
    simp [hlt, hk]
  · simp [hn]

theorem step_restore {a l1 l3 : List Int} {i : Int} {v v2 : Int}
    (hr : readAt a i = .ok v) (hw : writeAt a i (v - 1) = .ok l1)
    (hr2 : readAt l1 i = .ok v2) (hw2 : writeAt l1 i (v2 + 1) = .ok l3) : l3 = a := by
  obtain ⟨_, hget⟩ := readAt_ok hr
  have hlt : i.toNat < a.length := (List.getElem?_eq_some.mp hget).1
  have h1 := writeAt_ok hw
  subst h1
  obtain ⟨_, hget2⟩ := readAt_ok hr2
  rw [List.getElem?_set_self hlt] at hget2
  injection hget2 with hv2
  rw [writeAt_ok hw2, ← hv2]
  have : v - 1 + 1 = v := by omega
  rw [this]
  exact set_restore hget _

theorem visitChildren_restores
    {recurse : List Int → Nat → List Nat → Except Fault (List Int × List Nat)} {h : Heap}
    (hrec : ∀ (l : List Int) (n : Nat) (k : List Nat) (l2 : List Int) (k2 : List Nat),
      recurse l n k = .ok (l2, k2) → l2 = l) :
    ∀ (cs : List Nat) (letters : List Int) (known : List Nat) (l : List Int) (k : List Nat),
      visitChildren recurse h cs letters known = .ok (l, k) → l = letters := by
  intro cs
  induction cs with
  | nil =>
    intro letters known l k hv
    simp only [visitChildren, Except.ok.injEq, Prod.mk.injEq] at hv
    exact hv.1.symm
  | cons c rest ih =>
    intro letters known l k hv
    rw [visitChildren] at hv
    cases hd : deref h c with
    | error e => simp [hd, bind, Except.bind] at hv
    | ok cn =>
      simp only [hd, bind, Except.bind] at hv
      cases hr : readAt letters (letterIndex cn.letter) with
      | error e => simp [hr] at hv
      | ok v =>
        simp only [hr] at hv
        by_cases hpos : v > 0
        · simp only [hpos, if_true] at hv
          cases hw : writeAt letters (letterIndex cn.letter) (v - 1) with
          | error e => simp [hw] at hv
          | ok l1 =>
            simp only [hw] at hv
            cases hrc : recurse l1 c known with
            | error e => simp [hrc] at hv
            | ok res =>
              obtain ⟨l2, k2⟩ := res
              simp only [hrc] at hv
              have hl2 := hrec _ _ _ _ _ hrc
              subst hl2
              cases hr2 : readAt l2 (letterIndex cn.letter) with
              | error e => simp [hr2] at hv
              | ok v2 =>
                simp only [hr2] at hv
                cases hw2 : writeAt l2 (letterIndex cn.letter) (v2 + 1) with
                | error e => simp [hw2] at hv
                | ok l3 =>
                  simp only [hw2] at hv
                  rw [ih _ _ _ _ hv]
                  exact step_restore hr hw hr2 hw2
        · simp only [hpos, if_false] at hv
          exact ih _ _ _ _ hv

theorem findWord_restores (h : Heap) :
    ∀ (fuel : Nat) (letters : List Int) (n : Nat) (known : List Nat) (l : List Int)
      (k : List Nat), findWord h fuel letters n known = .ok (l, k) → l = letters := by
  intro fuel
  induction fuel with
  | zero => intro letters n known l k hf; simp [findWord] at hf
  | succ fuel ih =>
    intro letters n known l k hf
    rw [findWord] at hf
    cases hd : deref h n with
    | error e => simp [hd, bind, Except.bind] at hf
    | ok nd =>
      simp only [hd, bind, Except.bind] at hf
      exact visitChildren_restores ih _ _ _ _ _ hf

theorem readAt_of_length {a : List Int} (ha : a.length = 26) {i : Nat} (hi : i < 26) :
    ∃ v : Int, readAt a (i : Int) = .ok v := by
  have hlt : i < a.length := by omega
  exact ⟨a[i], by simp [readAt, List.getElem?_eq_getElem hlt]⟩

theorem writeAt_of_length {a : List Int} (ha : a.length = 26) {i : Nat} (hi : i < 26)
    (v : Int) : writeAt a (i : Int) v = .ok (a.set i v) := by
  simp [writeAt, ha, hi]

theorem visitChildren_returns {h : Heap} (wf : WF h) (low : ∀ nd ∈ h, isLower nd.letter)
    (fuel n : Nat) (nd : LetterNode) (hn : h[n]? = some nd)
    (ih : ∀ (c : Nat) (cd : LetterNode), h[c]? = some cd → cd.parent = some n →
      ∀ (letters : List Int) (known : List Nat), letters.length = 26 →
        ∃ k2 : List Nat, findWord h fuel letters c known = .ok (letters, k2)) :
    ∀ cs : List Nat, (∀ c ∈ cs, c ∈ nd.children) →
      ∀ (letters : List Int) (known : List Nat), letters.length = 26 →
        ∃ k2 : List Nat,
          visitChildren (findWord h fuel) h cs letters known = .ok (letters, k2) := by
  intro cs
  induction cs with
  | nil => intro _ letters known _; exact ⟨known, rfl⟩
  | cons c rest ihcs =>
    intro hcs letters known hlen
    have hmem : c ∈ nd.children := hcs c (List.mem_cons_self _ _)
    obtain ⟨_, cd, hcd, hpar⟩ := wf.child n nd hn c hmem
    have hlow : isLower cd.letter := low cd (mem_of_get hcd)
    obtain ⟨hidx, hlt, _⟩ := letterIndex_of_isLower hlow
    have hrest := ihcs (fun x hx => hcs x (List.mem_cons_of_mem _ hx))
    obtain ⟨v, hr⟩ := readAt_of_length hlen hlt
    rw [visitChildren]
    simp only [deref_eq_ok hcd, hidx, hr, bind, Except.bind]
    by_cases hv : v > 0
    · have hw := writeAt_of_length hlen hlt (v - 1)
      have hlen1 : (letters.set (cd.letter.toNat - 97) (v - 1)).length = 26 := by
        simp [hlen]
      obtain ⟨k2, hk2⟩ := ih c cd hcd hpar _ known hlen1
      obtain ⟨v2, hr2⟩ := readAt_of_length hlen1 hlt
      have hw2 := writeAt_of_length hlen1 hlt (v2 + 1)
      have e := step_restore hr hw hr2 hw2
      simp only [hv, if_true, hw, hk2, hr2, hw2, e]
      exact hrest letters k2 hlen
    · simp only [hv, if_false]
      exact hrest letters known hlen

theorem findWord_returns {h : Heap} (wf : WF h) (low : ∀ nd ∈ h, isLower nd.letter) :
    ∀ (fuel n : Nat) (nd : LetterNode), h[n]? = some nd → h.length < fuel + n →
      ∀ (letters : List Int) (known : List Nat), letters.length = 26 →
        ∃ k2 : List Nat, findWord h fuel letters n known = .ok (letters, k2) := by
  intro fuel
  induction fuel with
  | zero =>
    intro n nd hn hf
    have := lt_of_get hn
    omega
  | succ fuel ih =>
    intro n nd hn hf letters known hlen
    have ih2 : ∀ (c : Nat) (cd : LetterNode), h[c]? = some cd → cd.parent = some n →
        ∀ (letters : List Int) (known : List Nat), letters.length = 26 →
          ∃ k2 : List Nat, findWord h fuel letters c known = .ok (letters, k2) := by
      intro c cd hcd hpar
      have hlt := wf.parent_lt hcd hpar
      exact ih c cd hcd (by omega)
    rw [findWord]
    simp only [deref_eq_ok hn, bind, Except.bind]
    exact visitChildren_returns wf low fuel n nd hn ih2 nd.children (fun _ hc => hc) letters _
      hlen

theorem scanRoots_restores (fuel : Nat) (t : WordTree) :
    ∀ (is : List Nat) (letters : List Int) (words : List Nat) (l : List Int)
      (k : List Nat), scanRoots fuel t is letters words = .ok (l, k) → l = letters := by
  intro is
  induction is with
  | nil =>
    intro letters words l k hv
    simp only [scanRoots, Except.ok.injEq, Prod.mk.injEq] at hv
    exact hv.1.symm
  | cons i rest ih =>
    intro letters words l k hv
    rw [scanRoots] at hv
    cases hr : readAt letters (i : Int) with
    | error e => simp [hr, bind, Except.bind] at hv
    | ok v =>
      simp only [hr, bind, Except.bind] at hv
      by_cases hpos : v > 0
      · simp only [hpos, if_true] at hv
        cases hw : writeAt letters (i : Int) (v - 1) with
        | error e => simp [hw] at hv
        | ok l1 =>
          simp only [hw] at hv
          cases hroot : readAt t.roots (i : Int) with
          | error e => simp [hroot] at hv
          | ok root =>
            simp only [hroot] at hv
            cases hrc : findWord t.heap fuel l1 root words with
            | error e => simp [hrc] at hv
            | ok res =>
              obtain ⟨l2, k2⟩ := res
              simp only [hrc] at hv
              have hl2 := findWord_restores _ _ _ _ _ _ _ hrc
              subst hl2
              cases hr2 : readAt l2 (i : Int) with
              | error e => simp [hr2] at hv
              | ok v2 =>
                simp only [hr2] at hv
                cases hw2 : writeAt l2 (i : Int) (v2 + 1) with
                | error e => simp [hw2] at hv
                | ok l3 =>
                  simp only [hw2] at hv
                  rw [ih _ _ _ _ hv]
                  exact step_restore hr hw hr2 hw2
      · simp only [hpos, if_false] at hv
        exact ih _ _ _ _ hv

theorem findAllWordsState_restores (fuel : Nat) (q : List Char) (t : WordTree)
    (l : List Int) (k : List Nat) (hs : findAllWordsState fuel q t = .ok (l, k)) :
    countLetters q (List.replicate 26 0) = .ok l := by
  unfold findAllWordsState at hs
  simp only [bind, Except.bind] at hs
  cases hc : countLetters q (List.replicate 26 0) with
  | error e =>
    rw [hc] at hs
    cases hs
  | ok counts =>
    rw [hc] at hs
    by_cases hlen : 4294967296 ≤ q.length
    · simp [hlen] at hs
    · simp only [hlen, if_false] at hs
      rw [scanRoots_restores _ _ _ _ _ _ _ hs]

/-! ## Recursion depth -/

theorem findWord_depth {h : Heap} (wf : WF h) (low : ∀ nd ∈ h, isLower nd.letter)
    (q : List Char) (D : Nat)
    (hD : ∀ (m : Nat) (md : LetterNode), h[m]? = some md → (wordOf h m).Subperm q →
      (wordOf h m).length ≤ D) :
    ∀ (F n : Nat) (nd : LetterNode), h[n]? = some nd → h.length ≤ F + n →
      (wordOf h n).Subperm q → ∀ (fuel : Nat) (known : List Nat),
        D < fuel + (wordOf h n).length →
        findWord h fuel (arr (avail q (wordOf h n))) n known
          = .ok (arr (avail q (wordOf h n)),
              known ++ (preorder h F n).filter (collectible h q)) := by
  intro F
  induction F with
  | zero =>
    intro n nd hn hF
    have := lt_of_get hn
    omega
  | succ F ih =>
    intro n nd hn _ hsub fuel known hfuel
    have hlen := hD n nd hn hsub
    obtain ⟨f, rfl⟩ : ∃ f, fuel = f + 1 := ⟨fuel - 1, by omega⟩
    have ih2 : ∀ (c : Nat) (cd : LetterNode), h[c]? = some cd → cd.parent = some n →
        (wordOf h c).Subperm q → ∀ known,
          findWord h f (arr (avail q (wordOf h c))) c known
            = .ok (arr (avail q (wordOf h c)),
                known ++ (preorder h F c).filter (collectible h q)) := by
      intro c cd hcd hpar hsubc known2
      have hlt := wf.parent_lt hcd hpar
      have hc := lt_of_get hcd
      refine ih c cd hcd (by omega) hsubc f known2 ?_
      rw [wordOf_child wf hcd hpar]
      simp only [List.length_append, List.length_singleton]
      omega
    have hvis := visitChildren_spec wf low q F f n nd hn hsub ih2 nd.children
      (fun _ hc => hc)
    rw [findWord]
    simp only [deref_eq_ok hn, bind, Except.bind, hvis]
    have hcol : collectible h q n = nd.endOfWord := by
      simp [collectible, isEnd, hn, hsub]
    cases he : nd.endOfWord <;>
      simp [preorder, childrenOf_eq hn, List.filter_cons, hcol, he]

theorem scanRoots_depth {t : WordTree} (hroots : t.roots = List.range 26) (wf : WF t.heap)
    (low : ∀ nd ∈ t.heap, isLower nd.letter) (q : List Char) (D : Nat)
    (hD : ∀ (m : Nat) (md : LetterNode), t.heap[m]? = some md →
      (wordOf t.heap m).Subperm q → (wordOf t.heap m).length ≤ D)
    (fuel : Nat) (hfuel : D ≤ fuel) :
    ∀ (is : List Nat), (∀ i ∈ is, i < 26) → ∀ words,
      scanRoots fuel t is (arr (avail q [])) words
        = .ok (arr (avail q []),
            words ++ (is.flatMap (preorder t.heap t.heap.length)).filter
              (collectible t.heap q)) := by
  intro is
  induction is with
  | nil => intro _ words; simp [scanRoots]
  | cons i rest ihr =>
    intro his words
    have hi : i < 26 := his i (List.mem_cons_self _ _)
    have hrest := ihr (fun x hx => his x (List.mem_cons_of_mem _ hx))
    obtain ⟨rd, hrd, hcode⟩ := wf.rootLetter i hi
    have hpar : rd.parent = none := (wf.rootIff i rd hrd).mpr hi
    have hword : wordOf t.heap i = [] ++ [rd.letter] := by simp [wordOf_root wf hrd hpar]
    have hlow : isLower rd.letter := low rd (mem_of_get hrd)
    have hidx : rd.letter.toNat - 97 = i := by omega
    have hiff := subperm_snoc_iff q [] rd.letter hlow (List.nil_subperm)
    rw [hidx] at hiff
    rw [scanRoots]
    simp only [readAt_arr _ _ hi, bind, Except.bind, hroots, readAt_range i hi]
    by_cases hv : avail q [] i > 0
    · have hsubc : (wordOf t.heap i).Subperm q := by rw [hword]; exact hiff.mpr hv
      have e1 : arr (Function.update (avail q []) i (avail q [] i - 1))
          = arr (avail q (wordOf t.heap i)) := by
        apply arr_congr
        intro j _
        rw [hword, avail_snoc q _ _ hlow, hidx]
      have e2 : arr (Function.update (avail q (wordOf t.heap i)) i
          (avail q (wordOf t.heap i) i + 1)) = arr (avail q []) := by
        apply arr_congr
        intro j _
        have := avail_unsnoc q [] rd.letter hlow j
        rw [hidx] at this
        rw [hword, ← this]
      have hlen1 : (wordOf t.heap i).length = 1 := by rw [hword]; rfl
      have hfw := findWord_depth wf low q D hD t.heap.length i rd hrd (by omega) hsubc fuel
        words (by omega)
      simp only [hv, if_true, writeAt_arr _ _ hi, e1, hfw, readAt_arr _ _ hi, e2, hrest]
      simp [List.filter_append, List.append_assoc]
    · have hno : ¬ (wordOf t.heap i).Subperm q := by
        rw [hword]; exact fun hs => hv (hiff.mp hs)
      simp only [hv, if_false, hrest]
      simp [List.filter_append, filter_collectible_nil wf q _ i rd hrd hno]

theorem findAllWords_depth {t : WordTree} (hroots : t.roots = List.range 26) (wf : WF t.heap)
    (low : ∀ nd ∈ t.heap, isLower nd.letter) (q : List Char) (hq : ∀ c ∈ q, isLower c)
    (hfit : FitsInt q) (D : Nat)
    (hD : ∀ (m : Nat) (md : LetterNode), t.heap[m]? = some md →
      (wordOf t.heap m).Subperm q → (wordOf t.heap m).length ≤ D)
    (fuel : Nat) (hfuel : D ≤ fuel) :
    findAllWords fuel q t = .ok ((preorderAll t).filter (collectible t.heap q)) := by
  have hscan := scanRoots_depth hroots wf low q D hD fuel hfuel (List.range 26)
    (fun i hi => List.mem_range.mp hi) []
  unfold findAllWords
  rw [findAllWordsState_eq t q hq hfit fuel, hscan]
  simp [preorderAll, hroots, bind, Except.bind]

theorem length_le_maxWordLength {dict : List (List Char)} {w : List Char} (hw : w ∈ dict) :
    w.length ≤ maxWordLength dict := by
  unfold maxWordLength
  induction dict with
  | nil => cases hw
  | cons x rest ih =>
    simp only [List.map_cons, List.foldr_cons]
    rcases List.mem_cons.mp hw with rfl | hmem
    · exact le_max_left _ _
    · exact le_trans (ih hmem) (le_max_right _ _)

theorem Inv.depth_le {dict : List (List Char)} {t : WordTree} (inv : Inv dict t) {m : Nat}
    {md : LetterNode} (hm : t.heap[m]? = some md) :
    (wordOf t.heap m).length ≤ max 1 (maxWordLength dict) := by
  by_cases hroot : m < 26
  · have hpar := (inv.wf.rootIff m md hm).mpr hroot
    rw [wordOf_root inv.wf hm hpar]
    exact le_max_left _ _
  · obtain ⟨w, hw, s2, hs2⟩ := inv.stem m md hm (by omega)
    have h1 := length_le_maxWordLength hw
    have h2 : (wordOf t.heap m).length ≤ w.length := by
      rw [hs2]
      simp
    exact le_trans (le_trans h2 h1) (le_max_right _ _)

theorem get_allFlagged (t : WordTree) (n : Nat) :
    (allFlagged t).heap[n]? = (t.heap[n]?).map (fun nd => nd.setEndOfWord true) := by
  simp [allFlagged]

theorem WF_allFlagged {t : WordTree} (wf : WF t.heap) : WF (allFlagged t).heap := by
  refine WF_of_shape ?_ ?_ wf
  · intro n x hx
    exact ⟨x.setEndOfWord true, by rw [get_allFlagged, hx]; rfl, rfl, rfl, rfl⟩
  · intro n x2 hx2
    rw [get_allFlagged] at hx2
    cases hx : t.heap[n]? with
    | none => rw [hx] at hx2; cases hx2
    | some x =>
      rw [hx] at hx2
      simp only [Option.map_some', Option.some.injEq] at hx2
      subst hx2
      exact ⟨x, rfl, rfl, rfl, rfl⟩

theorem Ext_allFlagged (t : WordTree) : Ext t.heap (allFlagged t).heap where
  len := by simp [allFlagged]
  old := by
    intro n x hx
    exact ⟨x.setEndOfWord true, by rw [get_allFlagged, hx]; rfl, rfl, rfl, fun _ => rfl, [],
      by simp [LetterNode.setEndOfWord], by simp⟩

theorem visitedNodes_built {dict : List (List Char)} {t : WordTree} (inv : Inv dict t)
    (q : List Char) (hq : ∀ c ∈ q, isLower c) (hfit : FitsInt q) (fuel : Nat)
    (hfuel : min (max 1 (maxWordLength dict)) q.length ≤ fuel) :
    ∃ v : List Nat, visitedNodes fuel q t = .ok v ∧
      (∀ n, isEnd t.heap n = true → (wordOf t.heap n).Subperm q → n ∈ v) ∧
      ∀ n ∈ v, ∃ x : LetterNode, t.heap[n]? = some x ∧ (wordOf t.heap n).Subperm q := by
  have wf2 := WF_allFlagged inv.wf
  have hroots2 : (allFlagged t).roots = List.range 26 := inv.roots
  have hword : ∀ (n : Nat) (x : LetterNode), t.heap[n]? = some x →
      wordOf (allFlagged t).heap n = wordOf t.heap n :=
    wordOf_ext inv.wf wf2 (Ext_allFlagged t)
  have hback : ∀ (n : Nat) (x2 : LetterNode), (allFlagged t).heap[n]? = some x2 →
      ∃ x : LetterNode, t.heap[n]? = some x ∧ x2 = x.setEndOfWord true := by
    intro n x2 hx2
    rw [get_allFlagged] at hx2
    cases hx : t.heap[n]? with
    | none => rw [hx] at hx2; cases hx2
    | some x =>
      rw [hx] at hx2
      simp only [Option.map_some', Option.some.injEq] at hx2
      exact ⟨x, rfl, hx2.symm⟩
  have low2 : ∀ nd ∈ (allFlagged t).heap, isLower nd.letter := by
    intro nd hnd
    obtain ⟨n, hn⟩ := List.mem_iff_getElem?.mp hnd
    obtain ⟨x, hx, rfl⟩ := hback n nd hn
    exact inv.lower x (mem_of_get hx)
  have hD : ∀ (m : Nat) (md : LetterNode), (allFlagged t).heap[m]? = some md →
      (wordOf (allFlagged t).heap m).Subperm q →
      (wordOf (allFlagged t).heap m).length ≤ min (max 1 (maxWordLength dict)) q.length := by
    intro m md hm hs
    obtain ⟨x, hx, _⟩ := hback m md hm
    refine le_min ?_ (subperm_length_le hs)
    rw [hword m x hx]
    exact inv.depth_le hx
  refine ⟨_, findAllWords_depth hroots2 wf2 low2 q hq hfit _ hD fuel hfuel, ?_, ?_⟩
  · intro n he hs
    obtain ⟨x, hx, _⟩ := isEnd_valid he
    have hx2 : (allFlagged t).heap[n]? = some (x.setEndOfWord true) := by
      rw [get_allFlagged, hx]; rfl
    rw [List.mem_filter]
    refine ⟨mem_preorderAll hroots2 wf2 hx2, ?_⟩
    simp [collectible, isEnd, hx2, LetterNode.setEndOfWord, hword n x hx, hs]
  · intro n hn
    rw [List.mem_filter] at hn
    obtain ⟨x2, hx2⟩ := mem_preorderAll_valid hroots2 wf2 hn.1
    obtain ⟨x, hx, _⟩ := hback n x2 hx2
    refine ⟨x, hx, ?_⟩
    have hc := hn.2
    simp only [collectible, Bool.and_eq_true, decide_eq_true_eq] at hc
    rw [← hword n x hx]
    exact hc.2

theorem maxWordLength_pos {dict : List (List Char)} (hd : ∀ w ∈ dict, ValidWord w)
    (hne : dict ≠ []) : max 1 (maxWordLength dict) = maxWordLength dict := by
  cases dict with
  | nil => exact absurd rfl hne
  | cons w rest =>
    have h1 := length_le_maxWordLength (List.mem_cons_self w rest)
    have h2 : 0 < w.length := List.length_pos.mpr (hd w (List.mem_cons_self _ _)).1
    exact max_eq_right (by omega)

/-! ## The result does not depend on the recursion budget -/

theorem visitChildren_mono
    {rec1 rec2 : List Int → Nat → List Nat → Except Fault (List Int × List Nat)} {h : Heap}
    (hrec : ∀ (l : List Int) (n : Nat) (k : List Nat) (x : List Int × List Nat),
      rec1 l n k = .ok x → rec2 l n k = .ok x) :
    ∀ (cs : List Nat) (letters : List Int) (known : List Nat) (x : List Int × List Nat),
      visitChildren rec1 h cs letters known = .ok x →
      visitChildren rec2 h cs letters known = .ok x := by
  intro cs
  induction cs with
  | nil => intro letters known x hv; simpa [visitChildren] using hv
  | cons c rest ih =>
    intro letters known x hv
    rw [visitChildren] at hv ⊢
    cases hd : deref h c with
    | error e => simp [hd, bind, Except.bind] at hv
    | ok cn =>
      simp only [hd, bind, Except.bind] at hv ⊢
      cases hr : readAt letters (letterIndex cn.letter) with
      | error e => simp [hr] at hv
      | ok v =>
        simp only [hr] at hv ⊢
        by_cases hpos : v > 0
        · simp only [hpos, if_true] at hv ⊢
          cases hw : writeAt letters (letterIndex cn.letter) (v - 1) with
          | error e => simp [hw] at hv
          | ok l1 =>
            simp only [hw] at hv ⊢
            cases hrc : rec1 l1 c known with
            | error e => simp [hrc] at hv
            | ok res =>
              obtain ⟨l2, k2⟩ := res
              simp only [hrc] at hv
              simp only [hrec _ _ _ _ hrc]
              cases hr2 : readAt l2 (letterIndex cn.letter) with
              | error e => simp [hr2] at hv
              | ok v2 =>
                simp only [hr2] at hv ⊢
                cases hw2 : writeAt l2 (letterIndex cn.letter) (v2 + 1) with
                | error e => simp [hw2] at hv
                | ok l3 =>
                  simp only [hw2] at hv ⊢
                  exact ih _ _ _ hv
        · simp only [hpos, if_false] at hv ⊢
          exact ih _ _ _ hv

theorem findWord_mono (h : Heap) :
    ∀ (f f2 : Nat), f ≤ f2 → ∀ (letters : List Int) (n : Nat) (known : List Nat)
      (x : List Int × List Nat),
      findWord h f letters n known = .ok x → findWord h f2 letters n known = .ok x := by
  intro f
  induction f with
  | zero => intro f2 _ letters n known x hf; simp [findWord] at hf
  | succ f ih =>
    intro f2 hle letters n known x hf
    obtain ⟨g, rfl⟩ : ∃ g, f2 = g + 1 := ⟨f2 - 1, by omega⟩
    rw [findWord] at hf ⊢
    cases hd : deref h n with
    | error e => simp [hd, bind, Except.bind] at hf
    | ok nd =>
      simp only [hd, bind, Except.bind] at hf ⊢
      exact visitChildren_mono (ih g (by omega)) _ _ _ _ hf

theorem scanRoots_mono (t : WordTree) (f f2 : Nat) (hle : f ≤ f2) :
    ∀ (is : List Nat) (letters : List Int) (words : List Nat) (x : List Int × List Nat),
      scanRoots f t is letters words = .ok x → scanRoots f2 t is letters words = .ok x := by
  intro is
  induction is with
  | nil => intro letters words x hv; simpa [scanRoots] using hv
  | cons i rest ih =>
    intro letters words x hv
    rw [scanRoots] at hv ⊢
    cases hr : readAt letters (i : Int) with
    | error e => simp [hr, bind, Except.bind] at hv
    | ok v =>
      simp only [hr, bind, Except.bind] at hv ⊢
      by_cases hpos : v > 0
      · simp only [hpos, if_true] at hv ⊢
        cases hw : writeAt letters (i : Int) (v - 1) with
        | error e => simp [hw] at hv
        | ok l1 =>
          simp only [hw] at hv ⊢
          cases hroot : readAt t.roots (i : Int) with
          | error e => simp [hroot] at hv
          | ok root =>
            simp only [hroot] at hv ⊢
            cases hrc : findWord t.heap f l1 root words with
            | error e => simp [hrc] at hv
            | ok res =>
              obtain ⟨l2, k2⟩ := res
              simp only [hrc] at hv
              simp only [findWord_mono t.heap f f2 hle _ _ _ _ hrc]
              cases hr2 : readAt l2 (i : Int) with
              | error e => simp [hr2] at hv
              | ok v2 =>
                simp only [hr2] at hv ⊢
                cases hw2 : writeAt l2 (i : Int) (v2 + 1) with
                | error e => simp [hw2] at hv
                | ok l3 =>
                  simp only [hw2] at hv ⊢
                  exact ih _ _ _ hv
      · simp only [hpos, if_false] at hv ⊢
        exact ih _ _ _ hv

theorem findAllWordsState_ok {t : WordTree} (hroots : t.roots = List.range 26)
    (wf : WF t.heap) (low : ∀ nd ∈ t.heap, isLower nd.letter) {q : List Char} {fuel : Nat}
    {l : List Int} {r : List Nat} (hs : findAllWordsState fuel q t = .ok (l, r)) :
    (∀ c ∈ q, isLower c) ∧ q.length < 4294967296 ∧
    countLetters q (List.replicate 26 0) = .ok l ∧
    r = (preorderAll t).filter (collectible t.heap q) := by
  have hcl := findAllWordsState_restores fuel q t l r hs
  have hcl2 := hcl
  rw [replicate_eq_arr] at hcl2
  obtain ⟨hq, hl⟩ := countLetters_ok q _ l hcl2
  have hl2 : l = arr (avail q []) := by
    rw [hl]
    exact arr_congr (fun i _ => by simp [avail_nil])
  unfold findAllWordsState at hs
  rw [hcl] at hs
  simp only [bind, Except.bind] at hs
  by_cases hlen : 4294967296 ≤ q.length
  · simp [hlen] at hs
  · simp only [hlen, if_false] at hs
    refine ⟨hq, by omega, hcl, ?_⟩
    have hbig := scanRoots_mono t fuel (max fuel (q.length + 1)) (le_max_left _ _) _ _ _ _ hs
    rw [hl2, scanRoots_spec hroots wf low q _ (by
      have := le_max_right fuel (q.length + 1); omega) (List.range 26)
      (fun i hi => List.mem_range.mp hi) []] at hbig
    simp only [Except.ok.injEq, Prod.mk.injEq, List.nil_append] at hbig
    rw [← hbig.2, preorderAll, hroots]

theorem findAllWords_ok {t : WordTree} (hroots : t.roots = List.range 26)
    (wf : WF t.heap) (low : ∀ nd ∈ t.heap, isLower nd.letter) {q : List Char} {fuel : Nat}
    {r : List Nat} (hr : findAllWords fuel q t = .ok r) :
    (∀ c ∈ q, isLower c) ∧ r = (preorderAll t).filter (collectible t.heap q) := by
  unfold findAllWords at hr
  cases hs : findAllWordsState fuel q t with
  | error e => simp [hs, bind, Except.bind] at hr
  | ok res =>
    obtain ⟨l, r2⟩ := res
    simp only [hs, bind, Except.bind, Except.ok.injEq] at hr
    subst hr
    obtain ⟨hq, _, _, hres⟩ := findAllWordsState_ok hroots wf low hs
    exact ⟨hq, hres⟩

/-! ## A query that overflows a count -/

theorem countLetters_replicate_a :
    ∀ (n : Nat) (g : Nat → Int), g 0 ≤ 2147483647 →
      countLetters (List.replicate n 'a') (arr g)
        = if g 0 + (n : Int) ≤ 2147483647 then .ok (arr (Function.update g 0 (g 0 + (n : Int))))
          else .error .overflow := by
  intro n
  induction n with
  | zero =>
    intro g hg
    simp only [List.replicate_zero, countLetters, Nat.cast_zero, add_zero, hg, if_true]
    rw [@arr_congr (Function.update g 0 (g 0)) g (fun i _ => by simp)]
  | succ n ih =>
    intro g hg
    have hidx : letterIndex 'a' = ((0 : Nat) : Int) := by decide
    rw [List.replicate_succ, countLetters]
    simp only [hidx, readAt_arr _ _ (by omega : 0 < 26), bind, Except.bind]
    by_cases hov : g 0 + 1 > 2147483647
    · have hno : ¬ g 0 + ((n + 1 : Nat) : Int) ≤ 2147483647 := by push_cast; omega
      simp only [hov, if_true, hno, if_false]
    · simp only [hov, if_false, writeAt_arr _ _ (by omega : 0 < 26)]
      rw [ih _ (by simp only [Function.update_same]; omega)]
      simp only [Function.update_same]
      by_cases hle : g 0 + 1 + (n : Int) ≤ 2147483647
      · have hle2 : g 0 + ((n + 1 : Nat) : Int) ≤ 2147483647 := by push_cast; omega
        simp only [hle, if_true, hle2]
        congr 1
        apply arr_congr
        intro i _
        by_cases hi : i = 0
        · subst hi
          simp only [Function.update_same]
          push_cast
          ring
        · simp [Function.update, hi]
      · have hle2 : ¬ g 0 + ((n + 1 : Nat) : Int) ≤ 2147483647 := by push_cast; omega
        simp only [hle, if_false, hle2]

theorem countLetters_giant :
    countLetters (List.replicate 2147483648 'a') (List.replicate 26 0) = .error .overflow := by
  rw [replicate_eq_arr, countLetters_replicate_a 2147483648 _ (by norm_num)]
  norm_num

theorem findAllWords_giant (fuel : Nat) (t : WordTree) :
    findAllWords fuel (List.replicate 2147483648 'a') t = .error .overflow := by
  unfold findAllWords findAllWordsState
  rw [countLetters_giant]
  rfl

theorem giant_isLower : ∀ c ∈ List.replicate 2147483648 'a', isLower c := by
  intro c hc
  rw [List.eq_of_mem_replicate hc]
  decide

/-! ## The search leaves the memory of the nodes as it found it -/

theorem visitChildrenMem_eq
    {recM : Heap → List Int → Nat → List Nat → Except Fault (Heap × List Int × List Nat)}
    {recP : Heap → List Int → Nat → List Nat → Except Fault (List Int × List Nat)}
    (hrec : ∀ (h : Heap) (l : List Int) (n : Nat) (k : List Nat),
      recM h l n k = (recP h l n k).map (fun p => (h, p.1, p.2))) :
    ∀ (cs : List Nat) (h : Heap) (letters : List Int) (known : List Nat),
      visitChildrenMem recM h cs letters known
        = (visitChildren (recP h) h cs letters known).map (fun p => (h, p.1, p.2)) := by
  intro cs
  induction cs with
  | nil => intro h letters known; rfl
  | cons c rest ih =>
    intro h letters known
    rw [visitChildrenMem, visitChildren]
    cases hd : deref h c with
    | error e => rfl
    | ok cn =>
      simp only [bind, Except.bind]
      cases hr : readAt letters (letterIndex cn.letter) with
      | error e => rfl
      | ok v =>
        simp only []
        by_cases hpos : v > 0
        · simp only [hpos, if_true]
          cases hw : writeAt letters (letterIndex cn.letter) (v - 1) with
          | error e => rfl
          | ok l1 =>
            simp only [hrec]
            cases hrc : recP h l1 c known with
            | error e => rfl
            | ok res =>
              obtain ⟨l2, k2⟩ := res
              simp only [Except.map, hd]
              cases hr2 : readAt l2 (letterIndex cn.letter) with
              | error e => rfl
              | ok v2 =>
                simp only []
                cases hw2 : writeAt l2 (letterIndex cn.letter) (v2 + 1) with
                | error e => rfl
                | ok l3 =>
                  simp only []
                  exact ih h l3 k2
        · simp only [hpos, if_false]
          exact ih h letters known

theorem findWordMem_eq :
    ∀ (f : Nat) (h : Heap) (letters : List Int) (n : Nat) (known : List Nat),
      findWordMem f h letters n known
        = (findWord h f letters n known).map (fun p => (h, p.1, p.2)) := by
  intro f
  induction f with
  | zero => intro h letters n known; rfl
  | succ f ih =>
    intro h letters n known
    rw [findWordMem, findWord]
    cases hd : deref h n with
    | error e => rfl
    | ok nd =>
      simp only [bind, Except.bind]
      exact @visitChildrenMem_eq (findWordMem f) (fun h2 => findWord h2 f) ih _ _ _ _

theorem scanRootsMem_eq (fuel : Nat) :
    ∀ (is : List Nat) (t : WordTree) (letters : List Int) (words : List Nat),
      scanRootsMem fuel t is letters words
        = (scanRoots fuel t is letters words).map (fun p => (t, p.1, p.2)) := by
  intro is
  induction is with
  | nil => intro t letters words; rfl
  | cons i rest ih =>
    intro t letters words
    rw [scanRootsMem, scanRoots]
    cases hr : readAt letters (i : Int) with
    | error e => rfl
    | ok v =>
      simp only [bind, Except.bind]
      by_cases hpos : v > 0
      · simp only [hpos, if_true]
        cases hw : writeAt letters (i : Int) (v - 1) with
        | error e => rfl
        | ok l1 =>
          simp only []
          cases hroot : readAt t.roots (i : Int) with
          | error e => rfl
          | ok root =>
            simp only [findWordMem_eq]
            cases hrc : findWord t.heap fuel l1 root words with
            | error e => rfl
            | ok res =>
              obtain ⟨l2, k2⟩ := res
              simp only [Except.map]
              cases hr2 : readAt l2 (i : Int) with
              | error e => rfl
              | ok v2 =>
                simp only []
                cases hw2 : writeAt l2 (i : Int) (v2 + 1) with
                | error e => rfl
                | ok l3 =>
                  simp only []
                  exact ih t l3 k2
      · simp only [hpos, if_false]
        exact ih t letters words

theorem findAllWordsMem_eq (fuel : Nat) (q : List Char) (t : WordTree) :
    findAllWordsMem fuel q t = (findAllWords fuel q t).map (fun r => (t, r)) := by
  unfold findAllWordsMem findAllWords findAllWordsState
  cases hc : countLetters q (List.replicate 26 0) with
  | error e => rfl
  | ok counts =>
    simp only [bind, Except.bind]
    by_cases hlen : 4294967296 ≤ q.length
    · simp only [hlen, if_true]
      rfl
    · simp only [hlen, if_false, scanRootsMem_eq]
      cases hs : scanRoots fuel t (List.range 26) counts [] with
      | error e => rfl
      | ok res => rfl

theorem findAllWordsMem_ok {fuel : Nat} {q : List Char} {t t1 : WordTree} {r : List Nat}
    (hm : findAllWordsMem fuel q t = .ok (t1, r)) : t1 = t ∧ findAllWords fuel q t = .ok r := by
  rw [findAllWordsMem_eq] at hm
  cases hf : findAllWords fuel q t with
  | error e => rw [hf] at hm; cases hm
  | ok r2 =>
    rw [hf] at hm
    simp only [Except.map, Except.ok.injEq, Prod.mk.injEq] at hm
    exact ⟨hm.1.symm, by rw [hm.2]⟩

/-! ## Queries within and beyond the machine integers -/

theorem letterCount_perm {q q2 : List Char} (hp : q.Perm q2) (i : Nat) :
    letterCount q i = letterCount q2 i := by
  unfold letterCount codeCount
  rw [(hp.map Char.toNat).count_eq]

theorem countLetters_overflow :
    ∀ (q : List Char) (g : Nat → Int), (∀ c ∈ q, isLower c) →
      (∃ i, i < 26 ∧ 2147483647 < g i + letterCount q i) →
      (∀ i, i < 26 → g i ≤ 2147483647) →
      countLetters q (arr g) = .error .overflow := by
  intro q
  induction q with
  | nil =>
    intro g _ hex hg
    obtain ⟨i, hi, h⟩ := hex
    have h1 := hg i hi
    simp only [letterCount, codeCount, List.map_nil, List.count_nil, Nat.cast_zero,
      add_zero] at h
    omega
  | cons c rest ih =>
    intro g hq hex hg
    have hc : isLower c := hq c (List.mem_cons_self _ _)
    obtain ⟨hidx, hlt, h3⟩ := letterIndex_of_isLower hc
    obtain ⟨i, hi, h⟩ := hex
    rw [countLetters]
    simp only [hidx, readAt_arr _ _ hlt, bind, Except.bind]
    by_cases hov : g (c.toNat - 97) + 1 > 2147483647
    · simp only [hov, if_true]
    · simp only [hov, if_false, writeAt_arr _ _ hlt]
      refine ih _ (fun x hx => hq x (List.mem_cons_of_mem _ hx))
        ⟨i, hi, by rw [count_step g hc rest i]; exact h⟩ ?_
      intro j hj
      by_cases hj2 : j = c.toNat - 97
      · rw [hj2, Function.update_same]
        omega
      · rw [Function.update_noteq hj2]
        exact hg j hj

theorem count_le_of_letterCount {q : List Char} (hq : ∀ c ∈ q, isLower c)
    (hb : ∀ i, i < 26 → letterCount q i ≤ 2147483647) (c : Char) : q.count c ≤ 2147483647 := by
  by_cases hc : c ∈ q
  · obtain ⟨_, hlt, h3⟩ := letterIndex_of_isLower (hq c hc)
    have h1 := hb _ hlt
    unfold letterCount at h1
    have h2 : c.toNat - 97 + 97 = c.toNat := by
      have := (hq c hc).1
      omega
    rw [h2, codeCount_toNat] at h1
    exact_mod_cast h1
  · rw [List.count_eq_zero_of_not_mem hc]
    omega

theorem findAllWords_not_fits (fuel : Nat) (t : WordTree) (q : List Char)
    (hq : ∀ c ∈ q, isLower c) (hnf : ¬ FitsInt q) :
    findAllWords fuel q t = .error .overflow := by
  unfold findAllWords findAllWordsState
  by_cases hb : ∀ i, i < 26 → letterCount q i ≤ 2147483647
  · have hlen : 4294967296 ≤ q.length := by
      by_contra hlt
      exact hnf ⟨by omega, count_le_of_letterCount hq hb⟩
    rw [replicate_eq_arr, countLetters_spec q _ hq (fun i hi => by simpa using hb i hi)]
    simp only [bind, Except.bind, hlen, if_true]
  · push_neg at hb
    obtain ⟨i, hi, h⟩ := hb
    rw [replicate_eq_arr, countLetters_overflow q _ hq ⟨i, hi, by simpa using h⟩
      (fun _ _ => by norm_num)]
    rfl

theorem countLetters_perm {q q2 : List Char} (hq : ∀ c ∈ q, isLower c) (hp : q.Perm q2) :
    countLetters q (List.replicate 26 0) = countLetters q2 (List.replicate 26 0) := by
  have hq2 : ∀ c ∈ q2, isLower c := fun c hc => hq c (hp.mem_iff.mpr hc)
  rw [replicate_eq_arr]
  by_cases hb : ∀ i, i < 26 → letterCount q i ≤ 2147483647
  · rw [countLetters_spec q _ hq (fun i hi => by simpa using hb i hi),
      countLetters_spec q2 _ hq2 (fun i hi => by
        rw [← letterCount_perm hp i]; simpa using hb i hi)]
    congr 1
    exact arr_congr (fun i _ => by rw [letterCount_perm hp i])
  · push_neg at hb
    obtain ⟨i, hi, h⟩ := hb
    rw [countLetters_overflow q _ hq ⟨i, hi, by simpa using h⟩ (fun _ _ => by norm_num),
      countLetters_overflow q2 _ hq2
        ⟨i, hi, by rw [← letterCount_perm hp i]; simpa using h⟩ (fun _ _ => by norm_num)]

theorem findAllWords_perm (fuel : Nat) (t : WordTree) {q q2 : List Char}
    (hq : ∀ c ∈ q, isLower c) (hp : q.Perm q2) :
    findAllWords fuel q t = findAllWords fuel q2 t := by
  unfold findAllWords findAllWordsState
  rw [countLetters_perm hq hp, hp.length_eq]

theorem FitsInt_of_subperm {q q2 : List Char} (hs : q.Subperm q2) (hfit : FitsInt q2) :
    FitsInt q := by
  refine ⟨lt_of_le_of_lt hs.length_le hfit.1, ?_⟩
  intro c
  exact le_trans (count_le_of_subperm hs c) (hfit.2 c)

theorem a_subperm_giant : ['a'].Subperm (List.replicate 2147483648 'a') := by
  have h : (List.replicate 1 'a').Sublist (List.replicate 2147483648 'a') :=
    (List.replicate_sublist_replicate 'a').mpr (by norm_num)
  exact h.subperm

theorem visitedNodes_ok {dict : List (List Char)} {t : WordTree} (inv : Inv dict t)
    {q : List Char} {fuel : Nat} {v : List Nat} (hv : visitedNodes fuel q t = .ok v) :
    ∀ n ∈ v, ∃ x : LetterNode, t.heap[n]? = some x ∧ (wordOf t.heap n).Subperm q := by
  have wf2 := WF_allFlagged inv.wf
  have hroots2 : (allFlagged t).roots = List.range 26 := inv.roots
  have hback : ∀ (n : Nat) (x2 : LetterNode), (allFlagged t).heap[n]? = some x2 →
      ∃ x : LetterNode, t.heap[n]? = some x ∧ x2 = x.setEndOfWord true := by
    intro n x2 hx2
    rw [get_allFlagged] at hx2
    cases hx : t.heap[n]? with
    | none => rw [hx] at hx2; cases hx2
    | some x =>
      rw [hx] at hx2
      simp only [Option.map_some', Option.some.injEq] at hx2
      exact ⟨x, rfl, hx2.symm⟩
  have low2 : ∀ nd ∈ (allFlagged t).heap, isLower nd.letter := by
    intro nd hnd
    obtain ⟨n, hn⟩ := List.mem_iff_getElem?.mp hnd
    obtain ⟨x, hx, rfl⟩ := hback n nd hn
    exact inv.lower x (mem_of_get hx)
  obtain ⟨_, hres⟩ := findAllWords_ok hroots2 wf2 low2 hv
  intro n hn
  rw [hres, List.mem_filter] at hn
  obtain ⟨x2, hx2⟩ := mem_preorderAll_valid hroots2 wf2 hn.1
  obtain ⟨x, hx, _⟩ := hback n x2 hx2
  refine ⟨x, hx, ?_⟩
  have hc := hn.2
  simp only [collectible, Bool.and_eq_true, decide_eq_true_eq] at hc
  rw [← wordOf_ext inv.wf wf2 (Ext_allFlagged t) n x hx]
  exact hc.2

/-! ## The claims about the search -/

/-- C1 (completeness), for the queries that fit the machine integers. For every
dictionary of non-empty lowercase words and every lowercase query of fewer than `2^32`
characters in which no letter occurs more than `2^31 - 1` times, `makeWordTree` builds a
trie, `findAllWords` returns a sequence of nodes, and the strings that `operator<<`
prints for these nodes are exactly the dictionary words whose letter multiset is a
sub-multiset of the letter multiset of the query. -/
theorem C1_completeness (dict : List (List Char)) (q : List Char) (fuel : Nat)
    (hd : ∀ w ∈ dict, ValidWord w) (hq : ∀ c ∈ q, isLower c) (hfit : FitsInt q)
    (hfuel : q.length < fuel) :
    ∃ (t : WordTree) (r : List Nat),
      makeWordTree dict = .ok t ∧ findAllWords fuel q t = .ok r ∧
      ∀ w : List Char,
        (∃ n ∈ r, ∀ pf, n + 2 ≤ pf → printNode t.heap pf (some n) = .ok w) ↔
          (w ∈ dict ∧ (w : Multiset Char) ≤ (q : Multiset Char)) := by
  obtain ⟨t, ht, inv⟩ := makeWordTree_Inv dict hd
  refine ⟨t, _, ht, findAllWords_built inv q hq hfit fuel hfuel, ?_⟩
  intro w
  rw [Multiset.coe_le]
  constructor
  · rintro ⟨n, hn, hp⟩
    obtain ⟨he, hs⟩ := (mem_collected inv q n).mp hn
    obtain ⟨x, hx, _⟩ := isEnd_valid he
    have hw := (printNode_iff inv.wf hx w).mp hp
    subst hw
    exact ⟨inv.flag n he, hs⟩
  · rintro ⟨hw, hs⟩
    obtain ⟨n, he, hwn⟩ := inv.found w hw
    obtain ⟨x, hx, _⟩ := isEnd_valid he
    refine ⟨n, (mem_collected inv q n).mpr ⟨he, by rw [hwn]; exact hs⟩, ?_⟩
    exact (printNode_iff inv.wf hx w).mpr hwn

/-- Witness for C1: the dictionary lad, lan, lad, lin, io with the query adiln; the words
printed are lad, lan, lin. -/
theorem C1_completeness_witness :
    ((∀ w ∈ dictLad, ValidWord w) ∧ (∀ c ∈ queryAdiln, isLower c) ∧ FitsInt queryAdiln ∧
      queryAdiln.length < 6) ∧
    (∃ (t : WordTree) (r : List Nat),
      makeWordTree dictLad = .ok t ∧ findAllWords 6 queryAdiln t = .ok r ∧
      ∀ w : List Char,
        (∃ n ∈ r, ∀ pf, n + 2 ≤ pf → printNode t.heap pf (some n) = .ok w) ↔
          (w ∈ dictLad ∧ (w : Multiset Char) ≤ (queryAdiln : Multiset Char))) ∧
    (makeWordTree dictLad).bind (printedWords 6 queryAdiln)
      = .ok [['l', 'a', 'd'], ['l', 'a', 'n'], ['l', 'i', 'n']] :=
  ⟨⟨by decide, by decide, FitsInt_of_length (by decide), by decide⟩,
    C1_completeness dictLad queryAdiln 6 (by decide) (by decide)
      (FitsInt_of_length (by decide)) (by decide),
    by decide⟩

/-- Counterexample to C1 as stated: the dictionary a and the query made of `2^31`
letters a. The word a is in the dictionary and its letters are a sub-multiset of the
query, but the counting loop of `findAllWords` overflows the `int` count of a at its last
increment (line 105), whatever the recursion budget: the word a is not collected. -/
theorem C1_counterexample :
    (∀ w ∈ [['a']], ValidWord w) ∧ (∀ c ∈ List.replicate 2147483648 'a', isLower c) ∧
    ['a'] ∈ [['a']] ∧
    ((['a'] : List Char) : Multiset Char)
      ≤ ((List.replicate 2147483648 'a' : List Char) : Multiset Char) ∧
    ∃ t : WordTree, makeWordTree [['a']] = .ok t ∧
      ∀ fuel : Nat,
        findAllWords fuel (List.replicate 2147483648 'a') t = .error .overflow := by
  obtain ⟨t, ht, _⟩ := makeWordTree_Inv [['a']] (by decide)
  exact ⟨by decide, giant_isLower, by decide, Multiset.coe_le.mpr a_subperm_giant, t, ht,
    fun fuel => findAllWords_giant fuel t⟩

/-- C2 (availability respect). On the trie built from any dictionary of non-empty
lowercase words, whenever `findAllWords` returns, for whatever query and recursion
budget, every node it collected prints as a word in which each letter occurs at most as
often as it occurs in the query; and `findAllWords` does return for every lowercase
query that fits the machine integers, given a recursion budget above the query length. -/
theorem C2_availability (dict : List (List Char)) (hd : ∀ w ∈ dict, ValidWord w) :
    ∃ t : WordTree,
      makeWordTree dict = .ok t ∧
      (∀ (q : List Char) (fuel : Nat) (r : List Nat), findAllWords fuel q t = .ok r →
        ∀ m ∈ r, ∃ s : List Char,
          (∀ pf, m + 2 ≤ pf → printNode t.heap pf (some m) = .ok s) ∧
          ∀ l : Char, s.count l ≤ q.count l) ∧
      (∀ (q : List Char) (fuel : Nat), (∀ c ∈ q, isLower c) → FitsInt q → q.length < fuel →
        ∃ r : List Nat, findAllWords fuel q t = .ok r) := by
  obtain ⟨t, ht, inv⟩ := makeWordTree_Inv dict hd
  refine ⟨t, ht, ?_, fun q fuel hq hfit hfuel =>
    ⟨_, findAllWords_built inv q hq hfit fuel hfuel⟩⟩
  intro q fuel r hr m hm
  obtain ⟨_, hres⟩ := findAllWords_ok inv.roots inv.wf inv.lower hr
  rw [hres] at hm
  obtain ⟨he, hs⟩ := (mem_collected inv q m).mp hm
  obtain ⟨x, hx, _⟩ := isEnd_valid he
  exact ⟨wordOf t.heap m, (printNode_iff inv.wf hx _).mpr rfl, count_le_of_subperm hs⟩

/-- Witness for C2: the dictionary aa; the query a collects nothing and the query aa
collects the node of aa. -/
theorem C2_availability_witness :
    (∀ w ∈ [['a', 'a']], ValidWord w) ∧
    (∃ t : WordTree,
      makeWordTree [['a', 'a']] = .ok t ∧
      (∀ (q : List Char) (fuel : Nat) (r : List Nat), findAllWords fuel q t = .ok r →
        ∀ m ∈ r, ∃ s : List Char,
          (∀ pf, m + 2 ≤ pf → printNode t.heap pf (some m) = .ok s) ∧
          ∀ l : Char, s.count l ≤ q.count l) ∧
      (∀ (q : List Char) (fuel : Nat), (∀ c ∈ q, isLower c) → FitsInt q → q.length < fuel →
        ∃ r : List Nat, findAllWords fuel q t = .ok r)) ∧
    (makeWordTree [['a', 'a']]).bind (findAllWords 2 ['a']) = .ok [] ∧
    (makeWordTree [['a', 'a']]).bind (findAllWords 3 ['a', 'a']) = .ok [26] :=
  ⟨by decide, C2_availability [['a', 'a']] (by decide), by decide, by decide⟩

/-- C3 (round trip without duplicates), for the queries that fit the machine integers.
For every dictionary of non-empty lowercase words, every word `w` of it (however often
it occurs) and every lowercase query of fewer than `2^32` characters in which each letter
occurs at least as often as in `w` and at most `2^31 - 1` times, the sequence collected
by `findAllWords` has exactly one entry whose printed string is `w`. -/
theorem C3_round_trip (dict : List (List Char)) (q w : List Char) (fuel : Nat)
    (hd : ∀ x ∈ dict, ValidWord x) (hq : ∀ c ∈ q, isLower c) (hfit : FitsInt q)
    (hfuel : q.length < fuel)
    (hw : w ∈ dict) (hcount : ∀ l : Char, w.count l ≤ q.count l) :
    ∃ (t : WordTree) (r : List Nat),
      makeWordTree dict = .ok t ∧ findAllWords fuel q t = .ok r ∧
      r.countP (fun n => decide (printNode t.heap (n + 2) (some n) = .ok w)) = 1 := by
  obtain ⟨t, ht, inv⟩ := makeWordTree_Inv dict hd
  refine ⟨t, _, ht, findAllWords_built inv q hq hfit fuel hfuel, ?_⟩
  obtain ⟨n, he, hwn⟩ := inv.found w hw
  obtain ⟨x, hx, _⟩ := isEnd_valid he
  have hmem : n ∈ (preorderAll t).filter (collectible t.heap q) :=
    (mem_collected inv q n).mpr ⟨he, by rw [hwn]; exact subperm_of_count_le hcount⟩
  have hnd : ((preorderAll t).filter (collectible t.heap q)).Nodup :=
    (preorderAll_nodup inv.roots inv.wf).filter _
  rw [← List.count_eq_one_of_mem hnd hmem, List.count]
  apply List.countP_congr
  intro m hm
  obtain ⟨hem, _⟩ := (mem_collected inv q m).mp hm
  obtain ⟨y, hy, _⟩ := isEnd_valid hem
  rw [printNode_enough inv.wf hy (m + 2) (le_refl _)]
  simp only [decide_eq_true_eq, beq_iff_eq, Except.ok.injEq]
  constructor
  · intro hwm
    exact wordOf_inj inv.wf m n y x hy hx (hwm.trans hwn.symm)
  · intro hmn
    rw [hmn, hwn]

/-- Witness for C3: the word lad, inserted twice, is collected once for the query
adiln. -/
theorem C3_round_trip_witness :
    ((∀ x ∈ dictLad, ValidWord x) ∧ (∀ c ∈ queryAdiln, isLower c) ∧ FitsInt queryAdiln ∧
      queryAdiln.length < 6 ∧
      ['l', 'a', 'd'] ∈ dictLad ∧ ∀ l : Char, ['l', 'a', 'd'].count l ≤ queryAdiln.count l) ∧
    (∃ (t : WordTree) (r : List Nat),
      makeWordTree dictLad = .ok t ∧ findAllWords 6 queryAdiln t = .ok r ∧
      r.countP (fun n => decide (printNode t.heap (n + 2) (some n) = .ok ['l', 'a', 'd'])) = 1) :=
  have hc : ∀ l : Char, ['l', 'a', 'd'].count l ≤ queryAdiln.count l :=
    fun l => count_le_of_subperm (by decide) l
  ⟨⟨by decide, by decide, FitsInt_of_length (by decide), by decide, by decide, hc⟩,
    C3_round_trip dictLad queryAdiln ['l', 'a', 'd'] 6 (by decide) (by decide)
      (FitsInt_of_length (by decide)) (by decide) (by decide) hc⟩

/-- Counterexample to C3 as stated: the dictionary a, the word a and the query made of
`2^31` letters a. Every letter occurs in the query at least as often as in the word, but
the count of a overflows in the counting loop and the collected sequence has no entry
for the word, whatever the recursion budget. -/
theorem C3_counterexample :
    (∀ x ∈ [['a']], ValidWord x) ∧ (∀ c ∈ List.replicate 2147483648 'a', isLower c) ∧
    ['a'] ∈ [['a']] ∧
    (∀ l : Char, ['a'].count l ≤ (List.replicate 2147483648 'a').count l) ∧
    ∃ t : WordTree, makeWordTree [['a']] = .ok t ∧
      ∀ (fuel : Nat) (r : List Nat),
        findAllWords fuel (List.replicate 2147483648 'a') t ≠ .ok r := by
  obtain ⟨t, ht, _⟩ := makeWordTree_Inv [['a']] (by decide)
  refine ⟨by decide, giant_isLower, by decide, count_le_of_subperm a_subperm_giant, t, ht,
    ?_⟩
  intro fuel r hr
  rw [findAllWords_giant fuel t] at hr
  cases hr

/-- C4 (output order), for the queries that fit the machine integers. For every
dictionary of non-empty lowercase words and every lowercase query of fewer than `2^32`
characters in which no letter occurs more than `2^31 - 1` times, the sequence collected
by `findAllWords` is the pre-order traversal of the 26 trees (roots in array order,
children in child-list order, a node before its descendants; the traversal lists every
node of the heap exactly once) filtered to the nodes that are word ends and whose word
is a sub-multiset of the query. -/
theorem C4_output_order (dict : List (List Char)) (q : List Char) (fuel : Nat)
    (hd : ∀ w ∈ dict, ValidWord w) (hq : ∀ c ∈ q, isLower c) (hfit : FitsInt q)
    (hfuel : q.length < fuel) :
    ∃ t : WordTree,
      makeWordTree dict = .ok t ∧
      (preorderAll t).Nodup ∧ (∀ n, n ∈ preorderAll t ↔ n < t.heap.length) ∧
      findAllWords fuel q t
        = .ok ((preorderAll t).filter
            (fun n => isEnd t.heap n && decide ((wordOf t.heap n).Subperm q))) := by
  obtain ⟨t, ht, inv⟩ := makeWordTree_Inv dict hd
  refine ⟨t, ht, preorderAll_nodup inv.roots inv.wf, ?_,
    findAllWords_built inv q hq hfit fuel hfuel⟩
  intro n
  constructor
  · intro hn
    obtain ⟨x, hx⟩ := mem_preorderAll_valid inv.roots inv.wf hn
    exact lt_of_get hx
  · intro hn
    exact mem_preorderAll inv.roots inv.wf (List.getElem?_eq_getElem hn)

/-- Witness for C4: the dictionary lad, lan, lad, lin, io with the query adiln gives the
nodes of lad, lan, lin in this order. -/
theorem C4_output_order_witness :
    ((∀ w ∈ dictLad, ValidWord w) ∧ (∀ c ∈ queryAdiln, isLower c) ∧ FitsInt queryAdiln ∧
      queryAdiln.length < 6) ∧
    (∃ t : WordTree,
      makeWordTree dictLad = .ok t ∧
      (preorderAll t).Nodup ∧ (∀ n, n ∈ preorderAll t ↔ n < t.heap.length) ∧
      findAllWords 6 queryAdiln t
        = .ok ((preorderAll t).filter
            (fun n => isEnd t.heap n && decide ((wordOf t.heap n).Subperm queryAdiln)))) ∧
    (makeWordTree dictLad).bind (findAllWords 6 queryAdiln) = .ok [27, 28, 30] ∧
    (makeWordTree dictLad).bind (fun t => (preorderAll t).mapM
        (fun n => printNode t.heap (n + 2) (some n)))
      = .ok ([['a'], ['b'], ['c'], ['d'], ['e'], ['f'], ['g'], ['h'], ['i'], ['i', 'o'],
          ['j'], ['k'], ['l'], ['l', 'a'], ['l', 'a', 'd'], ['l', 'a', 'n'], ['l', 'i'],
          ['l', 'i', 'n'], ['m'], ['n'], ['o'], ['p'], ['q'], ['r'], ['s'], ['t'], ['u'],
          ['v'], ['w'], ['x'], ['y'], ['z']]) :=
  ⟨⟨by decide, by decide, FitsInt_of_length (by decide), by decide⟩,
    C4_output_order dictLad queryAdiln 6 (by decide) (by decide)
      (FitsInt_of_length (by decide)) (by decide),
    by decide, by decide⟩

/-- Counterexample to C4 as stated: the dictionary a and the query made of `2^31`
letters a. The root of a (node 0) is a word end whose word is a sub-multiset of the
query, so the filtered pre-order traversal contains it; `findAllWords` overflows the
count of a and returns no sequence, whatever the recursion budget. -/
theorem C4_counterexample :
    (∀ w ∈ [['a']], ValidWord w) ∧ (∀ c ∈ List.replicate 2147483648 'a', isLower c) ∧
    ∃ t : WordTree, makeWordTree [['a']] = .ok t ∧
      0 ∈ (preorderAll t).filter (fun n => isEnd t.heap n &&
        decide ((wordOf t.heap n).Subperm (List.replicate 2147483648 'a'))) ∧
      ∀ fuel : Nat,
        findAllWords fuel (List.replicate 2147483648 'a') t = .error .overflow := by
  obtain ⟨t, ht, inv⟩ := makeWordTree_Inv [['a']] (by decide)
  have h0 : (makeWordTree [['a']]).bind (fun t => .ok (isEnd t.heap 0, wordOf t.heap 0))
      = .ok (true, ['a']) := by decide
  rw [ht] at h0
  simp only [Except.bind, Except.ok.injEq, Prod.mk.injEq] at h0
  refine ⟨by decide, giant_isLower, t, ht, ?_, fun fuel => findAllWords_giant fuel t⟩
  exact (mem_collected inv _ 0).mpr ⟨h0.1, by rw [h0.2]; exact a_subperm_giant⟩

/-- C8 (totality on the documented domain), with the range of the counters. For every
dictionary of non-empty lowercase words and every lowercase query, every index
`int(c) - 97` that `makeWordTree`, `findAllWords` and `findWord` compute (for the first
letter of a dictionary word, for a character of the query, for the letter of a node of
the trie) lies in 0..25 and the trie is built. When the query has fewer than `2^32`
characters and no letter more than `2^31 - 1` times, the search returns and every
collected node prints; for every other lowercase query the counting loop of
`findAllWords` overflows. -/
theorem C8_totality (dict : List (List Char)) (q : List Char) (fuel : Nat)
    (hd : ∀ w ∈ dict, ValidWord w) (hq : ∀ c ∈ q, isLower c) (hfuel : q.length < fuel) :
    ∃ t : WordTree,
      makeWordTree dict = .ok t ∧
      (∀ w ∈ dict, 0 ≤ letterIndex (w.headD (Char.ofNat 0)) ∧
        letterIndex (w.headD (Char.ofNat 0)) < 26) ∧
      (∀ c ∈ q, 0 ≤ letterIndex c ∧ letterIndex c < 26) ∧
      (∀ nd ∈ t.heap, 0 ≤ letterIndex nd.letter ∧ letterIndex nd.letter < 26) ∧
      (FitsInt q → ∃ r : List Nat, findAllWords fuel q t = .ok r ∧
        ∀ n ∈ r, ∃ s : List Char, printNode t.heap (n + 2) (some n) = .ok s) ∧
      (¬ FitsInt q → findAllWords fuel q t = .error .overflow) := by
  obtain ⟨t, ht, inv⟩ := makeWordTree_Inv dict hd
  refine ⟨t, ht, ?_, ?_, ?_, ?_, findAllWords_not_fits fuel t q hq⟩
  · intro w hw
    obtain ⟨hne, hlow⟩ := hd w hw
    cases w with
    | nil => exact absurd rfl hne
    | cons c rest => exact (letterIndex_range_iff c).mpr (hlow c (List.mem_cons_self _ _))
  · intro c hc
    exact (letterIndex_range_iff c).mpr (hq c hc)
  · intro nd hnd
    exact (letterIndex_range_iff _).mpr (inv.lower nd hnd)
  · intro hfit
    refine ⟨_, findAllWords_built inv q hq hfit fuel hfuel, ?_⟩
    intro n hn
    obtain ⟨he, _⟩ := (mem_collected inv q n).mp hn
    obtain ⟨x, hx, _⟩ := isEnd_valid he
    exact ⟨_, printNode_enough inv.wf hx (n + 2) (le_refl _)⟩

/-- Witness for C8: the dictionary lad, lan, lad, lin, io and the query adiln, which
fits the machine integers. -/
theorem C8_totality_witness :
    ((∀ w ∈ dictLad, ValidWord w) ∧ (∀ c ∈ queryAdiln, isLower c) ∧ queryAdiln.length < 6) ∧
    (∃ t : WordTree,
      makeWordTree dictLad = .ok t ∧
      (∀ w ∈ dictLad, 0 ≤ letterIndex (w.headD (Char.ofNat 0)) ∧
        letterIndex (w.headD (Char.ofNat 0)) < 26) ∧
      (∀ c ∈ queryAdiln, 0 ≤ letterIndex c ∧ letterIndex c < 26) ∧
      (∀ nd ∈ t.heap, 0 ≤ letterIndex nd.letter ∧ letterIndex nd.letter < 26) ∧
      (FitsInt queryAdiln → ∃ r : List Nat, findAllWords 6 queryAdiln t = .ok r ∧
        ∀ n ∈ r, ∃ s : List Char, printNode t.heap (n + 2) (some n) = .ok s) ∧
      (¬ FitsInt queryAdiln → findAllWords 6 queryAdiln t = .error .overflow)) ∧
    FitsInt queryAdiln ∧
    (makeWordTree dictLad).bind (printedWords 6 queryAdiln)
      = .ok [['l', 'a', 'd'], ['l', 'a', 'n'], ['l', 'i', 'n']] :=
  ⟨⟨by decide, by decide, by decide⟩,
    C8_totality dictLad queryAdiln 6 (by decide) (by decide) (by decide),
    FitsInt_of_length (by decide), by decide⟩

/-- Counterexample to C8 as stated: the dictionary a and the query made of `2^31`
letters a lie in the documented domain and every index computed for the query is 0,
within 0..25, but `findAllWords` fails: the statement `letters[0] += 1` at line 105
overflows the `int` count on the last character, whatever the recursion budget. -/
theorem C8_counterexample :
    (∀ w ∈ [['a']], ValidWord w) ∧
    (∀ c ∈ List.replicate 2147483648 'a',
      isLower c ∧ 0 ≤ letterIndex c ∧ letterIndex c < 26) ∧
    ∃ t : WordTree, makeWordTree [['a']] = .ok t ∧
      ∀ fuel : Nat,
        findAllWords fuel (List.replicate 2147483648 'a') t = .error .overflow := by
  obtain ⟨t, ht, _⟩ := makeWordTree_Inv [['a']] (by decide)
  refine ⟨by decide, ?_, t, ht, fun fuel => findAllWords_giant fuel t⟩
  intro c hc
  exact ⟨giant_isLower c hc, (letterIndex_range_iff c).mpr (giant_isLower c hc)⟩

/-- C14 (determinism across calls). On a trie built from non-empty lowercase words, with
the memory of the nodes handed to every statement of `findAllWords` and `findWord` and
handed back: a call that returns leaves the trie as it found it and collects what
`findAllWords` collects; when two successive calls with the same query return, the
second one running on the memory the first one left, the trie is unchanged and the two
collected sequences are identical, whatever recursion budget each call is given; and
for a lowercase query that fits the machine integers the two calls do return. -/
theorem C14_determinism (dict : List (List Char)) (hd : ∀ w ∈ dict, ValidWord w) :
    ∃ t : WordTree,
      makeWordTree dict = .ok t ∧
      (∀ (fuel : Nat) (q : List Char) (t1 : WordTree) (r : List Nat),
        findAllWordsMem fuel q t = .ok (t1, r) → t1 = t ∧ findAllWords fuel q t = .ok r) ∧
      (∀ (fuel1 fuel2 : Nat) (q : List Char) (t2 : WordTree) (r1 r2 : List Nat),
        twoCalls fuel1 fuel2 q t = .ok (t2, r1, r2) → t2 = t ∧ r1 = r2) ∧
      (∀ (fuel1 fuel2 : Nat) (q : List Char), (∀ c ∈ q, isLower c) → FitsInt q →
        q.length < fuel1 → q.length < fuel2 →
        ∃ r : List Nat, twoCalls fuel1 fuel2 q t = .ok (t, r, r)) := by
  obtain ⟨t, ht, inv⟩ := makeWordTree_Inv dict hd
  refine ⟨t, ht, fun fuel q t1 r hm => findAllWordsMem_ok hm, ?_, ?_⟩
  · intro fuel1 fuel2 q t2 r1 r2 h
    unfold twoCalls at h
    cases h1 : findAllWordsMem fuel1 q t with
    | error e => simp [h1, bind, Except.bind] at h
    | ok res1 =>
      obtain ⟨t1, s1⟩ := res1
      obtain ⟨ht1, hf1⟩ := findAllWordsMem_ok h1
      subst ht1
      simp only [h1, bind, Except.bind] at h
      cases h2 : findAllWordsMem fuel2 q t1 with
      | error e => simp [h2] at h
      | ok res2 =>
        obtain ⟨t3, s2⟩ := res2
        obtain ⟨ht3, hf2⟩ := findAllWordsMem_ok h2
        simp only [h2, Except.ok.injEq, Prod.mk.injEq] at h
        obtain ⟨h3, h4, h5⟩ := h
        obtain ⟨_, hs1⟩ := findAllWords_ok inv.roots inv.wf inv.lower hf1
        obtain ⟨_, hs2⟩ := findAllWords_ok inv.roots inv.wf inv.lower hf2
        exact ⟨by rw [← h3, ht3], by rw [← h4, ← h5, hs1, hs2]⟩
  · intro fuel1 fuel2 q hq hfit h1 h2
    refine ⟨(preorderAll t).filter (collectible t.heap q), ?_⟩
    unfold twoCalls
    rw [findAllWordsMem_eq, findAllWords_built inv q hq hfit fuel1 h1]
    simp only [Except.map, bind, Except.bind]
    rw [findAllWordsMem_eq, findAllWords_built inv q hq hfit fuel2 h2]
    rfl

/-- Witness for C14: the dictionary lad, lan, lad, lin, io and the query adiln, with the
recursion budgets 6 and 9: both calls collect the nodes 27, 28, 30 and the trie after
the two calls is the trie that was built. -/
theorem C14_determinism_witness :
    (∀ w ∈ dictLad, ValidWord w) ∧
    (∃ t : WordTree,
      makeWordTree dictLad = .ok t ∧
      (∀ (fuel : Nat) (q : List Char) (t1 : WordTree) (r : List Nat),
        findAllWordsMem fuel q t = .ok (t1, r) → t1 = t ∧ findAllWords fuel q t = .ok r) ∧
      (∀ (fuel1 fuel2 : Nat) (q : List Char) (t2 : WordTree) (r1 r2 : List Nat),
        twoCalls fuel1 fuel2 q t = .ok (t2, r1, r2) → t2 = t ∧ r1 = r2) ∧
      (∀ (fuel1 fuel2 : Nat) (q : List Char), (∀ c ∈ q, isLower c) → FitsInt q →
        q.length < fuel1 → q.length < fuel2 →
        ∃ r : List Nat, twoCalls fuel1 fuel2 q t = .ok (t, r, r))) ∧
    (makeWordTree dictLad).bind (fun t => (twoCalls 6 9 queryAdiln t).map
        (fun x => (decide (x.1.heap = t.heap ∧ x.1.roots = t.roots), x.2)))
      = .ok (true, [27, 28, 30], [27, 28, 30]) :=
  ⟨by decide, C14_determinism dictLad (by decide), by decide⟩

/-- C15 (backtracking restores the counts exactly). In a trie built from non-empty
lowercase words, a call of `findWord` on any node with any array of 26 counts returns
(given a recursion budget larger than the number of nodes allocated after that node)
with the count array equal to the one it was given; whenever a call of `findWord`
returns, with whatever budget and arguments, the array is the one it was given;
`findAllWords` on a lowercase query that fits the machine integers ends its root loop
with the counts computed from the query by the counting loop; and whenever
`findAllWords` completes its root loop, on whatever query, the counts are those the
counting loop computed. -/
theorem C15_backtracking_restores (dict : List (List Char)) (q : List Char) (fuel : Nat)
    (hd : ∀ w ∈ dict, ValidWord w) (hq : ∀ c ∈ q, isLower c) (hfit : FitsInt q)
    (hfuel : q.length < fuel) :
    ∃ t : WordTree,
      makeWordTree dict = .ok t ∧
      (∀ (n : Nat) (x : LetterNode), t.heap[n]? = some x →
        ∀ (letters : List Int) (known : List Nat) (f : Nat),
          letters.length = 26 → t.heap.length < f + n →
          ∃ known2 : List Nat, findWord t.heap f letters n known = .ok (letters, known2)) ∧
      (∀ (f : Nat) (letters : List Int) (n : Nat) (known : List Nat) (l : List Int)
        (k : List Nat), findWord t.heap f letters n known = .ok (l, k) → l = letters) ∧
      (∃ (counts : List Int) (words : List Nat),
        countLetters q (List.replicate 26 0) = .ok counts ∧
        findAllWordsState fuel q t = .ok (counts, words)) ∧
      (∀ (f : Nat) (g : List Char) (l : List Int) (k : List Nat),
        findAllWordsState f g t = .ok (l, k) → countLetters g (List.replicate 26 0) = .ok l) := by
  obtain ⟨t, ht, inv⟩ := makeWordTree_Inv dict hd
  refine ⟨t, ht, ?_, findWord_restores t.heap, ?_,
    fun f g l k => findAllWordsState_restores f g t l k⟩
  · intro n x hx letters known f hlen hf
    exact findWord_returns inv.wf inv.lower f n x hx hf letters known hlen
  · obtain ⟨counts, hc, hs⟩ := findAllWordsState_built inv q hq hfit fuel hfuel
    exact ⟨counts, _, hc, hs⟩

/-- Witness for C15: the dictionary lad, lan, lad, lin, io; `findWord` on the root of l
with two copies of every letter available returns the same array and the nodes of lad,
lan, lin; the query adiln ends with one a, d, i, l, n. -/
theorem C15_backtracking_restores_witness :
    ((∀ w ∈ dictLad, ValidWord w) ∧ (∀ c ∈ queryAdiln, isLower c) ∧ FitsInt queryAdiln ∧
      queryAdiln.length < 6) ∧
    (∃ t : WordTree,
      makeWordTree dictLad = .ok t ∧
      (∀ (n : Nat) (x : LetterNode), t.heap[n]? = some x →
        ∀ (letters : List Int) (known : List Nat) (f : Nat),
          letters.length = 26 → t.heap.length < f + n →
          ∃ known2 : List Nat, findWord t.heap f letters n known = .ok (letters, known2)) ∧
      (∀ (f : Nat) (letters : List Int) (n : Nat) (known : List Nat) (l : List Int)
        (k : List Nat), findWord t.heap f letters n known = .ok (l, k) → l = letters) ∧
      (∃ (counts : List Int) (words : List Nat),
        countLetters queryAdiln (List.replicate 26 0) = .ok counts ∧
        findAllWordsState 6 queryAdiln t = .ok (counts, words)) ∧
      (∀ (f : Nat) (g : List Char) (l : List Int) (k : List Nat),
        findAllWordsState f g t = .ok (l, k) →
          countLetters g (List.replicate 26 0) = .ok l)) ∧
    (makeWordTree dictLad).bind (fun t => findWord t.heap 3 (List.replicate 26 2) 11 [])
      = .ok (List.replicate 26 2, [27, 28, 30]) ∧
    (makeWordTree dictLad).bind (findAllWordsState 6 queryAdiln)
      = .ok ([1, 0, 0, 1, 0, 0, 0, 0, 1, 0, 0, 1, 0, 1, 0, 0, 0, 0, 0, 0, 0, 0, 0, 0, 0, 0],
          [27, 28, 30]) :=
  ⟨⟨by decide, by decide, FitsInt_of_length (by decide), by decide⟩,
    C15_backtracking_restores dictLad queryAdiln 6 (by decide) (by decide)
      (FitsInt_of_length (by decide)) (by decide),
    by decide, by decide⟩

/-- C16 (insert only extends the trie). The insertion of a non-empty lowercase word into
a trie built from such words keeps the root array and every node: each node keeps its
letter and its parent, a word-end flag that was set stays set, and each child list is
the old list followed by pointers to newly allocated nodes. Hence, whenever the search
for a query returns before and after the insertion, every node collected before is
still collected after it and prints as the same word; and both searches return for a
lowercase query that fits the machine integers. -/
theorem C16_insert_extends (dict : List (List Char)) (w : List Char)
    (hd : ∀ x ∈ dict, ValidWord x) (hw : ValidWord w) :
    ∃ (t t1 : WordTree),
      makeWordTree dict = .ok t ∧ insertWord t w = .ok t1 ∧
      t1.roots = t.roots ∧ t.heap.length ≤ t1.heap.length ∧
      (∀ (n : Nat) (x : LetterNode), t.heap[n]? = some x →
        ∃ x1 : LetterNode, t1.heap[n]? = some x1 ∧ x1.letter = x.letter ∧
          x1.parent = x.parent ∧ (x.endOfWord = true → x1.endOfWord = true) ∧
          ∃ extra : List Nat, x1.children = x.children ++ extra ∧
            ∀ e ∈ extra, t.heap.length ≤ e) ∧
      (∀ (q : List Char) (fuel fuel1 : Nat) (r r1 : List Nat),
        findAllWords fuel q t = .ok r → findAllWords fuel1 q t1 = .ok r1 →
        ∀ n ∈ r, n ∈ r1 ∧
          printNode t1.heap (n + 2) (some n) = printNode t.heap (n + 2) (some n)) ∧
      (∀ (q : List Char) (fuel : Nat), (∀ c ∈ q, isLower c) → FitsInt q → q.length < fuel →
        ∃ r r1 : List Nat, findAllWords fuel q t = .ok r ∧ findAllWords fuel q t1 = .ok r1) := by
  obtain ⟨t, ht, inv⟩ := makeWordTree_Inv dict hd
  obtain ⟨t1, h1, inv1, e⟩ := Inv_step inv hw
  refine ⟨t, t1, ht, h1, inv1.roots.trans inv.roots.symm, e.len, e.old, ?_,
    fun q fuel hq hfit hfuel => ⟨_, _, findAllWords_built inv q hq hfit fuel hfuel,
      findAllWords_built inv1 q hq hfit fuel hfuel⟩⟩
  intro q fuel fuel1 r r1 hr hr1 n hn
  obtain ⟨_, hres⟩ := findAllWords_ok inv.roots inv.wf inv.lower hr
  obtain ⟨_, hres1⟩ := findAllWords_ok inv1.roots inv1.wf inv1.lower hr1
  rw [hres] at hn
  obtain ⟨he, hs⟩ := (mem_collected inv q n).mp hn
  obtain ⟨x, hx, hxe⟩ := isEnd_valid he
  obtain ⟨x1, hx1, _, _, hflag, _⟩ := e.old n x hx
  have hword := wordOf_ext inv.wf inv1.wf e n x hx
  constructor
  · rw [hres1]
    refine (mem_collected inv1 q n).mpr ⟨?_, by rw [hword]; exact hs⟩
    simp [isEnd, hx1, hflag hxe]
  · rw [printNode_enough inv1.wf hx1 _ (le_refl _), printNode_enough inv.wf hx _ (le_refl _),
      hword]

/-- Witness for C16: the word lid is inserted into the trie of lad, lan, lad, lin, io;
the query adiln collected the nodes 27, 28, 30 before and collects 27, 28, 30 and the
new node 32 after. -/
theorem C16_insert_extends_witness :
    ((∀ x ∈ dictLad, ValidWord x) ∧ ValidWord ['l', 'i', 'd']) ∧
    (∃ (t t1 : WordTree),
      makeWordTree dictLad = .ok t ∧ insertWord t ['l', 'i', 'd'] = .ok t1 ∧
      t1.roots = t.roots ∧ t.heap.length ≤ t1.heap.length ∧
      (∀ (n : Nat) (x : LetterNode), t.heap[n]? = some x →
        ∃ x1 : LetterNode, t1.heap[n]? = some x1 ∧ x1.letter = x.letter ∧
          x1.parent = x.parent ∧ (x.endOfWord = true → x1.endOfWord = true) ∧
          ∃ extra : List Nat, x1.children = x.children ++ extra ∧
            ∀ e ∈ extra, t.heap.length ≤ e) ∧
      (∀ (q : List Char) (fuel fuel1 : Nat) (r r1 : List Nat),
        findAllWords fuel q t = .ok r → findAllWords fuel1 q t1 = .ok r1 →
        ∀ n ∈ r, n ∈ r1 ∧
          printNode t1.heap (n + 2) (some n) = printNode t.heap (n + 2) (some n)) ∧
      (∀ (q : List Char) (fuel : Nat), (∀ c ∈ q, isLower c) → FitsInt q → q.length < fuel →
        ∃ r r1 : List Nat,
          findAllWords fuel q t = .ok r ∧ findAllWords fuel q t1 = .ok r1)) ∧
    (makeWordTree dictLad).bind (findAllWords 6 queryAdiln) = .ok [27, 28, 30] ∧
    (makeWordTree (dictLad ++ [['l', 'i', 'd']])).bind (findAllWords 6 queryAdiln)
      = .ok [27, 28, 30, 32] :=
  ⟨⟨by decide, by decide⟩,
    C16_insert_extends dictLad ['l', 'i', 'd'] (by decide) (by decide),
    by decide, by decide⟩

/-- C17 (bounded recursion), as the code has it. The fuel of `findWord` is its recursion
budget: a call with fuel `f` on a root can only enter nodes whose path has at most `f`
letters, and fails with `outOfFuel` if the search tries to go deeper. On the trie built
from any dictionary of non-empty lowercase words, `findWord` returns on every node and
every array of 26 counts; in every search that returns, whatever the query, every node
on which `findWord` was called spells a path of at most as many letters as the query
has and as the longest dictionary word has (1 for the empty dictionary, whose 26 roots
are visited all the same); and for a lowercase query that fits the machine integers the
search returns as soon as the budget is at least the smaller of these two bounds, the
collected nodes being among the visited ones. -/
theorem C17_bounded_recursion (dict : List (List Char)) (hd : ∀ w ∈ dict, ValidWord w) :
    ∃ t : WordTree,
      makeWordTree dict = .ok t ∧
      (∀ (n : Nat) (x : LetterNode), t.heap[n]? = some x →
        ∀ (letters : List Int) (known : List Nat) (f : Nat),
          letters.length = 26 → t.heap.length < f + n →
          ∃ (l : List Int) (k : List Nat), findWord t.heap f letters n known = .ok (l, k)) ∧
      (∀ (q : List Char) (fuel : Nat) (v : List Nat), visitedNodes fuel q t = .ok v →
        ∀ n ∈ v, ∃ s : List Char, printNode t.heap (n + 2) (some n) = .ok s ∧
          s.length ≤ max 1 (maxWordLength dict) ∧ s.length ≤ q.length) ∧
      (∀ (q : List Char) (fuel : Nat), (∀ c ∈ q, isLower c) → FitsInt q →
        min (max 1 (maxWordLength dict)) q.length ≤ fuel →
        ∃ r v : List Nat, findAllWords fuel q t = .ok r ∧ visitedNodes fuel q t = .ok v ∧
          ∀ n ∈ r, n ∈ v) ∧
      (dict ≠ [] → max 1 (maxWordLength dict) = maxWordLength dict) := by
  obtain ⟨t, ht, inv⟩ := makeWordTree_Inv dict hd
  refine ⟨t, ht, ?_, ?_, ?_, maxWordLength_pos hd⟩
  · intro n x hx letters known f hlen hf
    obtain ⟨k, hk⟩ := findWord_returns inv.wf inv.lower f n x hx hf letters known hlen
    exact ⟨_, k, hk⟩
  · intro q fuel v hv n hn
    obtain ⟨x, hx, hs⟩ := visitedNodes_ok inv hv n hn
    exact ⟨_, printNode_enough inv.wf hx _ (le_refl _), inv.depth_le hx, subperm_length_le hs⟩
  · intro q fuel hq hfit hfuel
    have hD : ∀ (m : Nat) (md : LetterNode), t.heap[m]? = some md →
        (wordOf t.heap m).Subperm q →
        (wordOf t.heap m).length ≤ min (max 1 (maxWordLength dict)) q.length := by
      intro m md hm hs
      exact le_min (inv.depth_le hm) (subperm_length_le hs)
    obtain ⟨v, hv, hsup, _⟩ := visitedNodes_built inv q hq hfit fuel hfuel
    refine ⟨_, v, findAllWords_depth inv.roots inv.wf inv.lower q hq hfit _ hD fuel hfuel,
      hv, ?_⟩
    intro n hn
    obtain ⟨he, hs⟩ := (mem_collected inv q n).mp hn
    exact hsup n he hs

/-- Witness for the amended C17: the dictionary lad, lan, lad, lin, io (longest word of
length 3) and the query adiln; the budget 3 suffices and the budget 2 does not; the
visited nodes are the roots of a, d, i, l, the nodes of la, lad, lan, li, lin, and the
root of n. -/
theorem C17_bounded_recursion_witness :
    (∀ w ∈ dictLad, ValidWord w) ∧
    (∃ t : WordTree,
      makeWordTree dictLad = .ok t ∧
      (∀ (n : Nat) (x : LetterNode), t.heap[n]? = some x →
        ∀ (letters : List Int) (known : List Nat) (f : Nat),
          letters.length = 26 → t.heap.length < f + n →
          ∃ (l : List Int) (k : List Nat), findWord t.heap f letters n known = .ok (l, k)) ∧
      (∀ (q : List Char) (fuel : Nat) (v : List Nat), visitedNodes fuel q t = .ok v →
        ∀ n ∈ v, ∃ s : List Char, printNode t.heap (n + 2) (some n) = .ok s ∧
          s.length ≤ max 1 (maxWordLength dictLad) ∧ s.length ≤ q.length) ∧
      (∀ (q : List Char) (fuel : Nat), (∀ c ∈ q, isLower c) → FitsInt q →
        min (max 1 (maxWordLength dictLad)) q.length ≤ fuel →
        ∃ r v : List Nat, findAllWords fuel q t = .ok r ∧ visitedNodes fuel q t = .ok v ∧
          ∀ n ∈ r, n ∈ v) ∧
      (dictLad ≠ [] → max 1 (maxWordLength dictLad) = maxWordLength dictLad)) ∧
    min (max 1 (maxWordLength dictLad)) queryAdiln.length = 3 ∧
    (makeWordTree dictLad).bind (findAllWords 3 queryAdiln) = .ok [27, 28, 30] ∧
    (makeWordTree dictLad).bind (visitedNodes 3 queryAdiln)
      = .ok [0, 3, 8, 11, 26, 27, 28, 29, 30, 13] ∧
    (makeWordTree dictLad).bind (findAllWords 2 queryAdiln) = .error .outOfFuel :=
  ⟨by decide, C17_bounded_recursion dictLad (by decide), by decide, by decide, by decide,
    by decide⟩

/-- Counterexample to C17 as stated: with the empty dictionary (longest word of length 0)
and the query a, `findAllWords` calls `findWord` on the root of a (node 0), whose path is
the single letter a, depth 1: the search fails with the recursion budget 0 and returns
with the budget 1. -/
theorem C17_counterexample :
    makeWordTree [] = .ok initialTree ∧ maxWordLength [] = 0 ∧
    visitedNodes 1 ['a'] initialTree = .ok [0] ∧
    printNode initialTree.heap 2 (some 0) = .ok ['a'] ∧
    findAllWords 0 ['a'] initialTree = .error .outOfFuel ∧
    findAllWords 1 ['a'] initialTree = .ok [] := by
  decide

/-- C19 (the result depends only on the letter multiset of the query). On a trie built
from non-empty lowercase words, two lowercase queries that are permutations of each
other give the same outcome of `findAllWords` for every recursion budget: the same
sequence of nodes when one of the calls returns, the same fault otherwise; and both
calls return, with one sequence, when the query fits the machine integers and the
budget exceeds its length. -/
theorem C19_permutation_invariant (dict : List (List Char)) (q q2 : List Char)
    (hd : ∀ w ∈ dict, ValidWord w) (hq : ∀ c ∈ q, isLower c) (hperm : q.Perm q2) :
    ∃ t : WordTree,
      makeWordTree dict = .ok t ∧
      (∀ fuel : Nat, findAllWords fuel q t = findAllWords fuel q2 t) ∧
      (∀ fuel : Nat, FitsInt q → q.length < fuel →
        ∃ r : List Nat, findAllWords fuel q t = .ok r ∧ findAllWords fuel q2 t = .ok r) := by
  obtain ⟨t, ht, inv⟩ := makeWordTree_Inv dict hd
  refine ⟨t, ht, fun fuel => findAllWords_perm fuel t hq hperm, ?_⟩
  intro fuel hfit hfuel
  refine ⟨_, findAllWords_built inv q hq hfit fuel hfuel, ?_⟩
  rw [← findAllWords_perm fuel t hq hperm]
  exact findAllWords_built inv q hq hfit fuel hfuel

/-- Witness for C19: the queries adiln and nlida over the dictionary lad, lan, lad, lin,
io. -/
theorem C19_permutation_invariant_witness :
    ((∀ w ∈ dictLad, ValidWord w) ∧ (∀ c ∈ queryAdiln, isLower c) ∧
      queryAdiln.Perm ['n', 'l', 'i', 'd', 'a']) ∧
    (∃ t : WordTree,
      makeWordTree dictLad = .ok t ∧
      (∀ fuel : Nat,
        findAllWords fuel queryAdiln t = findAllWords fuel ['n', 'l', 'i', 'd', 'a'] t) ∧
      (∀ fuel : Nat, FitsInt queryAdiln → queryAdiln.length < fuel →
        ∃ r : List Nat, findAllWords fuel queryAdiln t = .ok r ∧
          findAllWords fuel ['n', 'l', 'i', 'd', 'a'] t = .ok r)) ∧
    (makeWordTree dictLad).bind (findAllWords 6 queryAdiln) = .ok [27, 28, 30] ∧
    (makeWordTree dictLad).bind (findAllWords 6 ['n', 'l', 'i', 'd', 'a']) = .ok [27, 28, 30] :=
  ⟨⟨by decide, by decide, by decide⟩,
    C19_permutation_invariant dictLad queryAdiln ['n', 'l', 'i', 'd', 'a'] (by decide)
      (by decide) (by decide),
    by decide, by decide⟩

/-- C20 (monotonicity in the available letters), for the queries that fit the machine
integers. On a trie built from non-empty lowercase words, when the letter multiset of
the lowercase query `q` is a sub-multiset of that of the lowercase query `q2`, and `q2`
has fewer than `2^32` characters and no letter more than `2^31 - 1` times, the sequence
collected for `q` is a subsequence (same relative order) of the sequence collected for
`q2`. -/
theorem C20_monotone (dict : List (List Char)) (q q2 : List Char) (fuel : Nat)
    (hd : ∀ w ∈ dict, ValidWord w) (hq : ∀ c ∈ q, isLower c) (hq2 : ∀ c ∈ q2, isLower c)
    (hfit : FitsInt q2) (hsub : q.Subperm q2) (hfuel : q2.length < fuel) :
    ∃ (t : WordTree) (r r2 : List Nat),
      makeWordTree dict = .ok t ∧ findAllWords fuel q t = .ok r ∧
      findAllWords fuel q2 t = .ok r2 ∧ r.Sublist r2 := by
  obtain ⟨t, ht, inv⟩ := makeWordTree_Inv dict hd
  have hlen := hsub.length_le
  refine ⟨t, _, _, ht,
    findAllWords_built inv q hq (FitsInt_of_subperm hsub hfit) fuel (by omega),
    findAllWords_built inv q2 hq2 hfit fuel hfuel, ?_⟩
  apply List.monotone_filter_right
  intro n hn
  simp only [collectible, Bool.and_eq_true, decide_eq_true_eq] at hn ⊢
  exact ⟨hn.1, hn.2.trans hsub⟩

/-- Witness for C20: the queries adl and adiln over the dictionary lad, lan, lad, lin,
io; the first collects the node of lad, the second the nodes of lad, lan, lin. -/
theorem C20_monotone_witness :
    ((∀ w ∈ dictLad, ValidWord w) ∧ (∀ c ∈ ['a', 'd', 'l'], isLower c) ∧
      (∀ c ∈ queryAdiln, isLower c) ∧ FitsInt queryAdiln ∧
      ['a', 'd', 'l'].Subperm queryAdiln ∧ queryAdiln.length < 6) ∧
    (∃ (t : WordTree) (r r2 : List Nat),
      makeWordTree dictLad = .ok t ∧ findAllWords 6 ['a', 'd', 'l'] t = .ok r ∧
      findAllWords 6 queryAdiln t = .ok r2 ∧ r.Sublist r2) ∧
    (makeWordTree dictLad).bind (findAllWords 6 ['a', 'd', 'l']) = .ok [27] :=
  ⟨⟨by decide, by decide, by decide, FitsInt_of_length (by decide), by decide, by decide⟩,
    C20_monotone dictLad ['a', 'd', 'l'] queryAdiln 6 (by decide) (by decide) (by decide)
      (FitsInt_of_length (by decide)) (by decide) (by decide),
    by decide⟩

/-- Counterexample to C20 as stated: over the dictionary a, the query a is a
sub-multiset of the query made of `2^31` letters a. The query a collects the root of a
(node 0); the long query overflows the count of a in the counting loop and collects
nothing, whatever the recursion budget, so the first sequence is no subsequence of a
second one. -/
theorem C20_counterexample :
    (∀ w ∈ [['a']], ValidWord w) ∧ (∀ c ∈ ['a'], isLower c) ∧
    (∀ c ∈ List.replicate 2147483648 'a', isLower c) ∧
    ['a'].Subperm (List.replicate 2147483648 'a') ∧
    ∃ t : WordTree, makeWordTree [['a']] = .ok t ∧
      findAllWords 2 ['a'] t = .ok [0] ∧
      ∀ fuel : Nat,
        findAllWords fuel (List.replicate 2147483648 'a') t = .error .overflow := by
  obtain ⟨t, ht, _⟩ := makeWordTree_Inv [['a']] (by decide)
  have h0 : (makeWordTree [['a']]).bind (findAllWords 2 ['a']) = .ok [0] := by decide
  rw [ht] at h0
  exact ⟨by decide, by decide, giant_isLower, a_subperm_giant, t, ht, h0,
    fun fuel => findAllWords_giant fuel t⟩

end WordsInGrid
